import Mathlib

/-!
Verification of `pyroutingtable.py`, an IP routing table implemented by two
retrieval trees: a bit-granular binary tree (`IPPrefixTree`) and a
path-compressed PATRICIA trie (`IPRadixTree`).

The Python module stores both trees as nested `dict`s whose keys are the
strings `"0"`, `"1"` (or longer bit-strings for the radix tree) plus the
special marker key `"*"` mapping to a list of `Route` objects.  We embed this
faithfully:

* dict keys are lists over the three-character alphabet `Ch` (`zero`, `one`,
  `star`), so that even the corrupted keys such as `"0*"` that the radix
  `delete` can create are representable;
* a dict is an insertion-ordered association structure `Entries`; `popitem`
  removes the most recently inserted entry, `d[k] = v` updates in place
  (keeping the position) or appends, `del d[k]` removes the entry;
* a dict value is a `PyObj`: either a list of routes (the bucket under `"*"`)
  or a child dict.  Python has no type discipline here and the code can (and,
  through a bug, does) place a list under a non-`"*"` key;
* Python exceptions are modelled by `Except PyErr`; the `@sanitize` decorator
  turns `KeyError` into `RoutingTableValidationError` (`PyErr.validation`);
* machine integers are `Nat` (Python ints are unbounded and non-negative
  here);
* the `while` loops that consume a working dict via `popitem` are modelled by
  fuel recursion over the reversed entry list; the fuel supplied by every
  wrapper strictly exceeds the number of loop steps (each step either pops an
  entry or descends into a strictly smaller subtree), so the `PyErr.noFuel`
  artefact is never returned by a wrapper.
-/

/-- The character alphabet of tree keys: the bits `'0'`/`'1'` and the bucket
marker `'*'`. -/
inductive Ch where
  | zero
  | one
  | star
deriving DecidableEq, Repr

/-- A dict key: a string over `Ch`. -/
abbrev Key := List Ch

/-- The bucket marker key `"*"`. -/
def starK : Key := [Ch.star]

/-- An IP network, identified by (version, integer network id, mask length),
mirroring `ipaddress.IPv4Network`/`IPv6Network` as consumed by the module:
`int(prefix.network_address)` is `netid` and `prefix.prefixlen` is `plen`. -/
structure IPPfx where
  version : Nat
  netid : Nat
  plen : Nat
deriving DecidableEq, Repr

/-- Address width per family: 32 bits for v4, 128 for v6. -/
def addrWidth (version : Nat) : Nat := if version = 4 then 32 else 128

/-- Models `ipaddress.ip_network(prefix, strict=False)`: the host bits (the
low `width - plen` bits of the big-endian address) are masked off.  This is
what the `@sanitize` decorator applies to every textual prefix argument. -/
def ip_network (p : IPPfx) : IPPfx :=
  ⟨p.version,
   (p.netid >>> (addrWidth p.version - p.plen)) <<< (addrWidth p.version - p.plen),
   p.plen⟩

/-- A prefix argument is well formed when its version is 4 or 6, its length
fits the family width and its network id fits the address width (Python's
`ipaddress` library guarantees all three for every parsed network). -/
def validIn (p : IPPfx) : Bool :=
  (p.version == 4 || p.version == 6) &&
    p.plen ≤ addrWidth p.version && p.netid < 2 ^ addrWidth p.version

/-- A stored prefix is additionally normalised (no host bits set), which is
true of every prefix a `Route` ever carries, because `add` stores
`str(prefix)` of the converted network. -/
def goodPfx (p : IPPfx) : Bool := validIn p && ip_network p == p

/-- The big-endian bit expansion of `n` over width `w`
(`"{:0wb}".format(n)`). -/
def bits_of_nat (w n : Nat) : List Ch :=
  (List.range w).map (fun i => if n.testBit (w - 1 - i) then Ch.one else Ch.zero)

/-- `bits_in_prefix` of the source (renamed, as `pre`-names interact with the
verification tooling): the first `plen` characters of the zero-padded
big-endian expansion of the network id of the (non-strictly parsed)
network. -/
def bits_in_pfx (p : IPPfx) : Key :=
  let q := ip_network p
  (bits_of_nat (addrWidth q.version) q.netid).take q.plen

/-- `bits_in_common`: the longest common leading run of two key strings.
The source walks `zip_longest(x, y)` and stops at the first position where
the characters differ (padding with `None` makes any overhang a mismatch). -/
def bits_in_common : List Ch → List Ch → List Ch
  | x :: xs, y :: ys => if x = y then x :: bits_in_common xs ys else []
  | _, _ => []

/-- `int_prefix_boundaries` (renamed): integer start and end of a network,
i.e. `(int(network_address), int(broadcast_address))`. -/
def int_pfx_boundaries (p : IPPfx) : Nat × Nat :=
  let q := ip_network p
  (q.netid, q.netid ||| (2 ^ (addrWidth q.version - q.plen) - 1))

/-- `int_wildcard_boundaries`: the wildcard range `(address,
address | wildcard)` over the integer forms of the two addresses. -/
def int_wildcard_boundaries (address wildcard : Nat) : Nat × Nat :=
  (address, address ||| wildcard)

/-- Route attributes: the kwargs dict of `add`, as an association list in its
(unique-key) insertion order.  Keyword arguments cannot repeat a key, and the
claims never use the reserved name `_prefix`, so dict equality coincides with
list equality for the canonical order used throughout. -/
abbrev Attrs := List (String × String)

/-- `Route`: a prefix (the source stores `str(prefix)` of the parsed network,
which round-trips to exactly the `IPPfx` triple) plus the attribute bag.
`Route.__eq__` compares the whole `__dict__`, i.e. prefix and attributes. -/
structure Route where
  pfx : IPPfx
  attrs : Attrs
deriving DecidableEq, Repr

/-- `has_all_attrs`: every requested key is an attribute of the route with
the requested value.  A missing attribute raises `AttributeError`, which the
source catches and turns into `False`; `List.lookup` returning `none` models
that. -/
def has_all_attrs (r : Route) (attrs : Attrs) : Bool :=
  attrs.all (fun kv => r.attrs.lookup kv.1 == some kv.2)

/-- `objs_with_all_attrs`: filter a route list by `has_all_attrs`. -/
def objs_with_all_attrs (objs : List Route) (attrs : Attrs) : List Route :=
  objs.filter (fun r => has_all_attrs r attrs)

/-- Python exceptions that the module can raise.

* `validation` is `RoutingTableValidationError` (raised directly, or the
  translation of `KeyError` performed by `@sanitize`);
* `typeError` is `TypeError` (list indexing with a string key, comparing
  networks of different IP versions inside `sorted`, `show(as_root=True)`
  without a prefix);
* `attrError` is `AttributeError` (calling dict methods on a list object);
  it is also used for the type-confused branches that no state reachable
  through the public API can produce (a dict stored under `"*"`);
* `noFuel` is a model artefact of the fuel recursion, never returned when a
  loop is run with the fuel supplied by the wrappers below. -/
inductive PyErr where
  | validation
  | typeError
  | attrError
  | noFuel
deriving DecidableEq, Repr

mutual
/-- A value stored in a tree dict: a bucket (list of routes, normally under
`"*"`) or a child dict. -/
inductive PyObj where
  | routes : List Route → PyObj
  | dict : Entries → PyObj
deriving Repr
/-- A Python dict from keys to tree values, in insertion order. -/
inductive Entries where
  | nil : Entries
  | cons : Key → PyObj → Entries → Entries
deriving Repr
end

/-- List view of a dict, in insertion order (`list(d.items())`). -/
def Entries.toList : Entries → List (Key × PyObj)
  | .nil => []
  | .cons k v rest => (k, v) :: rest.toList

/-- `d.get(k)` / `d[k]` lookup (first, hence unique, matching key). -/
def Entries.find? : Entries → Key → Option PyObj
  | .nil, _ => none
  | .cons k' v rest, k => if k' = k then some v else rest.find? k

/-- `k in d`. -/
def Entries.hasKey (d : Entries) (k : Key) : Bool := (d.find? k).isSome

/-- `len(d)`. -/
def Entries.length : Entries → Nat
  | .nil => 0
  | .cons _ _ rest => rest.length + 1

/-- `d[k] = v`: update in place (keeping the entry's position) when the key
is present, else append at the end — exactly Python's insertion-order
semantics. -/
def Entries.set : Entries → Key → PyObj → Entries
  | .nil, k, v => .cons k v .nil
  | .cons k' v' rest, k, v =>
      if k' = k then .cons k' v rest else .cons k' v' (rest.set k v)

/-- `del d[k]` (the callers below only delete keys that are present). -/
def Entries.erase : Entries → Key → Entries
  | .nil, _ => .nil
  | .cons k' v' rest, k => if k' = k then rest else .cons k' v' (rest.erase k)

/-- `new_dict_without_key("*", d)` as the item list it is consumed as: the
source builds a fresh dict which the walking loops then drain with
`popitem`.  We return the items in insertion order; the loops below consume
the reverse of this list, because `popitem` removes the most recently
inserted entry first. -/
def new_dict_without_key (k : Key) (d : Entries) : List (Key × PyObj) :=
  d.toList.filter (fun e => e.1 ≠ k)

mutual
/-- Structural size of a tree value, used to compute loop fuel. -/
def PyObj.sz : PyObj → Nat
  | .routes _ => 1
  | .dict es => es.sz + 1
/-- Structural size of a dict. -/
def Entries.sz : Entries → Nat
  | .nil => 1
  | .cons _ v rest => v.sz + rest.sz + 1
end

/-- Fuel measure of a working list of entries. -/
def stackSz (l : List (Key × PyObj)) : Nat := (l.map (fun e => e.2.sz + 1)).sum

/-- Fuel that strictly dominates the number of loop steps of any of the
popitem/stack loops below when started on `l`: every step either pops an
entry (removing its `sz + 1` contribution) or replaces the working list by
one drawn from a strictly smaller subtree. -/
def fuelFor (l : List (Key × PyObj)) (bits : List Ch) : Nat :=
  stackSz l + bits.length + 1

/-- `_traverse` (identical in `IPPrefixTree` and `IPRadixTree`): a stack of
dict items is drained from the end; a `"*"` item yields its routes (filtered
by `attrs`) in bucket order, any other item pushes the child's items.  The
first argument of the recursion is the reverse of the Python stack, so the
head is the entry `popitem`/`pop` would remove; pushing `children.items()`
prepends the reversed item list.  A list found under a non-`"*"` key makes
`children.items()` raise `AttributeError` (reachable after the radix delete
bug); a dict under `"*"` cannot be produced by any operation and is mapped to
the same error. -/
def traverseF (attrs : Attrs) : Nat → List (Key × PyObj) → Except PyErr (List Route)
  | 0, _ => .error .noFuel
  | _ + 1, [] => .ok []
  | fuel + 1, (node_bits, children) :: rest =>
    if node_bits = starK then
      match children with
      | .routes rs =>
          match traverseF attrs fuel rest with
          | .error e => .error e
          | .ok tl => .ok (rs.filter (fun r => has_all_attrs r attrs) ++ tl)
      | .dict _ => .error .attrError
    else
      match children with
      | .routes _ => .error .attrError
      | .dict es => traverseF attrs fuel (es.toList.reverse ++ rest)

/-- `self._traverse(root, **attrs)` materialised into a list, started from a
dict (`nodes = list(root.items())`, drained from the end). -/
def traverseD (d : Entries) (attrs : Attrs) : Except PyErr (List Route) :=
  traverseF attrs (fuelFor d.toList.reverse []) d.toList.reverse

/-- The order `sorted(..., key=lambda route: ip_network(route.prefix))` uses
within one address family: `_BaseNetwork.__lt__` compares
`network_address`, then `netmask`; for a fixed family ascending netmask is
ascending mask length.  (Across families `__lt__` raises `TypeError`, see
`sortRoutes`.) -/
def netLE (a b : Route) : Prop :=
  a.pfx.netid < b.pfx.netid ∨ (a.pfx.netid = b.pfx.netid ∧ a.pfx.plen ≤ b.pfx.plen)

instance : DecidableRel netLE := fun a b => by
  unfold netLE
  infer_instance

instance : IsTotal Route netLE where
  total a b := by
    rcases Nat.lt_trichotomy a.pfx.netid b.pfx.netid with h | h | h
    · exact Or.inl (Or.inl h)
    · rcases Nat.le_total a.pfx.plen b.pfx.plen with h' | h'
      · exact Or.inl (Or.inr ⟨h, h'⟩)
      · exact Or.inr (Or.inr ⟨h.symm, h'⟩)
    · exact Or.inr (Or.inl h)

instance : IsTrans Route netLE where
  trans a b c hab hbc := by
    rcases hab with h | ⟨he, hl⟩ <;> rcases hbc with h' | ⟨he', hl'⟩
    · exact Or.inl (h.trans h')
    · exact Or.inl (he' ▸ h)
    · exact Or.inl (he ▸ h')
    · exact Or.inr ⟨he.trans he', hl.trans hl'⟩

/-- `_sort` (identical in both classes): `sorted(routes, key=...)`.
CPython's sort is a stable comparison sort over the strict order `<` of the
keys; on a list whose keys are pairwise comparable it returns the unique
stable ordering, which `List.insertionSort` with the non-strict total
preorder `netLE` also computes.  When the list contains routes of both
address families the sort must, at some point, compare a v4 key with a v6
key (no chain of same-family comparisons can order a cross-family pair), and
`_BaseNetwork.__lt__` then raises `TypeError`. -/
def sortRoutes (rs : List Route) : Except PyErr (List Route) :=
  if rs.any (fun a => rs.any (fun b => a.pfx.version ≠ b.pfx.version)) then
    .error .typeError
  else
    .ok (List.insertionSort netLE rs)

/-! ## IPPrefixTree -/

/-- The `IPPrefixTree` state: `self._root` and `self._counter`. -/
structure IPPrefixTree where
  root : Entries
  counter : Int
deriving Repr

/-- `IPPrefixTree()` — the freshly constructed empty tree. -/
def IPPrefixTree.init : IPPrefixTree := ⟨.nil, 0⟩

/-- The walk of `IPPrefixTree.add`: `pointer = pointer.setdefault(bit, {})`
bit by bit, then at the terminal node `routes = pointer.setdefault("*", [])`
followed by the membership test and append.  Rebuilding the edited child in
place (`Entries.set` keeps the position) is the functional image of Python's
in-place mutation through the `pointer` reference.  Returns the updated dict
and whether a route was appended (`self._counter += 1`). -/
def ptAddGo (route : Route) : List Ch → Entries → Except PyErr (Entries × Bool)
  | [], d =>
    match d.find? starK with
    | some (.routes rs) =>
        if route ∈ rs then .ok (d, false)
        else .ok (d.set starK (.routes (rs ++ [route])), true)
    | some (.dict _) => .error .attrError
    | none => .ok (d.set starK (.routes [route]), true)
  | b :: rest, d =>
    match d.find? [b] with
    | some (.dict sub) =>
        match ptAddGo route rest sub with
        | .error e => .error e
        | .ok (sub', added) => .ok (d.set [b] (.dict sub'), added)
    | some (.routes _) => .error .attrError
    | none =>
        match ptAddGo route rest .nil with
        | .error e => .error e
        | .ok (sub', added) => .ok (d.set [b] (.dict sub'), added)

/-- `IPPrefixTree.add(prefix, **attrs)` (via `@sanitize`, so the prefix is
first converted with `ip_network`; the stored route carries
`str(prefix)` of the converted network). -/
def IPPrefixTree.add (t : IPPrefixTree) (p : IPPfx) (attrs : Attrs) :
    Except PyErr IPPrefixTree :=
  let route : Route := ⟨ip_network p, attrs⟩
  match ptAddGo route (bits_in_pfx p) t.root with
  | .error e => .error e
  | .ok (d, added) => .ok ⟨d, t.counter + (if added then 1 else 0)⟩

/-- The walk of `IPPrefixTree.get`: follow the query bits, remembering the
most recent bucket (`routes = pointer.get("*", routes)` after each descent);
stop at the first missing bit.  A list found under a bit key would make the
subsequent `pointer.get` raise `AttributeError`; a dict under `"*"` is
unreachable (mapped to the same error). -/
def ptGetGo : List Ch → Entries → List Route → Except PyErr (List Route)
  | [], _, routes => .ok routes
  | b :: rest, d, routes =>
    match d.find? [b] with
    | none => .ok routes
    | some (.routes _) => .error .attrError
    | some (.dict sub) =>
        match sub.find? starK with
        | some (.routes rs) => ptGetGo rest sub rs
        | some (.dict _) => .error .attrError
        | none => ptGetGo rest sub routes

/-- `IPPrefixTree.get(prefix, **attrs)`: longest-prefix-match bucket along
the query path, filtered by `attrs` (`routes` starts as the root bucket). -/
def IPPrefixTree.get (t : IPPrefixTree) (p : IPPfx) (attrs : Attrs) :
    Except PyErr (List Route) :=
  match
    (match t.root.find? starK with
     | some (.routes rs) => Except.ok rs
     | some (.dict _) => Except.error PyErr.attrError
     | none => Except.ok ([] : List Route)) with
  | .error e => .error e
  | .ok init =>
    match ptGetGo (bits_in_pfx p) t.root init with
    | .error e => .error e
    | .ok routes => .ok (objs_with_all_attrs routes attrs)

/-- `bool(self.get(prefix))` — `__contains__`. -/
def IPPrefixTree.containsPfx (t : IPPrefixTree) (p : IPPfx) : Except PyErr Bool :=
  match t.get p [] with
  | .error e => .error e
  | .ok rs => .ok (!rs.isEmpty)

/-- The descent of `IPPrefixTree.show` with a prefix: `if bit not in
pointer: return []` then `pointer = pointer[bit]`.  If the walk lands on a
list, the next iteration's membership test (`bit not in <list>`) is simply
false, so the walk also answers `none` ("return []") there. -/
def ptShowDescend : List Ch → PyObj → Option PyObj
  | [], o => some o
  | b :: rest, .dict d =>
      match d.find? [b] with
      | none => none
      | some o => ptShowDescend rest o
  | _ :: _, .routes _ => none

/-- `IPPrefixTree.show(prefix=None, as_root=False, **attrs)`. -/
def IPPrefixTree.show (t : IPPrefixTree) (p? : Option IPPfx) (as_root : Bool)
    (attrs : Attrs) : Except PyErr (List Route) :=
  if as_root && p?.isNone then .error .typeError
  else
    let finish : PyObj → Except PyErr (List Route) := fun ptr =>
      match ptr with
      | .dict d =>
          match traverseD d attrs with
          | .error e => .error e
          | .ok rs => sortRoutes rs
      | .routes _ => .error .attrError
    match p? with
    | none => finish (.dict t.root)
    | some p =>
      match ptShowDescend (bits_in_pfx p) (.dict t.root) with
      | none => .ok []
      | some ptr =>
        if !as_root then
          match ptr with
          | .dict d =>
              match d.find? starK with
              | some (.routes rs) => .ok (objs_with_all_attrs rs attrs)
              | some (.dict _) => .error .attrError
              | none => .ok []
          | .routes _ => .error .attrError
        else finish ptr

/-- The walk of `IPPrefixTree.parent`: before each descent the running
`routes` is refreshed from the current node (`routes = pointer.get("*",
routes)`), so the value carried to the terminal node is the bucket of the
deepest strict ancestor.  `pointer = pointer[bit]` raises `KeyError` on a
missing bit (→ `validation` via `@sanitize`); if the pointer is a list the
iteration's `pointer.get` raises `AttributeError`. -/
def ptParentGo : List Ch → PyObj → List Route → Except PyErr (PyObj × List Route)
  | [], ptr, routes => .ok (ptr, routes)
  | _ :: _, .routes _, _ => .error .attrError
  | b :: rest, .dict d, routes =>
    match
      (match d.find? starK with
       | some (.routes rs) => Except.ok rs
       | some (.dict _) => Except.error PyErr.attrError
       | none => Except.ok routes) with
    | .error e => .error e
    | .ok routes' =>
      match d.find? [b] with
      | none => .error .validation
      | some o => ptParentGo rest o routes'

/-- `IPPrefixTree.parent(prefix, **attrs)`: after the walk the terminal node
must itself hold a bucket (`if "*" not in pointer: raise KeyError`); the
membership test on a list object is simply false, so a list pointer also
fails. -/
def IPPrefixTree.parent (t : IPPrefixTree) (p : IPPfx) (attrs : Attrs) :
    Except PyErr (List Route) :=
  match ptParentGo (bits_in_pfx p) (.dict t.root) [] with
  | .error e => .error e
  | .ok (ptr, routes) =>
    match ptr with
    | .dict d =>
        if d.hasKey starK then .ok (objs_with_all_attrs routes attrs)
        else .error .validation
    | .routes _ => .error .validation

/-- The walk of `IPPrefixTree.children`: plain `pointer = pointer[bit]`
descent (`KeyError` → `validation`); indexing a list with a string raises
`TypeError`, which `@sanitize` does not catch. -/
def ptChildrenGo : List Ch → PyObj → Except PyErr PyObj
  | [], ptr => .ok ptr
  | _ :: _, .routes _ => .error .typeError
  | b :: rest, .dict d =>
      match d.find? [b] with
      | none => .error .validation
      | some o => ptChildrenGo rest o

/-- `IPPrefixTree.children(prefix, **attrs)`: the terminal node must hold a
bucket; the bucket marker is then dropped
(`new_dict_without_key("*", pointer)`) and the remaining subtree is
traversed and sorted. -/
def IPPrefixTree.children (t : IPPrefixTree) (p : IPPfx) (attrs : Attrs) :
    Except PyErr (List Route) :=
  match ptChildrenGo (bits_in_pfx p) (.dict t.root) with
  | .error e => .error e
  | .ok ptr =>
    match ptr with
    | .dict d =>
        if d.hasKey starK then
          match traverseF attrs (fuelFor (new_dict_without_key starK d).reverse [])
              (new_dict_without_key starK d).reverse with
          | .error e => .error e
          | .ok rs => sortRoutes rs
        else .error .validation
    | .routes _ => .error .validation

/-- The walk of `IPPrefixTree.matchp` (source name `match`, a Lean keyword):
`pointer = pointer.get(bit)`, stop on `None`; after each descent the node's
bucket, if any, is appended to `matches`.  A list pointer makes the
iteration's `pointer.get("*")` raise `AttributeError`. -/
def ptMatchGo : List Ch → Entries → List Route → Except PyErr (List Route)
  | [], _, ms => .ok ms
  | b :: rest, d, ms =>
    match d.find? [b] with
    | none => .ok ms
    | some (.routes _) => .error .attrError
    | some (.dict sub) =>
        match sub.find? starK with
        | some (.routes rs) => ptMatchGo rest sub (ms ++ rs)
        | some (.dict _) => .error .attrError
        | none => ptMatchGo rest sub ms

/-- `IPPrefixTree.match(prefix, **attrs)` (named `matchp` here): all buckets
on the path from the root to the query, attribute-filtered, sorted.
`matches` starts as a copy of the root bucket. -/
def IPPrefixTree.matchp (t : IPPrefixTree) (p : IPPfx) (attrs : Attrs) :
    Except PyErr (List Route) :=
  match
    (match t.root.find? starK with
     | some (.routes rs) => Except.ok rs
     | some (.dict _) => Except.error PyErr.attrError
     | none => Except.ok ([] : List Route)) with
  | .error e => .error e
  | .ok init =>
    match ptMatchGo (bits_in_pfx p) t.root init with
    | .error e => .error e
    | .ok ms => sortRoutes (objs_with_all_attrs ms attrs)

/-- The interval-containment test of `wcmatch` (both classes): with
`(network_id, bc_address) = int_prefix_boundaries(route.prefix)` and
`(wc_start, wc_end)` the wildcard range, keep the route iff
`network_id & wc_end == network_id` and `wc_start & bc_address == wc_start`. -/
def wcTest (wc_start wc_end : Nat) (r : Route) : Bool :=
  let b := int_pfx_boundaries r.pfx
  (b.1 &&& wc_end == b.1) && (wc_start &&& b.2 == wc_start)

/-- `IPPrefixTree.wcmatch(address, wildcard, **attrs)`: full traversal, the
interval test applied to every yielded route, then sort.  The two address
arguments appear as their integer forms (`int(ip_address(...))`). -/
def IPPrefixTree.wcmatch (t : IPPrefixTree) (address wildcard : Nat)
    (attrs : Attrs) : Except PyErr (List Route) :=
  let wc := int_wildcard_boundaries address wildcard
  match traverseD t.root attrs with
  | .error e => .error e
  | .ok rs => sortRoutes (rs.filter (wcTest wc.1 wc.2))

/-- The walk of `IPPrefixTree.delete`: descend `pointer = pointer[bit]`
(`KeyError` → `validation`; list indexing → `TypeError`), recording before
each step the deepest node seen so far with more than one entry
(`parent_prefix_node`, `branching_bit`) as its depth and branching bit. -/
def ptDelWalk : List Ch → PyObj → Nat → Option (Nat × Ch) →
    Except PyErr (PyObj × Option (Nat × Ch))
  | [], ptr, _, br => .ok (ptr, br)
  | _ :: _, .routes _, _, _ => .error .typeError
  | b :: rest, .dict d, depth, br =>
      let br' := if d.length > 1 then some (depth, b) else br
      match d.find? [b] with
      | none => .error .validation
      | some o => ptDelWalk rest o (depth + 1) br'

/-- Apply an edit to the dict reached by following `bits`; the functional
image of Python's mutation through a saved reference.  The callers only use
it on paths the walk has already validated, so the fallthrough (returning
the dict unchanged) is unreachable. -/
def editAt : List Ch → (Entries → Entries) → Entries → Entries
  | [], f, d => f d
  | b :: rest, f, d =>
      match d.find? [b] with
      | some (.dict sub) => d.set [b] (.dict (editAt rest f sub))
      | _ => d

/-- `IPPrefixTree.flush()` with no arguments empties the root dict and zeroes
the counter (used by `delete` when the tree is one linear path). -/
def ptClear : IPPrefixTree := ⟨.nil, 0⟩

/-- `IPPrefixTree.delete(prefix, **attrs)`.  After the walk,
`routes = pointer["*"]` (`KeyError` → `validation`).  With `attrs`, matching
routes are removed one by one (counter decremented each time); if none
matched, `RoutingTableValidationError` is raised.  If no `attrs` were given
or the bucket is now empty: when the terminal node has other entries only
the bucket marker is dropped; else when a branching ancestor was recorded
the whole sub-branch is detached there; else the tree is one linear path and
`flush()` resets it.  The final `self._counter -= len(routes)` uses the
mutated list, i.e. the routes still in the bucket at that point. -/
def IPPrefixTree.delete (t : IPPrefixTree) (p : IPPfx) (attrs : Attrs) :
    Except PyErr IPPrefixTree :=
  let bits := bits_in_pfx p
  match ptDelWalk bits (.dict t.root) 0 none with
  | .error e => .error e
  | .ok (ptr, br) =>
    match ptr with
    | .routes _ => .error .typeError
    | .dict d =>
      match d.find? starK with
      | none => .error .validation
      | some (.dict _) => .error .attrError
      | some (.routes rs) =>
        let kept := if attrs = [] then rs
          else rs.filter (fun r => !has_all_attrs r attrs)
        let removed : Int := rs.length - kept.length
        if attrs ≠ [] ∧ kept.length = rs.length then .error .validation
        else
          let counter1 := t.counter - removed
          if attrs = [] ∨ kept = [] then
            if d.length > 1 then
              .ok ⟨editAt bits (fun n => (n.set starK (.routes kept)).erase starK) t.root,
                   counter1 - kept.length⟩
            else
              match br with
              | some (depth, bit) =>
                  .ok ⟨editAt (bits.take depth) (fun n => n.erase [bit]) t.root,
                       counter1 - kept.length⟩
              | none => .ok ptClear
          else
            .ok ⟨editAt bits (fun n => n.set starK (.routes kept)) t.root, counter1⟩

/-- One step of the flush-with-attrs loop for the binary tree (shared shape
with the radix version, but paths are bit strings here).  The Python loop
drains a stack of dict items; our stack entries additionally carry the
bit-path of the node that holds the entry, used to write the in-place list
mutation (`routes.remove(route)`) back into the threaded state — the
functional image of Python's aliasing.  `lastR` mirrors the loop variable
`route`, which after the inner `for` holds the last element iterated (the
source then calls `self.delete(route.prefix)` when the bucket emptied; with
an empty bucket `route` would be stale — unreachable on well-formed states,
modelled as `attrError`). -/
def ptFlushLoop (attrs : Attrs) :
    Nat → List (Key × PyObj × List Ch) → IPPrefixTree → Option Route →
    Except PyErr IPPrefixTree
  | 0, _, _, _ => .error .noFuel
  | _ + 1, [], t, _ => .ok t
  | fuel + 1, (k, v, path) :: rest, t, lastR =>
    if k = starK then
      match v with
      | .routes rs =>
          let kept := rs.filter (fun r => !has_all_attrs r attrs)
          let removed : Int := rs.length - kept.length
          let t' : IPPrefixTree :=
            ⟨editAt path (fun n => n.set starK (.routes kept)) t.root,
             t.counter - removed⟩
          let lastR' := match rs.getLast? with
            | some r => some r
            | none => lastR
          if kept = [] then
            match lastR' with
            | none => .error .attrError
            | some r =>
                match t'.delete r.pfx [] with
                | .error e => .error e
                | .ok t'' => ptFlushLoop attrs fuel rest t'' lastR'
          else ptFlushLoop attrs fuel rest t' lastR'
      | .dict _ => .error .attrError
    else
      match v with
      | .routes _ => .error .attrError
      | .dict es =>
          ptFlushLoop attrs fuel
            ((es.toList.map (fun e => (e.1, e.2, path ++ k))).reverse ++ rest) t lastR

/-- `IPPrefixTree.flush(prefix=None, **attrs)`: with a prefix, delegate to
`delete`; with no arguments, clear the root and zero the counter (the loop
then runs over an empty stack); with only `attrs`, drain the tree stack,
filtering each bucket and deleting the prefixes of emptied buckets.  The
stack snapshots are taken up front; on the states this development evaluates
the loop on, the inner `delete` calls never mutate an object that is still
on the stack, so snapshotting agrees with Python's aliasing. -/
def IPPrefixTree.flush (t : IPPrefixTree) (p? : Option IPPfx) (attrs : Attrs) :
    Except PyErr IPPrefixTree :=
  match p? with
  | some p => t.delete p attrs
  | none =>
    let t1 := if attrs = [] then ptClear else t
    ptFlushLoop attrs (fuelFor t1.root.toList.reverse [])
      ((t1.root.toList.map (fun e => (e.1, e.2, ([] : List Ch)))).reverse) t1 none

/-! ## IPRadixTree -/

/-- The `IPRadixTree` state: `self._root` and `self._counter`. -/
structure IPRadixTree where
  root : Entries
  counter : Int
deriving Repr

/-- `IPRadixTree()` — the freshly constructed empty tree. -/
def IPRadixTree.init : IPRadixTree := ⟨.nil, 0⟩

/-- The terminal step of `IPRadixTree.add`: when the walk has consumed its
working set (or the input), a non-empty remainder is attached as a fresh
edge (`pointer[prefix_bits] = {}`), and the route is inserted into the
terminal node's bucket (`setdefault("*", [])`, membership test, append).
Returns the updated dict and whether the counter is incremented. -/
def rtAddFinish (route : Route) (d : Entries) (bits : List Ch) :
    Except PyErr (Entries × Bool) :=
  if bits ≠ [] then
    .ok (d.set bits (.dict (.cons starK (.routes [route]) .nil)), true)
  else
    match d.find? starK with
    | some (.routes rs) =>
        if route ∈ rs then .ok (d, false)
        else .ok (d.set starK (.routes (rs ++ [route])), true)
    | some (.dict _) => .error .attrError
    | none => .ok (d.set starK (.routes [route]), true)

/-- The walk of `IPRadixTree.add`: `popitem` drains the star-less working
copy of the current node (head of our reversed list).  A child sharing no
common leading bits is skipped.  A fully matched edge label descends
(`AttributeError` if the value is a list).  A partially matched edge label
is split: the edge `node_bits → children` is replaced by
`common → (node_bits[len(common):] → children)`, the working set becomes
empty, and the loop therefore ends at the fresh intermediate node, where
`rtAddFinish` attaches the remainder. -/
def rtAddGo (route : Route) :
    Nat → Entries → List (Key × PyObj) → List Ch → Except PyErr (Entries × Bool)
  | 0, _, _, _ => .error .noFuel
  | _ + 1, d, [], bits => rtAddFinish route d bits
  | _ + 1, d, _, [] => rtAddFinish route d []
  | fuel + 1, d, (node_bits, children) :: rest, bits =>
    let common := bits_in_common node_bits bits
    if common ≠ [] then
      let bits' := bits.drop common.length
      if common = node_bits then
        match children with
        | .dict cs =>
            match rtAddGo route fuel cs (new_dict_without_key starK cs).reverse bits' with
            | .error e => .error e
            | .ok (cs', added) => .ok (d.set node_bits (.dict cs'), added)
        | .routes _ => .error .attrError
      else
        let mid : Entries := .cons (node_bits.drop common.length) children .nil
        match rtAddFinish route mid bits' with
        | .error e => .error e
        | .ok (mid', added) => .ok ((d.erase node_bits).set common (.dict mid'), added)
    else rtAddGo route fuel d rest bits

/-- `IPRadixTree.add(prefix, **attrs)` (via `@sanitize`). -/
def IPRadixTree.add (t : IPRadixTree) (p : IPPfx) (attrs : Attrs) :
    Except PyErr IPRadixTree :=
  let bits := bits_in_pfx p
  let route : Route := ⟨ip_network p, attrs⟩
  match rtAddGo route (fuelFor (new_dict_without_key starK t.root).reverse bits)
      t.root (new_dict_without_key starK t.root).reverse bits with
  | .error e => .error e
  | .ok (d, added) => .ok ⟨d, t.counter + (if added then 1 else 0)⟩

/-- The walk of `IPRadixTree.get`: descend only on fully matched edge labels
(`common_bits == node_bits`), refreshing the remembered bucket
(`routes = children.get("*", routes)`), truncating the input and restarting
the working set from the child; skip any other entry. -/
def rtGetGo : Nat → List (Key × PyObj) → List Ch → List Route →
    Except PyErr (List Route)
  | 0, _, _, _ => .error .noFuel
  | _ + 1, [], _, routes => .ok routes
  | _ + 1, _, [], routes => .ok routes
  | fuel + 1, (node_bits, children) :: rest, bits, routes =>
    let common := bits_in_common node_bits bits
    if common = node_bits then
      match children with
      | .dict cs =>
          match
            (match cs.find? starK with
             | some (.routes rs) => Except.ok rs
             | some (.dict _) => Except.error PyErr.attrError
             | none => Except.ok routes) with
          | .error e => .error e
          | .ok routes' =>
              rtGetGo fuel (new_dict_without_key starK cs).reverse
                (bits.drop common.length) routes'
      | .routes _ => .error .attrError
    else rtGetGo fuel rest bits routes

/-- `IPRadixTree.get(prefix, **attrs)`. -/
def IPRadixTree.get (t : IPRadixTree) (p : IPPfx) (attrs : Attrs) :
    Except PyErr (List Route) :=
  let bits := bits_in_pfx p
  match
    (match t.root.find? starK with
     | some (.routes rs) => Except.ok rs
     | some (.dict _) => Except.error PyErr.attrError
     | none => Except.ok ([] : List Route)) with
  | .error e => .error e
  | .ok init =>
    match rtGetGo (fuelFor (new_dict_without_key starK t.root).reverse bits)
        (new_dict_without_key starK t.root).reverse bits init with
    | .error e => .error e
    | .ok routes => .ok (objs_with_all_attrs routes attrs)

/-- `bool(self.get(prefix))` — `__contains__`. -/
def IPRadixTree.containsPfx (t : IPRadixTree) (p : IPPfx) : Except PyErr Bool :=
  match t.get p [] with
  | .error e => .error e
  | .ok rs => .ok (!rs.isEmpty)

/-- The walk of `IPRadixTree.show` with a prefix.  Unlike `get`, the input is
truncated by the common bits as soon as they are non-empty (`if
common_bits:`), even when the edge label is only partially matched and no
descent happens — so the walk can end with an empty remainder while the
pointer still sits at an ancestor node. -/
def rtShowGo : Nat → List (Key × PyObj) → List Ch → Entries →
    Except PyErr (Entries × List Ch)
  | 0, _, _, _ => .error .noFuel
  | _ + 1, [], bits, ptr => .ok (ptr, bits)
  | _ + 1, _, [], ptr => .ok (ptr, [])
  | fuel + 1, (node_bits, children) :: rest, bits, ptr =>
    let common := bits_in_common node_bits bits
    if common ≠ [] then
      let bits' := bits.drop common.length
      if common = node_bits then
        match children with
        | .dict cs => rtShowGo fuel (new_dict_without_key starK cs).reverse bits' cs
        | .routes _ => .error .attrError
      else rtShowGo fuel rest bits' ptr
    else rtShowGo fuel rest bits ptr

/-- `IPRadixTree.show(prefix=None, as_root=False, **attrs)`. -/
def IPRadixTree.show (t : IPRadixTree) (p? : Option IPPfx) (as_root : Bool)
    (attrs : Attrs) : Except PyErr (List Route) :=
  if as_root && p?.isNone then .error .typeError
  else
    let finish : Entries → Except PyErr (List Route) := fun d =>
      match traverseD d attrs with
      | .error e => .error e
      | .ok rs => sortRoutes rs
    match p? with
    | none => finish t.root
    | some p =>
      let bits := bits_in_pfx p
      match rtShowGo (fuelFor (new_dict_without_key starK t.root).reverse bits)
          (new_dict_without_key starK t.root).reverse bits t.root with
      | .error e => .error e
      | .ok (ptr, rem) =>
        if rem ≠ [] then .ok []
        else if !as_root then
          match ptr.find? starK with
          | some (.routes rs) => .ok (objs_with_all_attrs rs attrs)
          | some (.dict _) => .error .attrError
          | none => .ok []
        else finish ptr

/-- The walk of `IPRadixTree.parent`: like `get`, but the remembered bucket
is refreshed from the *current* node before descending, so it ends as the
bucket of the deepest strict ancestor. -/
def rtParentGo : Nat → List (Key × PyObj) → List Ch → Entries → List Route →
    Except PyErr (Entries × List Ch × List Route)
  | 0, _, _, _, _ => .error .noFuel
  | _ + 1, [], bits, ptr, routes => .ok (ptr, bits, routes)
  | _ + 1, _, [], ptr, routes => .ok (ptr, [], routes)
  | fuel + 1, (node_bits, children) :: rest, bits, ptr, routes =>
    let common := bits_in_common node_bits bits
    if common = node_bits then
      match
        (match ptr.find? starK with
         | some (.routes rs) => Except.ok rs
         | some (.dict _) => Except.error PyErr.attrError
         | none => Except.ok routes) with
      | .error e => .error e
      | .ok routes' =>
        match children with
        | .dict cs =>
            rtParentGo fuel (new_dict_without_key starK cs).reverse
              (bits.drop common.length) cs routes'
        | .routes _ => .error .attrError
    else rtParentGo fuel rest bits ptr routes

/-- `IPRadixTree.parent(prefix, **attrs)`: fails (`KeyError` → `validation`)
when the walk left a remainder or the terminal node has no bucket. -/
def IPRadixTree.parent (t : IPRadixTree) (p : IPPfx) (attrs : Attrs) :
    Except PyErr (List Route) :=
  let bits := bits_in_pfx p
  match rtParentGo (fuelFor (new_dict_without_key starK t.root).reverse bits)
      (new_dict_without_key starK t.root).reverse bits t.root [] with
  | .error e => .error e
  | .ok (ptr, rem, routes) =>
    if rem ≠ [] || !ptr.hasKey starK then .error .validation
    else .ok (objs_with_all_attrs routes attrs)

/-- The walk of `IPRadixTree.children` and of `IPRadixTree.delete`: descend
on fully matched edge labels only.  For `delete` we also record the list of
edge labels descended through (the source keeps the last two `[pointer,
node_bits, children]` triples; the full label path determines them). -/
def rtExactGo : Nat → List (Key × PyObj) → List Ch → List Key →
    Except PyErr (List Key × List Ch)
  | 0, _, _, _ => .error .noFuel
  | _ + 1, [], bits, ks => .ok (ks, bits)
  | _ + 1, _, [], ks => .ok (ks, [])
  | fuel + 1, (node_bits, children) :: rest, bits, ks =>
    let common := bits_in_common node_bits bits
    if common = node_bits then
      match children with
      | .dict cs =>
          rtExactGo fuel (new_dict_without_key starK cs).reverse
            (bits.drop common.length) (ks ++ [node_bits])
      | .routes _ => .error .attrError
    else rtExactGo fuel rest bits ks

/-- Follow a list of edge labels down the tree. -/
def nodeAt : Entries → List Key → Option Entries
  | d, [] => some d
  | d, k :: ks =>
      match d.find? k with
      | some (.dict sub) => nodeAt sub ks
      | _ => none

/-- Replace the node reached by a list of edge labels (functional image of
mutation through a saved reference; callers only use validated paths). -/
def setNodeAt : Entries → List Key → Entries → Entries
  | _, [], d' => d'
  | d, k :: ks, d' =>
      match d.find? k with
      | some (.dict sub) => d.set k (.dict (setNodeAt sub ks d'))
      | _ => d

/-- Apply an edit to the node reached by a list of edge labels. -/
def editAtKeys : List Key → (Entries → Entries) → Entries → Entries
  | [], f, d => f d
  | k :: ks, f, d =>
      match d.find? k with
      | some (.dict sub) => d.set k (.dict (editAtKeys ks f sub))
      | _ => d

/-- One iteration of the merge loop of `IPRadixTree.delete` on the recorded
triple `(parent, parent_bits, children)`:

* an empty child is detached (`del parent[parent_bits]`);
* a single-entry child is spliced out: its only entry `(child_bits, child)`
  is re-attached under the concatenated label.  NOTE the source does not
  check that the single entry is a real edge — when it is the `"*"` bucket,
  the bucket node is spliced into a corrupt key `parent_bits + "*"` mapping
  to a bare list (the merge bug);
* otherwise the (possibly updated) child is written back unchanged. -/
def rtMergeStep (parent : Entries) (parent_bits : Key) (children : Entries) :
    Entries :=
  match children with
  | .nil => parent.erase parent_bits
  | .cons k1 v1 rest =>
    if rest.length = 0 then
      (parent.erase parent_bits).set (parent_bits ++ k1) v1
    else parent.set parent_bits (.dict children)

/-- `IPRadixTree.delete(prefix, **attrs)`.  After walking to the exact node
(`KeyError` → `validation` when a remainder is left or no bucket exists),
matching routes are removed (failing if a non-empty filter removed nothing).
If no filter was given or the bucket emptied, the bucket marker is dropped
and the merge loop runs over the (at most two) recorded ancestors; the
counter then drops by the length of the mutated list. -/
def IPRadixTree.delete (t : IPRadixTree) (p : IPPfx) (attrs : Attrs) :
    Except PyErr IPRadixTree :=
  let bits := bits_in_pfx p
  match rtExactGo (fuelFor (new_dict_without_key starK t.root).reverse bits)
      (new_dict_without_key starK t.root).reverse bits [] with
  | .error e => .error e
  | .ok (ks, rem) =>
    if rem ≠ [] then .error .validation
    else
      match nodeAt t.root ks with
      | none => .error .attrError
      | some d =>
        match d.find? starK with
        | none => .error .validation
        | some (.dict _) => .error .attrError
        | some (.routes rs) =>
          let kept := if attrs = [] then rs
            else rs.filter (fun r => !has_all_attrs r attrs)
          let removed : Int := rs.length - kept.length
          if attrs ≠ [] ∧ kept.length = rs.length then .error .validation
          else
            let counter1 := t.counter - removed
            if attrs = [] ∨ kept = [] then
              let tgt := (d.set starK (.routes kept)).erase starK
              let newRoot :=
                match ks.reverse with
                | [] => tgt
                | [k1] => rtMergeStep t.root k1 tgt
                | k1 :: k2 :: _ =>
                    match nodeAt t.root ks.dropLast,
                        nodeAt t.root ks.dropLast.dropLast with
                    | some par, some gpar =>
                        setNodeAt t.root ks.dropLast.dropLast
                          (rtMergeStep gpar k2 (rtMergeStep par k1 tgt))
                    | _, _ => t.root
              .ok ⟨newRoot, counter1 - kept.length⟩
            else
              .ok ⟨editAtKeys ks (fun n => n.set starK (.routes kept)) t.root,
                   counter1⟩

/-- The flush-with-attrs loop of `IPRadixTree.flush` (same shape as the
binary tree's; stack entries carry the edge-label path used to write the
in-place bucket mutation back into the threaded state). -/
def rtFlushLoop (attrs : Attrs) :
    Nat → List (Key × PyObj × List Key) → IPRadixTree → Option Route →
    Except PyErr IPRadixTree
  | 0, _, _, _ => .error .noFuel
  | _ + 1, [], t, _ => .ok t
  | fuel + 1, (k, v, path) :: rest, t, lastR =>
    if k = starK then
      match v with
      | .routes rs =>
          let kept := rs.filter (fun r => !has_all_attrs r attrs)
          let removed : Int := rs.length - kept.length
          let t' : IPRadixTree :=
            ⟨editAtKeys path (fun n => n.set starK (.routes kept)) t.root,
             t.counter - removed⟩
          let lastR' := match rs.getLast? with
            | some r => some r
            | none => lastR
          if kept = [] then
            match lastR' with
            | none => .error .attrError
            | some r =>
                match t'.delete r.pfx [] with
                | .error e => .error e
                | .ok t'' => rtFlushLoop attrs fuel rest t'' lastR'
          else rtFlushLoop attrs fuel rest t' lastR'
      | .dict _ => .error .attrError
    else
      match v with
      | .routes _ => .error .attrError
      | .dict es =>
          rtFlushLoop attrs fuel
            ((es.toList.map (fun e => (e.1, e.2, path ++ [k]))).reverse ++ rest) t lastR

/-- `IPRadixTree.flush(prefix=None, **attrs)`. -/
def IPRadixTree.flush (t : IPRadixTree) (p? : Option IPPfx) (attrs : Attrs) :
    Except PyErr IPRadixTree :=
  match p? with
  | some p => t.delete p attrs
  | none =>
    let t1 := if attrs = [] then IPRadixTree.init else t
    rtFlushLoop attrs (fuelFor t1.root.toList.reverse [])
      ((t1.root.toList.map (fun e => (e.1, e.2, ([] : List Key)))).reverse) t1 none

/-- `IPRadixTree.children(prefix, **attrs)`. -/
def IPRadixTree.children (t : IPRadixTree) (p : IPPfx) (attrs : Attrs) :
    Except PyErr (List Route) :=
  let bits := bits_in_pfx p
  match rtExactGo (fuelFor (new_dict_without_key starK t.root).reverse bits)
      (new_dict_without_key starK t.root).reverse bits [] with
  | .error e => .error e
  | .ok (ks, rem) =>
    match nodeAt t.root ks with
    | none => .error .attrError
    | some d =>
      if rem ≠ [] || !d.hasKey starK then .error .validation
      else
        match traverseF attrs (fuelFor (new_dict_without_key starK d).reverse [])
            (new_dict_without_key starK d).reverse with
        | .error e => .error e
        | .ok rs => sortRoutes rs

/-- The walk of `IPRadixTree.matchp` (source name `match`): descend on fully
matched edge labels, appending each visited node's bucket to the collected
list. -/
def rtMatchGo : Nat → List (Key × PyObj) → List Ch → List Route →
    Except PyErr (List Route)
  | 0, _, _, _ => .error .noFuel
  | _ + 1, [], _, ms => .ok ms
  | _ + 1, _, [], ms => .ok ms
  | fuel + 1, (node_bits, children) :: rest, bits, ms =>
    let common := bits_in_common node_bits bits
    if common = node_bits then
      match children with
      | .dict cs =>
          match
            (match cs.find? starK with
             | some (.routes rs) => Except.ok (ms ++ rs)
             | some (.dict _) => Except.error PyErr.attrError
             | none => Except.ok ms) with
          | .error e => .error e
          | .ok ms' =>
              rtMatchGo fuel (new_dict_without_key starK cs).reverse
                (bits.drop common.length) ms'
      | .routes _ => .error .attrError
    else rtMatchGo fuel rest bits ms

/-- `IPRadixTree.match(prefix, **attrs)` (named `matchp` here). -/
def IPRadixTree.matchp (t : IPRadixTree) (p : IPPfx) (attrs : Attrs) :
    Except PyErr (List Route) :=
  let bits := bits_in_pfx p
  match
    (match t.root.find? starK with
     | some (.routes rs) => Except.ok rs
     | some (.dict _) => Except.error PyErr.attrError
     | none => Except.ok ([] : List Route)) with
  | .error e => .error e
  | .ok init =>
    match rtMatchGo (fuelFor (new_dict_without_key starK t.root).reverse bits)
        (new_dict_without_key starK t.root).reverse bits init with
    | .error e => .error e
    | .ok ms => sortRoutes (objs_with_all_attrs ms attrs)

/-- `IPRadixTree.wcmatch(address, wildcard, **attrs)`. -/
def IPRadixTree.wcmatch (t : IPRadixTree) (address wildcard : Nat)
    (attrs : Attrs) : Except PyErr (List Route) :=
  let wc := int_wildcard_boundaries address wildcard
  match traverseD t.root attrs with
  | .error e => .error e
  | .ok rs => sortRoutes (rs.filter (wcTest wc.1 wc.2))

/-! ## Specification layer

Abstractions and invariants the claims are stated against.  These are
*independent* descriptions of table content (paths and buckets), not
reformulations of the walking code. -/

/-- The keys of a dict, in insertion order. -/
def Entries.keys : Entries → List Key
  | .nil => []
  | .cons k _ rest => k :: rest.keys

mutual
/-- Shape invariant shared by both trees, sufficient for traversal: the
bucket marker maps to a route list, every other key maps to a dict. -/
def travOK : Entries → Bool
  | .nil => true
  | .cons k v rest => travOKEntry k v && travOK rest
/-- Entry-level part of `travOK`. -/
def travOKEntry : Key → PyObj → Bool
  | k, .routes _ => k == starK
  | k, .dict es => (k != starK) && travOK es
end

mutual
/-- Well-formed binary tree node: unique keys; `"*"` maps to a bucket; the
only other keys are the single bits `"0"`/`"1"`, mapping to well-formed
child nodes. -/
def wfPT : Entries → Bool
  | .nil => true
  | .cons k v rest => wfPTEntry k v && !(rest.hasKey k) && wfPT rest
/-- Entry-level part of `wfPT`. -/
def wfPTEntry : Key → PyObj → Bool
  | k, .routes _ => k == starK
  | k, .dict es => (k == [Ch.zero] || k == [Ch.one]) && wfPT es
end

/-- A radix edge label: a non-empty string of bits (no `'*'`). -/
def edgeKey (k : Key) : Bool :=
  !k.isEmpty && k.all (fun c => c == Ch.zero || c == Ch.one)

/-- Sibling condition of the radix tree: a new edge label's first bit
differs from every other edge label's first bit (equivalently, sibling
edges share no common leading bits). -/
def sibOK (k : Key) (rest : Entries) : Bool :=
  k == starK || rest.keys.all (fun k' => k' == starK || k'.head? ≠ k.head?)

mutual
/-- Well-formed radix tree node: unique keys; `"*"` maps to a bucket; every
other key is a proper edge label mapping to a well-formed child, and edge
labels pairwise differ in their first bit. -/
def wfRT : Entries → Bool
  | .nil => true
  | .cons k v rest => wfRTEntry k v && !(rest.hasKey k) && sibOK k rest && wfRT rest
/-- Entry-level part of `wfRT`. -/
def wfRTEntry : Key → PyObj → Bool
  | k, .routes _ => k == starK
  | k, .dict es => edgeKey k && wfRT es
end

mutual
/-- Invariant 1 of the data model: every route in the bucket of a node whose
path from the root is `pre` is a normalised, in-range network whose
bit-string is exactly `pre`. -/
def pathsOk : List Ch → Entries → Bool
  | _, .nil => true
  | pre, .cons k v rest => pathsOkEntry pre k v && pathsOk pre rest
/-- Entry-level part of `pathsOk`. -/
def pathsOkEntry : List Ch → Key → PyObj → Bool
  | pre, _, .routes rs => rs.all (fun r => goodPfx r.pfx && bits_in_pfx r.pfx == pre)
  | pre, k, .dict es => pathsOk (pre ++ k) es
end

mutual
/-- All routes stored in a subtree belong to IP version `v`. -/
def allVer (v : Nat) : Entries → Bool
  | .nil => true
  | .cons _ w rest => allVerEntry v w && allVer v rest
/-- Entry-level part of `allVer`. -/
def allVerEntry (v : Nat) : PyObj → Bool
  | .routes rs => rs.all (fun r => r.pfx.version == v)
  | .dict es => allVer v es
end

mutual
/-- The abstract content of a subtree whose root sits at path `pre`: the
list of (absolute path, bucket) pairs, one per bucket marker. -/
def entriesOf : List Ch → Entries → List (List Ch × List Route)
  | _, .nil => []
  | pre, .cons k v rest => entryOf pre k v ++ entriesOf pre rest
/-- Entry-level part of `entriesOf`. -/
def entryOf : List Ch → Key → PyObj → List (List Ch × List Route)
  | pre, k, .routes rs => if k = starK then [(pre, rs)] else []
  | pre, k, .dict es => if k = starK then [] else entriesOf (pre ++ k) es
end

mutual
/-- The route sequence `_traverse` yields on a dict (entries drained from
the most recently inserted, depth first). -/
def travSpec : Entries → List Route
  | .nil => []
  | .cons k v rest => travSpec rest ++ entryTrav k v
/-- Entry-level part of `travSpec`. -/
def entryTrav : Key → PyObj → List Route
  | k, .routes rs => if k = starK then rs else []
  | k, .dict es => if k = starK then [] else travSpec es
end

/-- `isPre a b`: `a` is a leading segment of `b`. -/
def isPre : List Ch → List Ch → Bool
  | [], _ => true
  | _ :: _, [] => false
  | a :: as, b :: bs => a = b && isPre as bs

/-- The exact-match bucket at a path, if that path is a stored node. -/
def bucketAt (es : List (List Ch × List Route)) (bits : List Ch) :
    Option (List Route) :=
  (es.find? (fun e => e.1 == bits)).map (fun e => e.2)

instance {e a : Type} [DecidableEq e] [DecidableEq a] : DecidableEq (Except e a) :=
  fun x y =>
    match x, y with
    | .ok u, .ok v => if h : u = v then .isTrue (by rw [h]) else .isFalse (by simp [h])
    | .error u, .error v =>
        if h : u = v then .isTrue (by rw [h]) else .isFalse (by simp [h])
    | .ok _, .error _ => .isFalse (by simp)
    | .error _, .ok _ => .isFalse (by simp)

/-- The route sequence `_traverse` yields on a stack of items (drained from
the head of this reversed representation). -/
def stackTrav (l : List (Key × PyObj)) : List Route :=
  l.flatMap (fun e => entryTrav e.1 e.2)

/-! ## Concrete networks and states used by the claim evaluations -/

/-- `0.0.0.0/0`. -/
def net40 : IPPfx := ⟨4, 0, 0⟩
/-- `0.0.0.0/1`. -/
def net41 : IPPfx := ⟨4, 0, 1⟩
/-- `0.0.0.0/2`. -/
def net42 : IPPfx := ⟨4, 0, 2⟩
/-- `128.0.0.0/1`. -/
def netH1 : IPPfx := ⟨4, 0x80000000, 1⟩
/-- `192.0.0.0/2`. -/
def netH2 : IPPfx := ⟨4, 0xC0000000, 2⟩
/-- `192.0.0.0/3`. -/
def netH3 : IPPfx := ⟨4, 0xC0000000, 3⟩
/-- `10.0.0.0/8`. -/
def net10s8 : IPPfx := ⟨4, 0x0A000000, 8⟩
/-- `10.1.0.0/16`. -/
def net10s16 : IPPfx := ⟨4, 0x0A010000, 16⟩
/-- `10.2.0.1/32`. -/
def net10s32 : IPPfx := ⟨4, 0x0A020001, 32⟩
/-- `::/0`. -/
def net60 : IPPfx := ⟨6, 0, 0⟩
/-- `::/1`. -/
def net61 : IPPfx := ⟨6, 0, 1⟩
/-- `::/3`. -/
def net63 : IPPfx := ⟨6, 0, 3⟩
/-- `0.0.0.0/32`. -/
def net4h : IPPfx := ⟨4, 0, 32⟩
/-- `::/128`. -/
def net6h : IPPfx := ⟨6, 0, 128⟩


/-- The abstract content of the proper descendants of a node: its (relative
path, bucket) pairs with a non-empty path. -/
def subEnt (d : Entries) : List (List Ch × List Route) :=
  (entriesOf [] d).filter (fun e => e.1 ≠ [])

/-- `r` is the bucket of a longest stored path among `es` that is a leading
segment of `bits`; or no stored path qualifies and `r` is the default
`dflt`. -/
def isLpmA (es : List (List Ch × List Route)) (bits : List Ch)
    (dflt r : List Route) : Prop :=
  (∃ k, (k, r) ∈ es ∧ isPre k bits = true ∧
    ∀ e ∈ es, isPre e.1 bits = true → e.1.length ≤ k.length) ∨
  (r = dflt ∧ ∀ e ∈ es, isPre e.1 bits = false)


/-- Witness state: a table holding one route for `128.0.0.0/1`. -/
def wRoot : Entries :=
  .cons [Ch.one] (.dict (.cons starK (.routes [⟨⟨4, 0x80000000, 1⟩, []⟩]) .nil)) .nil
/-- Witness binary tree. -/
def wPT : IPPrefixTree := ⟨wRoot, 1⟩
/-- Witness radix tree. -/
def wRT : IPRadixTree := ⟨wRoot, 1⟩
/-- Witness query `192.0.0.0/2`. -/
def wQry : IPPfx := ⟨4, 0xC0000000, 2⟩

/-- The node's own bucket: the routes under its `"*"` marker. -/
def starBucket (d : Entries) : Option (List Route) :=
  match d.find? starK with
  | some (.routes rs) => some rs
  | _ => none

/-- The bucket stored at exactly `bits`, defaulting to the
empty list — the reference bucket the add/idempotence claims speak about. -/
def oldB (d : Entries) (bits : List Ch) : List Route :=
  (bucketAt (entriesOf [] d) bits).getD []

/-- The result of a query operation is a sorted list whenever
it is a list at all. -/
def sortedOut (r : Except PyErr (List Route)) : Prop :=
  ∀ l, r = .ok l → List.Sorted netLE l

/-! ## Dict and size lemmas -/

theorem Entries.find?_set_self : (d : Entries) → (k : Key) → (v : PyObj) →
    (d.set k v).find? k = some v
  | .nil, k, v => by simp [Entries.set, Entries.find?]
  | .cons k' v' rest, k, v => by
      by_cases h : k' = k <;>
        simp [Entries.set, Entries.find?, h, Entries.find?_set_self rest k v]

theorem Entries.find?_set_ne : (d : Entries) → (k k' : Key) → (v : PyObj) →
    k' ≠ k → (d.set k v).find? k' = d.find? k'
  | .nil, k, k', v, h => by simp [Entries.set, Entries.find?, Ne.symm h]
  | .cons k'' v'' rest, k, k', v, h => by
      by_cases h2 : k'' = k
      · subst h2
        simp [Entries.set, Entries.find?, Ne.symm h]
      · simp [Entries.set, Entries.find?, h2, Entries.find?_set_ne rest k k' v h]

theorem Entries.set_self : (d : Entries) → (k : Key) → (v : PyObj) →
    d.find? k = some v → d.set k v = d
  | .nil, k, v, h => by simp [Entries.find?] at h
  | .cons k' v' rest, k, v, h => by
      by_cases h2 : k' = k
      · subst h2
        simp [Entries.find?] at h
        simp [Entries.set, h]
      · simp only [Entries.find?, if_neg h2] at h
        simp [Entries.set, h2, Entries.set_self rest k v h]

theorem stackSz_append (l1 l2 : List (Key × PyObj)) :
    stackSz (l1 ++ l2) = stackSz l1 + stackSz l2 := by
  simp [stackSz]

theorem stackSz_reverse (l : List (Key × PyObj)) :
    stackSz l.reverse = stackSz l := by
  simp [stackSz, List.sum_reverse]

theorem Entries.sz_toList : (es : Entries) → es.sz = stackSz es.toList + 1
  | .nil => by simp [Entries.sz, Entries.toList, stackSz]
  | .cons k v rest => by
      have := Entries.sz_toList rest
      simp [Entries.sz, Entries.toList, stackSz] at this ⊢
      omega

theorem PyObj.sz_pos (o : PyObj) : 0 < o.sz := by
  cases o with
  | routes rs => simp [PyObj.sz]
  | dict es => simp [PyObj.sz]

theorem stackSz_filter_le (p : Key × PyObj → Bool) (l : List (Key × PyObj)) :
    stackSz (l.filter p) ≤ stackSz l := by
  induction l with
  | nil => simp [stackSz]
  | cons e rest ih =>
      by_cases h : p e <;> simp [stackSz, List.filter, h] at ih ⊢ <;> omega

theorem stackSz_ndwk (k : Key) (es : Entries) :
    stackSz (new_dict_without_key k es) + 1 ≤ es.sz := by
  have h1 := stackSz_filter_le (fun e => decide (e.1 ≠ k)) es.toList
  have h2 := Entries.sz_toList es
  unfold new_dict_without_key
  omega

/-! ## Traversal lemmas -/

theorem travOK_toList : (es : Entries) → travOK es = true →
    ∀ e ∈ es.toList, travOKEntry e.1 e.2 = true
  | .nil, _ => by simp [Entries.toList]
  | .cons k v rest, h => by
      simp only [travOK, Bool.and_eq_true] at h
      intro e he
      simp only [Entries.toList, List.mem_cons] at he
      rcases he with rfl | he
      · exact h.1
      · exact travOK_toList rest h.2 e he

theorem stackTrav_append (l1 l2 : List (Key × PyObj)) :
    stackTrav (l1 ++ l2) = stackTrav l1 ++ stackTrav l2 := by
  simp [stackTrav]

theorem travSpec_stack : (es : Entries) → travSpec es = stackTrav es.toList.reverse
  | .nil => by simp [travSpec, Entries.toList, stackTrav]
  | .cons k v rest => by
      simp [travSpec, Entries.toList, stackTrav_append, travSpec_stack rest, stackTrav]

theorem traverseF_spec (attrs : Attrs) :
    ∀ fuel l, stackSz l < fuel → (∀ e ∈ l, travOKEntry e.1 e.2 = true) →
      traverseF attrs fuel l =
        .ok ((stackTrav l).filter (fun r => has_all_attrs r attrs)) := by
  intro fuel
  induction fuel with
  | zero => intro l h _; simp at h
  | succ fuel ih =>
      intro l hsz hok
      match l with
      | [] => simp [traverseF, stackTrav]
      | (k, v) :: rest =>
        have hentry := hok (k, v) (by simp)
        have hrest : ∀ e ∈ rest, travOKEntry e.1 e.2 = true :=
          fun e he => hok e (by simp [he])
        have hszc : stackSz ((k, v) :: rest) = v.sz + 1 + stackSz rest := by
          simp [stackSz]
        by_cases hk : k = starK
        · subst hk
          cases v with
          | dict es => simp [travOKEntry] at hentry
          | routes rs =>
              have hf : stackSz rest < fuel := by
                simp [PyObj.sz] at hszc
                omega
              simp only [traverseF, if_pos rfl, ih rest hf hrest]
              simp [stackTrav, entryTrav, List.filter_append]
        · cases v with
          | routes rs => simp [travOKEntry, hk] at hentry
          | dict es =>
              simp only [travOKEntry, Bool.and_eq_true, bne_iff_ne, ne_eq] at hentry
              have hsub : ∀ e ∈ es.toList.reverse ++ rest,
                  travOKEntry e.1 e.2 = true := by
                intro e he
                rcases List.mem_append.1 he with he | he
                · exact travOK_toList es hentry.2 e (List.mem_reverse.1 he)
                · exact hrest e he
              have hsz2 : stackSz (es.toList.reverse ++ rest) < fuel := by
                rw [stackSz_append, stackSz_reverse]
                have h3 := Entries.sz_toList es
                have hvs : (PyObj.dict es).sz = es.sz + 1 := by simp [PyObj.sz]
                omega
              simp only [traverseF, if_neg hk, ih _ hsz2 hsub]
              rw [stackTrav_append]
              simp [stackTrav, entryTrav, hk, travSpec_stack, List.filter_append]

/-- `_traverse` materialised from a well-shaped dict: the spec order,
attribute-filtered. -/
theorem traverseD_spec (es : Entries) (attrs : Attrs) (h : travOK es = true) :
    traverseD es attrs =
      .ok ((travSpec es).filter (fun r => has_all_attrs r attrs)) := by
  rw [traverseD, traverseF_spec attrs _ _ (by simp [fuelFor])
    (fun e he => travOK_toList es h e (List.mem_reverse.1 he))]
  rw [travSpec_stack]


/-! ## Bit-string lemmas -/

theorem isPre_nil (b : List Ch) : isPre [] b = true := rfl

theorem bic_eq_iff : ∀ (a b : List Ch), bits_in_common a b = a ↔ isPre a b = true
  | [], b => by simp [bits_in_common, isPre]
  | x :: xs, [] => by
      simp [bits_in_common, isPre]
  | x :: xs, y :: ys => by
      by_cases h : x = y
      · subst h
        simp [bits_in_common, isPre, bic_eq_iff xs ys]
      · simp [bits_in_common, isPre, h]

theorem isPre_append_of : ∀ (k s b : List Ch), isPre (k ++ s) b = true → isPre k b = true
  | [], s, b, _ => rfl
  | x :: xs, s, [], h => by simp [isPre] at h
  | x :: xs, s, y :: ys, h => by
      simp only [List.cons_append, isPre, Bool.and_eq_true, decide_eq_true_eq] at h ⊢
      exact ⟨h.1, isPre_append_of xs s ys h.2⟩

theorem isPre_append_drop : ∀ (k s b : List Ch), isPre k b = true →
    isPre (k ++ s) b = isPre s (b.drop k.length)
  | [], s, b, _ => by simp
  | x :: xs, s, [], h => by simp [isPre] at h
  | x :: xs, s, y :: ys, h => by
      simp only [isPre, Bool.and_eq_true, decide_eq_true_eq] at h
      obtain ⟨h1, h2⟩ := h
      subst h1
      simp only [List.cons_append, isPre, List.length_cons, List.drop_succ_cons,
        List.append_eq]
      rw [isPre_append_drop xs s ys h2]
      simp

theorem isPre_head : ∀ (k b : List Ch), isPre k b = true → k ≠ [] → b.head? = k.head?
  | [], b, _, hne => absurd rfl hne
  | x :: xs, [], h, _ => by simp [isPre] at h
  | x :: xs, y :: ys, h, _ => by
      simp only [isPre, Bool.and_eq_true, decide_eq_true_eq] at h
      simp [h.1]

theorem isPre_refl : ∀ (k : List Ch), isPre k k = true
  | [] => rfl
  | x :: xs => by simp [isPre, isPre_refl xs]

theorem isPre_le_length : ∀ (k b : List Ch), isPre k b = true → k.length ≤ b.length
  | [], b, _ => by simp
  | x :: xs, [], h => by simp [isPre] at h
  | x :: xs, y :: ys, h => by
      simp only [isPre, Bool.and_eq_true, decide_eq_true_eq] at h
      simpa using isPre_le_length xs ys h.2

/-! ## Well-formedness accessors -/

theorem wfRT_find? : (d : Entries) → wfRT d = true → (k : Key) → (v : PyObj) →
    d.find? k = some v → wfRTEntry k v = true
  | .nil, _, k, v, h => by simp [Entries.find?] at h
  | .cons k' v' rest, hwf, k, v, h => by
      simp only [wfRT, Bool.and_eq_true] at hwf
      by_cases he : k' = k
      · subst he
        have h' : v' = v := by simpa [Entries.find?] using h
        exact h' ▸ hwf.1.1.1
      · simp only [Entries.find?, if_neg he] at h
        exact wfRT_find? rest hwf.2 k v h

theorem wfPT_find? : (d : Entries) → wfPT d = true → (k : Key) → (v : PyObj) →
    d.find? k = some v → wfPTEntry k v = true
  | .nil, _, k, v, h => by simp [Entries.find?] at h
  | .cons k' v' rest, hwf, k, v, h => by
      simp only [wfPT, Bool.and_eq_true] at hwf
      by_cases he : k' = k
      · subst he
        have h' : v' = v := by simpa [Entries.find?] using h
        exact h' ▸ hwf.1.1
      · simp only [Entries.find?, if_neg he] at h
        exact wfPT_find? rest hwf.2 k v h

theorem sibOK_keys (k : Key) (rest : Entries) (h : sibOK k rest = true)
    (hk : k ≠ starK) : ∀ k' ∈ rest.keys, k' ≠ starK → k'.head? ≠ k.head? := by
  simp only [sibOK, Bool.or_eq_true, beq_iff_eq] at h
  rcases h with h | h
  · exact absurd h hk
  · intro k' hk' hk's
    have h2 := List.all_eq_true.1 h k' hk'
    simp only [Bool.or_eq_true, beq_iff_eq, decide_eq_true_eq] at h2
    rcases h2 with h2 | h2
    · exact absurd h2 hk's
    · exact h2

theorem find?_mem_keys : (d : Entries) → (k : Key) → (v : PyObj) →
    d.find? k = some v → k ∈ d.keys
  | .nil, k, v, h => by simp [Entries.find?] at h
  | .cons k' v' rest, k, v, h => by
      by_cases he : k' = k
      · subst he; simp [Entries.keys]
      · simp only [Entries.find?, if_neg he] at h
        simp [Entries.keys, find?_mem_keys rest k v h]

/-- Two distinct non-bucket keys of a well-formed radix node differ in their
first bit. -/
theorem wfRT_heads : (d : Entries) → wfRT d = true → (k1 k2 : Key) →
    (v1 v2 : PyObj) → d.find? k1 = some v1 → d.find? k2 = some v2 →
    k1 ≠ k2 → k1 ≠ starK → k2 ≠ starK → k1.head? ≠ k2.head?
  | .nil, _, k1, k2, v1, v2, h1, h2, _, _, _ => by simp [Entries.find?] at h1
  | .cons k' v' rest, hwf, k1, k2, v1, v2, h1, h2, hne, hs1, hs2 => by
      simp only [wfRT, Bool.and_eq_true] at hwf
      by_cases e1 : k' = k1
      · subst e1
        have e2 : k' ≠ k2 := fun h => hne h
        simp only [Entries.find?, if_neg e2] at h2
        exact fun h =>
          sibOK_keys k' rest hwf.1.2 hs1 k2 (find?_mem_keys rest k2 v2 h2) hs2 h.symm
      · by_cases e2 : k' = k2
        · subst e2
          simp only [Entries.find?, if_neg e1] at h1
          exact fun h =>
            sibOK_keys k' rest hwf.1.2 hs2 k1 (find?_mem_keys rest k1 v1 h1) hs1 h
        · simp only [Entries.find?, if_neg e1, if_neg e2] at h1 h2
          exact wfRT_heads rest hwf.2 k1 k2 v1 v2 h1 h2 hne hs1 hs2

/-! ## Entry abstraction lemmas -/

theorem edgeKey_ne_star (k : Key) (h : edgeKey k = true) : k ≠ starK := by
  intro he
  subst he
  simp [edgeKey, starK] at h

theorem hasKey_some (d : Entries) (k : Key) (v : PyObj)
    (h : d.find? k = some v) : d.hasKey k = true := by
  simp [Entries.hasKey, h]

mutual
theorem entriesOf_keys : (pre : List Ch) → (d : Entries) →
    ∀ e ∈ entriesOf pre d, ∃ s, e.1 = pre ++ s
  | pre, .nil => by simp [entriesOf]
  | pre, .cons k v rest => by
      intro e he
      rcases List.mem_append.1 (by simpa [entriesOf] using he) with he | he
      · exact entryOf_keys pre k v e he
      · exact entriesOf_keys pre rest e he
theorem entryOf_keys : (pre : List Ch) → (k : Key) → (v : PyObj) →
    ∀ e ∈ entryOf pre k v, ∃ s, e.1 = pre ++ s
  | pre, k, .routes rs => by
      intro e he
      by_cases h : k = starK
      · simp only [entryOf, if_pos h, List.mem_singleton] at he
        exact ⟨[], by simp [he]⟩
      · simp [entryOf, h] at he
  | pre, k, .dict es => by
      intro e he
      by_cases h : k = starK
      · simp [entryOf, h] at he
      · simp only [entryOf, if_neg h] at he
        obtain ⟨s, hs⟩ := entriesOf_keys (pre ++ k) es e he
        exact ⟨k ++ s, by simp [hs]⟩
end

theorem star_mem_entriesOf : (pre : List Ch) → (d : Entries) → (rs : List Route) →
    d.find? starK = some (.routes rs) → (pre, rs) ∈ entriesOf pre d
  | pre, .nil, rs, h => by simp [Entries.find?] at h
  | pre, .cons k v rest, rs, h => by
      by_cases he : k = starK
      · subst he
        have hv : v = .routes rs := by simpa [Entries.find?] using h
        subst hv
        simp [entriesOf, entryOf]
      · simp only [Entries.find?, if_neg he] at h
        simp only [entriesOf, List.mem_append]
        exact Or.inr (star_mem_entriesOf pre rest rs h)

theorem child_mem_entriesOf : (pre : List Ch) → (d : Entries) → (k : Key) →
    (cs : Entries) → d.find? k = some (.dict cs) → k ≠ starK →
    ∀ e ∈ entriesOf (pre ++ k) cs, e ∈ entriesOf pre d
  | pre, .nil, k, cs, h, _ => by simp [Entries.find?] at h
  | pre, .cons k' v rest, k, cs, h, hks => by
      intro e he
      by_cases heq : k' = k
      · subst heq
        have hv : v = .dict cs := by simpa [Entries.find?] using h
        subst hv
        simp only [entriesOf, List.mem_append, entryOf, if_neg hks]
        exact Or.inl he
      · simp only [Entries.find?, if_neg heq] at h
        simp only [entriesOf, List.mem_append]
        exact Or.inr (child_mem_entriesOf pre rest k cs h hks e he)

theorem entriesOf_decomp : (pre : List Ch) → (d : Entries) → wfRT d = true →
    ∀ e ∈ entriesOf pre d,
      (e.1 = pre ∧ d.find? starK = some (.routes e.2)) ∨
      (∃ k cs, d.find? k = some (.dict cs) ∧ k ≠ starK ∧
        e ∈ entriesOf (pre ++ k) cs)
  | pre, .nil, _, e => by simp [entriesOf]
  | pre, .cons k v rest, hwf, e => by
      simp only [wfRT, Bool.and_eq_true] at hwf
      intro he
      rcases List.mem_append.1 (by simpa [entriesOf] using he) with he | he
      · cases v with
        | routes rs =>
            have hk : k = starK := by simpa [wfRTEntry] using hwf.1.1.1
            subst hk
            simp [entryOf] at he
            subst he
            left
            exact ⟨rfl, by simp [Entries.find?]⟩
        | dict cs =>
            have hek : edgeKey k = true ∧ wfRT cs = true := by
              simpa [wfRTEntry] using hwf.1.1.1
            have hk := edgeKey_ne_star k hek.1
            right
            refine ⟨k, cs, by simp [Entries.find?], hk, ?_⟩
            simpa [entryOf, if_neg hk] using he
      · rcases entriesOf_decomp pre rest hwf.2 e he with ⟨h1, h2⟩ | ⟨k0, cs, h1, h2, h3⟩
        · left
          refine ⟨h1, ?_⟩
          have hne : k ≠ starK := by
            intro hk
            subst hk
            exact absurd (hasKey_some rest starK _ h2) (by simpa using hwf.1.1.2)
          simpa [Entries.find?, if_neg hne] using h2
        · right
          have hne : k ≠ k0 := by
            intro hk
            subst hk
            exact absurd (hasKey_some rest k _ h1) (by simpa using hwf.1.1.2)
          exact ⟨k0, cs, by simpa [Entries.find?, if_neg hne] using h1, h2, h3⟩

/-- A bucket entry whose path equals the node's own path comes from the
node's own bucket marker. -/
theorem entriesOf_self_star (pre : List Ch) (d : Entries) (hwf : wfRT d = true)
    (rs : List Route) (h : (pre, rs) ∈ entriesOf pre d) :
    d.find? starK = some (.routes rs) := by
  rcases entriesOf_decomp pre d hwf (pre, rs) h with ⟨_, h2⟩ | ⟨k, cs, h1, h2, h3⟩
  · exact h2
  · obtain ⟨s, hs⟩ := entriesOf_keys (pre ++ k) cs (pre, rs) h3
    have hek : edgeKey k = true ∧ wfRT cs = true := by
      have h4 := wfRT_find? d hwf k _ h1
      simpa [wfRTEntry] using h4
    have hk0 : k = [] := by
      have hlen := congrArg List.length hs
      simp only [List.length_append] at hlen
      have : k.length = 0 := by omega
      exact List.length_eq_zero.1 this
    subst hk0
    simp [edgeKey] at hek

mutual
theorem entriesOf_shift : (pre' pre : List Ch) → (d : Entries) →
    entriesOf (pre' ++ pre) d = (entriesOf pre d).map (fun e => (pre' ++ e.1, e.2))
  | pre', pre, .nil => by simp [entriesOf]
  | pre', pre, .cons k v rest => by
      simp [entriesOf, entryOf_shift pre' pre k v, entriesOf_shift pre' pre rest]
theorem entryOf_shift : (pre' pre : List Ch) → (k : Key) → (v : PyObj) →
    entryOf (pre' ++ pre) k v = (entryOf pre k v).map (fun e => (pre' ++ e.1, e.2))
  | pre', pre, k, .routes rs => by by_cases h : k = starK <;> simp [entryOf, h]
  | pre', pre, k, .dict es => by
      by_cases h : k = starK
      · simp [entryOf, h]
      · have h2 := entriesOf_shift pre' (pre ++ k) es
        simp only [entryOf, if_neg h]
        rw [← List.append_assoc] at h2
        exact h2
end

theorem hasKey_mem_keys : (d : Entries) → (k : Key) →
    (d.hasKey k = true ↔ k ∈ d.keys)
  | .nil, k => by simp [Entries.hasKey, Entries.find?, Entries.keys]
  | .cons k' v rest, k => by
      by_cases h : k' = k
      · subst h
        simp [Entries.hasKey, Entries.find?, Entries.keys]
      · simp only [Entries.hasKey, Entries.find?, if_neg h, Entries.keys,
          List.mem_cons]
        rw [← Entries.hasKey]
        rw [hasKey_mem_keys rest k]
        simp [Ne.symm h]

theorem wfPT_keys : (d : Entries) → wfPT d = true →
    ∀ k ∈ d.keys, k = starK ∨ k = [Ch.zero] ∨ k = [Ch.one]
  | .nil, _ => by simp [Entries.keys]
  | .cons k' v rest, h => by
      simp only [wfPT, Bool.and_eq_true] at h
      intro k hk
      rcases List.mem_cons.1 (by simpa [Entries.keys] using hk) with rfl | hk
      · cases v with
        | routes rs => exact Or.inl (by simpa [wfPTEntry] using h.1.1)
        | dict es =>
            have h2 : (k = [Ch.zero] ∨ k = [Ch.one]) ∧ wfPT es = true := by
              simpa [wfPTEntry] using h.1.1
            exact Or.inr h2.1
      · exact wfPT_keys rest h.2 k hk

mutual
theorem wfPT_wfRT : (d : Entries) → wfPT d = true → wfRT d = true
  | .nil, _ => rfl
  | .cons k v rest, h => by
      simp only [wfPT, Bool.and_eq_true] at h
      have hrest := wfPT_wfRT rest h.2
      have hentry := wfPTEntry_wfRTEntry k v h.1.1
      have hsib : sibOK k rest = true := by
        by_cases hks : k = starK
        · simp [sibOK, hks, starK]
        · have hk1 : k = [Ch.zero] ∨ k = [Ch.one] := by
            cases v with
            | routes rs => exact absurd (by simpa [wfPTEntry] using h.1.1) hks
            | dict es =>
                have h2 : (k = [Ch.zero] ∨ k = [Ch.one]) ∧ wfPT es = true := by
                  simpa [wfPTEntry] using h.1.1
                exact h2.1
          simp only [sibOK, Bool.or_eq_true, beq_iff_eq]
          right
          rw [List.all_eq_true]
          intro k' hk'
          by_cases hk's : k' = starK
          · simp [hk's]
          · have h3 := wfPT_keys rest h.2 k' hk'
            have hk'1 : k' = [Ch.zero] ∨ k' = [Ch.one] := by
              rcases h3 with h3 | h3 | h3
              · exact absurd h3 hk's
              · exact Or.inl h3
              · exact Or.inr h3
            have hne : k' ≠ k := by
              intro he
              subst he
              exact absurd ((hasKey_mem_keys rest k').2 hk')
                (by simpa using h.1.2)
            simp only [Bool.or_eq_true, beq_iff_eq, decide_eq_true_eq]
            right
            rcases hk1 with rfl | rfl <;> rcases hk'1 with rfl | rfl <;>
              simp_all
      simp only [wfRT, Bool.and_eq_true]
      exact ⟨⟨⟨hentry, h.1.2⟩, hsib⟩, hrest⟩
theorem wfPTEntry_wfRTEntry : (k : Key) → (v : PyObj) →
    wfPTEntry k v = true → wfRTEntry k v = true
  | k, .routes rs, h => by simpa [wfPTEntry, wfRTEntry] using h
  | k, .dict es, h => by
      have h2 : (k = [Ch.zero] ∨ k = [Ch.one]) ∧ wfPT es = true := by
        simpa [wfPTEntry] using h
      have := wfPT_wfRT es h2.2
      rcases h2.1 with rfl | rfl <;> simp [wfRTEntry, edgeKey, this]
end

theorem find?_mem_toList : (d : Entries) → (k : Key) → (v : PyObj) →
    d.find? k = some v → (k, v) ∈ d.toList
  | .nil, k, v, h => by simp [Entries.find?] at h
  | .cons k' v' rest, k, v, h => by
      by_cases he : k' = k
      · subst he
        have : v' = v := by simpa [Entries.find?] using h
        simp [Entries.toList, this]
      · simp only [Entries.find?, if_neg he] at h
        simp [Entries.toList, find?_mem_toList rest k v h]

theorem mem_toList_keys : (d : Entries) → (k : Key) → (v : PyObj) →
    (k, v) ∈ d.toList → k ∈ d.keys
  | .nil, k, v, h => by simp [Entries.toList] at h
  | .cons k' v' rest, k, v, h => by
      rcases (by simpa [Entries.toList] using h :
          (k = k' ∧ v = v') ∨ (k, v) ∈ rest.toList) with he | he
      · simp [Entries.keys, he.1]
      · simp [Entries.keys, mem_toList_keys rest k v he]

theorem mem_toList_find? : (d : Entries) → wfRT d = true → (k : Key) →
    (v : PyObj) → (k, v) ∈ d.toList → d.find? k = some v
  | .nil, _, k, v, h => by simp [Entries.toList] at h
  | .cons k' v' rest, hwf, k, v, h => by
      simp only [wfRT, Bool.and_eq_true] at hwf
      rcases (by simpa [Entries.toList] using h :
          (k = k' ∧ v = v') ∨ (k, v) ∈ rest.toList) with he | he
      · obtain ⟨h1, h2⟩ := he
        subst h1
        subst h2
        simp [Entries.find?]
      · by_cases heq : k' = k
        · subst heq
          exact absurd ((hasKey_mem_keys rest k').2 (mem_toList_keys rest k' v he))
            (by simpa using hwf.1.1.2)
        · simp only [Entries.find?, if_neg heq]
          exact mem_toList_find? rest hwf.2 k v he

theorem mem_subEnt (d : Entries) (e : List Ch × List Route) :
    e ∈ subEnt d ↔ e ∈ entriesOf [] d ∧ e.1 ≠ [] := by
  simp [subEnt, List.mem_filter]

theorem subEnt_decomp (d : Entries) (hwf : wfRT d = true)
    (e : List Ch × List Route) (he : e ∈ subEnt d) :
    ∃ k cs s, d.find? k = some (.dict cs) ∧ k ≠ starK ∧ edgeKey k = true ∧
      wfRT cs = true ∧ e.1 = k ++ s ∧ (s, e.2) ∈ entriesOf [] cs := by
  obtain ⟨hmem, hne⟩ := (mem_subEnt d e).1 he
  rcases entriesOf_decomp [] d hwf e hmem with ⟨h1, _⟩ | ⟨k, cs, h1, h2, h3⟩
  · exact absurd h1 hne
  · have hsh := entriesOf_shift k [] cs
    simp only [List.append_nil] at hsh
    rw [List.nil_append] at h3
    rw [hsh, List.mem_map] at h3
    obtain ⟨e', he', heq⟩ := h3
    have hwfe : wfRTEntry k (.dict cs) = true := wfRT_find? d hwf k _ h1
    have hek : edgeKey k = true ∧ wfRT cs = true := by
      simpa [wfRTEntry] using hwfe
    refine ⟨k, cs, e'.1, h1, h2, hek.1, hek.2, ?_, ?_⟩
    · rw [← heq]
    · have h5 : e'.2 = e.2 := by rw [← heq]
      rw [← h5]
      simpa using he' 

theorem subEnt_intro (d : Entries) (k : Key) (cs : Entries) (s : List Ch)
    (rs : List Route) (hf : d.find? k = some (.dict cs)) (hks : k ≠ starK)
    (hk0 : k ≠ []) (hmem : (s, rs) ∈ entriesOf [] cs) :
    (k ++ s, rs) ∈ subEnt d := by
  rw [mem_subEnt]
  constructor
  · have hsh := entriesOf_shift k [] cs
    simp only [List.append_nil] at hsh
    have : (k ++ s, rs) ∈ entriesOf k cs := by
      rw [hsh, List.mem_map]
      exact ⟨(s, rs), hmem, rfl⟩
    have h3 := child_mem_entriesOf [] d k cs hf hks
    rw [List.nil_append] at h3
    exact h3 _ this
  · simp [hk0]

theorem edgeKey_ne_nil (k : Key) (h : edgeKey k = true) : k ≠ [] := by
  intro he
  subst he
  simp [edgeKey] at h

theorem child_pre_unique (d : Entries) (hwf : wfRT d = true) (bits : List Ch)
    (k k0 : Key) (v v0 : PyObj) (hf : d.find? k = some v)
    (hf0 : d.find? k0 = some v0) (hks : k ≠ starK) (hk0s : k0 ≠ starK)
    (hk : k ≠ []) (hk0 : k0 ≠ []) (hp : isPre k bits = true)
    (hp0 : isPre k0 bits = true) : k = k0 := by
  by_contra hne
  have hh := wfRT_heads d hwf k k0 v v0 hf hf0 hne hks hk0s
  have h1 := isPre_head k bits hp hk
  have h2 := isPre_head k0 bits hp0 hk0
  exact hh (h1 ▸ h2)

/-- Lifting the LPM relation from a child node to its parent: if the walk
descended through edge `k` (a full leading segment of the query) and the
result is a longest match within the child (with the child's own bucket as
default), then it is a longest match at the parent. -/
theorem isLpmA_lift (d : Entries) (k : Key) (cs : Entries) (bits : List Ch)
    (acc acc' r : List Route)
    (hwf : wfRT d = true)
    (hf : d.find? k = some (.dict cs))
    (hks : k ≠ starK) (hkne : k ≠ [])
    (hwfcs : wfRT cs = true)
    (hpre : isPre k bits = true)
    (hacc : (∃ rs, cs.find? starK = some (.routes rs) ∧ acc' = rs) ∨
      (cs.find? starK = none ∧ acc' = acc))
    (hsub : isLpmA (subEnt cs) (bits.drop k.length) acc' r) :
    isLpmA (subEnt d) bits acc r := by
  have hmax_aux : ∀ e ∈ subEnt d, isPre e.1 bits = true →
      ∃ s, e.1 = k ++ s ∧ (s, e.2) ∈ entriesOf [] cs ∧
        isPre s (bits.drop k.length) = true := by
    intro e he hp
    obtain ⟨k0, cs0, s, hf0, hk0s, hek0, _, hkey, hsmem⟩ := subEnt_decomp d hwf e he
    have hp0 : isPre k0 bits = true := by
      rw [hkey] at hp
      exact isPre_append_of k0 s bits hp
    have hkk0 : k = k0 :=
      child_pre_unique d hwf bits k k0 _ _ hf hf0 hks hk0s hkne
        (edgeKey_ne_nil k0 hek0) hpre hp0
    subst hkk0
    have hcs : cs0 = cs := by
      rw [hf] at hf0
      simpa using hf0.symm
    subst hcs
    refine ⟨s, hkey, hsmem, ?_⟩
    rw [hkey] at hp
    rw [isPre_append_drop k s bits hpre] at hp
    exact hp
  rcases hsub with ⟨k', hmem', hpre', hmax'⟩ | ⟨hr, hnone⟩
  · left
    obtain ⟨hmem'e, hne'⟩ := (mem_subEnt cs (k', r)).1 hmem'
    refine ⟨k ++ k', subEnt_intro d k cs k' r hf hks hkne hmem'e, ?_, ?_⟩
    · rw [isPre_append_drop k k' bits hpre]
      exact hpre'
    · intro e he hp
      obtain ⟨s, hkey, hsmem, hsp⟩ := hmax_aux e he hp
      by_cases hs : s = []
      · subst hs
        simp [hkey]
      · have hss : (s, e.2) ∈ subEnt cs := (mem_subEnt cs (s, e.2)).2 ⟨hsmem, hs⟩
        have h6 : s.length ≤ k'.length := by simpa using hmax' (s, e.2) hss hsp
        simp only [hkey, List.length_append]
        omega
  · rcases hacc with ⟨rs, hstar, haccv⟩ | ⟨hnostar, haccv⟩
    · left
      have hrrs : r = rs := hr.trans haccv
      subst hrrs
      refine ⟨k, ?_, hpre, ?_⟩
      · have hmm : (k ++ ([] : List Ch), r) ∈ subEnt d := by
          have hm : (([] : List Ch), r) ∈ entriesOf [] cs :=
            star_mem_entriesOf [] cs r hstar
          exact subEnt_intro d k cs [] r hf hks hkne hm
        simpa using hmm
      · intro e he hp
        obtain ⟨s, hkey, hsmem, hsp⟩ := hmax_aux e he hp
        by_cases hs : s = []
        · subst hs
          simp [hkey]
        · have hsub : (s, e.2) ∈ subEnt cs := (mem_subEnt cs (s, e.2)).2 ⟨hsmem, hs⟩
          exact absurd hsp (by simp [hnone (s, e.2) hsub])
    · right
      refine ⟨hr.trans haccv, ?_⟩
      intro e he
      by_contra hp
      rw [Bool.not_eq_false] at hp
      obtain ⟨s, hkey, hsmem, hsp⟩ := hmax_aux e he hp
      by_cases hs : s = []
      · subst hs
        have := entriesOf_self_star [] cs hwfcs e.2 hsmem
        rw [this] at hnostar
        exact Option.noConfusion hnostar
      · have hsub : (s, e.2) ∈ subEnt cs := (mem_subEnt cs (s, e.2)).2 ⟨hsmem, hs⟩
        exact absurd hsp (by simp [hnone (s, e.2) hsub])

/-- When no edge of the node is a leading segment of the query, the default
is a longest match. -/
theorem isLpmA_nochild (d : Entries) (bits : List Ch) (acc : List Route)
    (hwf : wfRT d = true)
    (h : ∀ k v, d.find? k = some v → k ≠ starK → isPre k bits = false) :
    isLpmA (subEnt d) bits acc acc := by
  right
  refine ⟨rfl, ?_⟩
  intro e he
  by_contra hp
  rw [Bool.not_eq_false] at hp
  obtain ⟨k0, cs0, s, hf0, hk0s, hek0, _, hkey, _⟩ := subEnt_decomp d hwf e he
  have hp0 : isPre k0 bits = true := by
    rw [hkey] at hp
    exact isPre_append_of k0 s bits hp
  rw [h k0 _ hf0 hk0s] at hp0
  exact Bool.noConfusion hp0

/-- Folding the node's own bucket (the walk's initial `routes`) into the LPM
relation over the full entry list. -/
theorem isLpmA_root (d : Entries) (bits : List Ch) (acc0 r : List Route)
    (hwf : wfRT d = true)
    (hacc : (∃ rs, d.find? starK = some (.routes rs) ∧ acc0 = rs) ∨
      (d.find? starK = none ∧ acc0 = []))
    (h : isLpmA (subEnt d) bits acc0 r) :
    isLpmA (entriesOf [] d) bits [] r := by
  rcases h with ⟨k, hmem, hpre, hmax⟩ | ⟨hr, hnone⟩
  · left
    obtain ⟨hmem', _⟩ := (mem_subEnt d (k, r)).1 hmem
    refine ⟨k, hmem', hpre, ?_⟩
    intro e he hp
    by_cases hs : e.1 = []
    · simp [hs]
    · exact hmax e ((mem_subEnt d e).2 ⟨he, hs⟩) hp
  · rcases hacc with ⟨rs, hstar, haccv⟩ | ⟨hnostar, haccv⟩
    · left
      have hrrs : r = rs := hr.trans haccv
      subst hrrs
      refine ⟨[], star_mem_entriesOf [] d r hstar, rfl, ?_⟩
      intro e he hp
      by_cases hs : e.1 = []
      · simp [hs]
      · exact absurd hp (by simp [hnone e ((mem_subEnt d e).2 ⟨he, hs⟩)])
    · right
      refine ⟨hr.trans haccv, ?_⟩
      intro e he
      by_cases hs : e.1 = []
      · obtain ⟨e1, e2⟩ := e
        simp only at hs
        subst hs
        have := entriesOf_self_star [] d hwf e2 he
        rw [this] at hnostar
        exact Option.noConfusion hnostar
      · exact hnone e ((mem_subEnt d e).2 ⟨he, hs⟩)

theorem isPre_nil_of_ne (e1 : List Ch) (h : e1 ≠ []) (b : List Ch)
    (hb : b = []) : isPre e1 b = false := by
  subst hb
  cases e1 with
  | nil => exact absurd rfl h
  | cons c cs => rfl

/-- The `get` walk of the binary tree computes a longest-prefix match among
the proper descendants, with the carried bucket as default.  (Query bit
strings never contain the bucket marker.) -/
theorem ptGetGo_lpm : (bits : List Ch) → (d : Entries) → (acc : List Route) →
    wfPT d = true → Ch.star ∉ bits →
    ∃ r, ptGetGo bits d acc = .ok r ∧ isLpmA (subEnt d) bits acc r
  | [], d, acc, hwf, _ => by
      refine ⟨acc, by simp [ptGetGo], Or.inr ⟨rfl, ?_⟩⟩
      intro e he
      exact isPre_nil_of_ne e.1 ((mem_subEnt d e).1 he).2 [] rfl
  | b :: rest, d, acc, hwf, hb => by
      have hwfr := wfPT_wfRT d hwf
      have hbs : b ≠ Ch.star := fun h => hb (h ▸ List.mem_cons_self b rest)
      have hbrest : Ch.star ∉ rest := fun h => hb (List.mem_cons_of_mem b h)
      have hbK : ([b] : Key) ≠ starK := by
        simp [starK]
        exact fun h => absurd h hbs
      cases hf : d.find? [b] with
      | none =>
          refine ⟨acc, by simp [ptGetGo, hf], ?_⟩
          apply isLpmA_nochild d (b :: rest) acc hwfr
          intro k v hfk hks
          by_contra hp
          rw [Bool.not_eq_false] at hp
          have hwfe := wfPT_find? d hwf k v hfk
          have hk1 : k = [Ch.zero] ∨ k = [Ch.one] := by
            cases v with
            | routes rs => exact absurd (by simpa [wfPTEntry] using hwfe) hks
            | dict es =>
                exact (by simpa [wfPTEntry] using hwfe :
                  (k = [Ch.zero] ∨ k = [Ch.one]) ∧ wfPT es = true).1
          have hkb : k = [b] := by
            rcases hk1 with rfl | rfl <;>
              · simp only [isPre, Bool.and_eq_true, decide_eq_true_eq] at hp
                rw [hp.1]
          rw [hkb, hf] at hfk
          exact Option.noConfusion hfk
      | some v =>
          have hwfe := wfPT_find? d hwf [b] v hf
          cases v with
          | routes rs =>
              have : ([b] : Key) = starK := by simpa [wfPTEntry] using hwfe
              exact absurd this hbK
          | dict sub =>
              have hsub : wfPT sub = true := by
                exact (by simpa [wfPTEntry] using hwfe :
                  ([b] = [Ch.zero] ∨ [b] = [Ch.one]) ∧ wfPT sub = true).2
              have hsubr := wfPT_wfRT sub hsub
              have hpre : isPre [b] (b :: rest) = true := by simp [isPre]
              have hdrop : (b :: rest).drop ([b] : Key).length = rest := by simp
              cases hstar : sub.find? starK with
              | none =>
                  obtain ⟨r, heq, hlpm⟩ := ptGetGo_lpm rest sub acc hsub hbrest
                  refine ⟨r, by simp [ptGetGo, hf, hstar, heq], ?_⟩
                  refine isLpmA_lift d [b] sub (b :: rest) acc acc r hwfr hf
                    hbK (by simp) hsubr hpre (Or.inr ⟨hstar, rfl⟩) ?_
                  rw [hdrop]
                  exact hlpm
              | some w =>
                  cases w with
                  | dict x =>
                      have := wfPT_find? sub hsub starK _ hstar
                      simp [wfPTEntry, starK] at this
                  | routes rs =>
                      obtain ⟨r, heq, hlpm⟩ := ptGetGo_lpm rest sub rs hsub hbrest
                      refine ⟨r, by simp [ptGetGo, hf, hstar, heq], ?_⟩
                      refine isLpmA_lift d [b] sub (b :: rest) acc rs r hwfr hf
                        hbK (by simp) hsubr hpre
                        (Or.inl ⟨rs, hstar, rfl⟩) ?_
                      rw [hdrop]
                      exact hlpm

/-- The `get` walk of the radix tree computes a longest-prefix match among
the proper descendants, with the carried bucket as default.  The working
set is the (reversed) drained copy of the current node's star-less items:
every element is a real entry of `d`, and every edge of `d` that fully
matches the remaining input is still present. -/
theorem rtGetGo_lpm :
    ∀ fuel (ws : List (Key × PyObj)) (bits : List Ch) (d : Entries)
      (acc : List Route),
      wfRT d = true →
      stackSz ws + bits.length < fuel →
      Ch.star ∉ bits →
      (∀ e ∈ ws, d.find? e.1 = some e.2 ∧ e.1 ≠ starK) →
      (∀ k v, d.find? k = some v → k ≠ starK → isPre k bits = true →
        (k, v) ∈ ws) →
      ∃ r, rtGetGo fuel ws bits acc = .ok r ∧ isLpmA (subEnt d) bits acc r := by
  intro fuel
  induction fuel with
  | zero => intro ws bits d acc _ h; omega
  | succ fuel ih =>
      intro ws bits d acc hwf hsz hb hws hall
      match ws, bits with
      | [], bits =>
          refine ⟨acc, by simp [rtGetGo], ?_⟩
          apply isLpmA_nochild d bits acc hwf
          intro k v hf hks
          by_contra hp
          rw [Bool.not_eq_false] at hp
          exact absurd (hall k v hf hks hp) (List.not_mem_nil _)
      | (k, v) :: rest, [] =>
          refine ⟨acc, by simp [rtGetGo], Or.inr ⟨rfl, ?_⟩⟩
          intro e he
          exact isPre_nil_of_ne e.1 ((mem_subEnt d e).1 he).2 [] rfl
      | (k, v) :: rest, b :: brest =>
          obtain ⟨hfk, hks⟩ := hws (k, v) (List.mem_cons_self _ _)
          have hrest : ∀ e ∈ rest, d.find? e.1 = some e.2 ∧ e.1 ≠ starK :=
            fun e he => hws e (List.mem_cons_of_mem _ he)
          have hszc : stackSz ((k, v) :: rest) = v.sz + 1 + stackSz rest := by
            simp [stackSz]
          by_cases hcom : bits_in_common k (b :: brest) = k
          · have hpre : isPre k (b :: brest) = true := (bic_eq_iff k _).1 hcom
            have hwfe := wfRT_find? d hwf k v hfk
            cases v with
            | routes rs => exact absurd (by simpa [wfRTEntry] using hwfe) hks
            | dict cs =>
                have hek : edgeKey k = true ∧ wfRT cs = true := by
                  simpa [wfRTEntry] using hwfe
                have hkne : k ≠ [] := edgeKey_ne_nil k hek.1
                have hws'h : ∀ e ∈ (new_dict_without_key starK cs).reverse,
                    cs.find? e.1 = some e.2 ∧ e.1 ≠ starK := by
                  intro e he
                  rw [List.mem_reverse] at he
                  have hmem : e ∈ cs.toList ∧ ¬ e.1 = starK := by
                    simpa [new_dict_without_key] using he
                  exact ⟨mem_toList_find? cs hek.2 e.1 e.2 hmem.1, hmem.2⟩
                have hall' : ∀ k0 v0, cs.find? k0 = some v0 → k0 ≠ starK →
                    isPre k0 ((b :: brest).drop k.length) = true →
                    (k0, v0) ∈ (new_dict_without_key starK cs).reverse := by
                  intro k0 v0 hf0 hk0s _
                  rw [List.mem_reverse]
                  have : (k0, v0) ∈ cs.toList := find?_mem_toList cs k0 v0 hf0
                  simp only [new_dict_without_key, List.mem_filter]
                  exact ⟨this, by simpa using hk0s⟩
                have hb' : Ch.star ∉ (b :: brest).drop k.length :=
                  fun h => hb (List.drop_subset _ _ h)
                have hsz' : stackSz (new_dict_without_key starK cs).reverse +
                    ((b :: brest).drop k.length).length < fuel := by
                  rw [stackSz_reverse]
                  have h1 := stackSz_ndwk starK cs
                  have h2 : (PyObj.dict cs).sz = cs.sz + 1 := by simp [PyObj.sz]
                  have h3 : ((b :: brest).drop k.length).length ≤ (b :: brest).length := by
                    rw [List.length_drop]
                    omega
                  omega
                cases hstar : cs.find? starK with
                | none =>
                    obtain ⟨r, heq, hlpm⟩ := ih (new_dict_without_key starK cs).reverse
                      ((b :: brest).drop k.length) cs acc hek.2 hsz' hb' hws'h hall'
                    refine ⟨r, ?_, ?_⟩
                    · simp only [rtGetGo, hcom, if_pos rfl]
                      simp [hstar, heq, bits_in_common]
                    · exact isLpmA_lift d k cs (b :: brest) acc acc r hwf hfk hks
                        hkne hek.2 hpre (Or.inr ⟨hstar, rfl⟩) hlpm
                | some w =>
                    cases w with
                    | dict x =>
                        have := wfRT_find? cs hek.2 starK _ hstar
                        simp [wfRTEntry, edgeKey, starK] at this
                    | routes rs =>
                        obtain ⟨r, heq, hlpm⟩ := ih (new_dict_without_key starK cs).reverse
                          ((b :: brest).drop k.length) cs rs hek.2 hsz' hb' hws'h hall'
                        refine ⟨r, ?_, ?_⟩
                        · simp only [rtGetGo, hcom, if_pos rfl]
                          simp [hstar, heq, bits_in_common]
                        · exact isLpmA_lift d k cs (b :: brest) acc rs r hwf hfk hks
                            hkne hek.2 hpre (Or.inl ⟨rs, hstar, rfl⟩) hlpm
          · have hnpre : isPre k (b :: brest) = false := by
              by_contra hp
              rw [Bool.not_eq_false] at hp
              exact hcom ((bic_eq_iff k _).2 hp)
            have hall' : ∀ k0 v0, d.find? k0 = some v0 → k0 ≠ starK →
                isPre k0 (b :: brest) = true → (k0, v0) ∈ rest := by
              intro k0 v0 hf0 hk0s hp0
              rcases List.mem_cons.1 (hall k0 v0 hf0 hk0s hp0) with he | he
              · obtain ⟨h1, _⟩ := Prod.mk.injEq .. ▸ he
                subst h1
                rw [hnpre] at hp0
                exact Bool.noConfusion hp0
              · exact he
            have hsz' : stackSz rest + (b :: brest).length < fuel := by
              have := PyObj.sz_pos v
              omega
            obtain ⟨r, heq, hlpm⟩ := ih rest (b :: brest) d acc hwf hsz' hb hrest hall'
            refine ⟨r, ?_, hlpm⟩
            have hstep : rtGetGo (fuel + 1) ((k, v) :: rest) (b :: brest) acc =
                rtGetGo fuel rest (b :: brest) acc := by
              simp only [rtGetGo]
              rw [if_neg hcom]
            rw [hstep, heq]

theorem star_not_mem_bits (p : IPPfx) : Ch.star ∉ bits_in_pfx p := by
  intro h
  have h2 : Ch.star ∈ bits_of_nat (addrWidth (ip_network p).version)
      (ip_network p).netid := List.take_subset _ _ h
  obtain ⟨i, _, hi⟩ := List.mem_map.1 h2
  by_cases ht : ((ip_network p).netid).testBit (addrWidth (ip_network p).version - 1 - i)
  · simp [ht] at hi
  · simp [ht] at hi

theorem ndwk_rev_entries (cs : Entries) (h : wfRT cs = true) :
    ∀ e ∈ (new_dict_without_key starK cs).reverse,
      cs.find? e.1 = some e.2 ∧ e.1 ≠ starK := by
  intro e he
  rw [List.mem_reverse] at he
  have hmem : e ∈ cs.toList ∧ ¬ e.1 = starK := by
    simpa [new_dict_without_key] using he
  exact ⟨mem_toList_find? cs h e.1 e.2 hmem.1, hmem.2⟩

theorem ndwk_rev_complete (cs : Entries) :
    ∀ k v, cs.find? k = some v → k ≠ starK →
      (k, v) ∈ (new_dict_without_key starK cs).reverse := by
  intro k v hf hks
  rw [List.mem_reverse]
  simp only [new_dict_without_key, List.mem_filter]
  exact ⟨find?_mem_toList cs k v hf, by simpa using hks⟩

/-- C3: on both tries, under the structural invariants, `get` returns the
bucket of the longest stored path that is a leading segment of the queried
bit-string, filtered by the attribute set, and the empty list when no
bucket lies on that path (`isLpmA` with default `[]`). -/
theorem claim3_get_longest_match (t : IPPrefixTree) (u : IPRadixTree)
    (p : IPPfx) (attrs : Attrs)
    (hwt : wfPT t.root = true) (hwu : wfRT u.root = true) :
    (∃ r, t.get p attrs = .ok (objs_with_all_attrs r attrs) ∧
       isLpmA (entriesOf [] t.root) (bits_in_pfx p) [] r) ∧
    (∃ r, u.get p attrs = .ok (objs_with_all_attrs r attrs) ∧
       isLpmA (entriesOf [] u.root) (bits_in_pfx p) [] r) := by
  constructor
  · cases hstar : t.root.find? starK with
    | none =>
        obtain ⟨r, heq, hlpm⟩ := ptGetGo_lpm (bits_in_pfx p) t.root [] hwt
          (star_not_mem_bits p)
        refine ⟨r, ?_, isLpmA_root t.root (bits_in_pfx p) [] r (wfPT_wfRT _ hwt)
          (Or.inr ⟨hstar, rfl⟩) hlpm⟩
        simp [IPPrefixTree.get, hstar, heq]
    | some w =>
        cases w with
        | dict x =>
            have := wfPT_find? t.root hwt starK _ hstar
            simp [wfPTEntry, starK] at this
        | routes rs =>
            obtain ⟨r, heq, hlpm⟩ := ptGetGo_lpm (bits_in_pfx p) t.root rs hwt
              (star_not_mem_bits p)
            refine ⟨r, ?_, isLpmA_root t.root (bits_in_pfx p) rs r (wfPT_wfRT _ hwt)
              (Or.inl ⟨rs, hstar, rfl⟩) hlpm⟩
            simp [IPPrefixTree.get, hstar, heq]
  · have hsz : stackSz (new_dict_without_key starK u.root).reverse +
        (bits_in_pfx p).length <
        fuelFor (new_dict_without_key starK u.root).reverse (bits_in_pfx p) := by
      simp [fuelFor]
    cases hstar : u.root.find? starK with
    | none =>
        obtain ⟨r, heq, hlpm⟩ := rtGetGo_lpm
          (fuelFor (new_dict_without_key starK u.root).reverse (bits_in_pfx p))
          (new_dict_without_key starK u.root).reverse (bits_in_pfx p) u.root []
          hwu hsz (star_not_mem_bits p) (ndwk_rev_entries u.root hwu)
          (fun k v hf hks _ => ndwk_rev_complete u.root k v hf hks)
        refine ⟨r, ?_, isLpmA_root u.root (bits_in_pfx p) [] r hwu
          (Or.inr ⟨hstar, rfl⟩) hlpm⟩
        simp [IPRadixTree.get, hstar, heq]
    | some w =>
        cases w with
        | dict x =>
            have := wfRT_find? u.root hwu starK _ hstar
            simp [wfRTEntry, edgeKey, starK] at this
        | routes rs =>
            obtain ⟨r, heq, hlpm⟩ := rtGetGo_lpm
              (fuelFor (new_dict_without_key starK u.root).reverse (bits_in_pfx p))
              (new_dict_without_key starK u.root).reverse (bits_in_pfx p) u.root rs
              hwu hsz (star_not_mem_bits p) (ndwk_rev_entries u.root hwu)
              (fun k v hf hks _ => ndwk_rev_complete u.root k v hf hks)
            refine ⟨r, ?_, isLpmA_root u.root (bits_in_pfx p) rs r hwu
              (Or.inl ⟨rs, hstar, rfl⟩) hlpm⟩
            simp [IPRadixTree.get, hstar, heq]


theorem claim3_witness :
    wfPT wPT.root = true ∧ wfRT wRT.root = true ∧
      ((∃ r, wPT.get wQry [] = .ok (objs_with_all_attrs r []) ∧
         isLpmA (entriesOf [] wPT.root) (bits_in_pfx wQry) [] r) ∧
       (∃ r, wRT.get wQry [] = .ok (objs_with_all_attrs r []) ∧
         isLpmA (entriesOf [] wRT.root) (bits_in_pfx wQry) [] r)) :=
  ⟨by decide, by decide, claim3_get_longest_match wPT wRT wQry [] (by decide) (by decide)⟩

/-! ## Claim evaluations on concrete inputs -/

/-- C1: the two tries are NOT equivalent (code bug in the radix `show`
walk): after adding `0.0.0.0/0` and `0.0.0.0/2` to both trees, the
ordered-result query `show("0.0.0.0/1")` returns the empty list on the
binary tree but the bucket of `0.0.0.0/0` on the radix tree (its walk
consumes the common bit of the partially matching edge `"00"` without
descending and then reports the root bucket as an exact match). -/
theorem claim1_tries_diverge_on_show :
    (do
      let t1 ← IPPrefixTree.init.add net40 []
      let t2 ← t1.add net42 []
      t2.show (some net41) false []) = Except.ok []
    ∧ (do
      let u1 ← IPRadixTree.init.add net40 []
      let u2 ← u1.add net42 []
      u2.show (some net41) false []) = Except.ok [⟨net40, []⟩] := ⟨rfl, rfl⟩

/-- C2: the radix tree is NOT canonical after every operation sequence
(code bug in the merge step of `delete`): deleting `0.0.0.0/2` from the
radix tree holding `0.0.0.0/1` and `0.0.0.0/2` splices out the node of
`0.0.0.0/1` although it still holds its bucket, leaving the root with the
corrupt key `"0*"` mapped to a bare route list — a state that violates the
well-formedness (hence canonicity) of radix nodes. -/
theorem claim2_delete_merge_splices_bucket_node :
    (do
      let u1 ← IPRadixTree.init.add net41 []
      let u2 ← u1.add net42 []
      u2.delete net42 []) =
      Except.ok (⟨Entries.cons [Ch.zero, Ch.star]
        (PyObj.routes [⟨net41, []⟩]) .nil, 1⟩ : IPRadixTree)
    ∧ wfRT (Entries.cons [Ch.zero, Ch.star]
        (PyObj.routes [⟨net41, []⟩]) .nil) = false := ⟨rfl, rfl⟩

/-- C4: `delete` does NOT leave every route at other prefixes retrievable
(code bug, radix merge step): with `10.0.0.0/8` and `10.1.0.0/16` stored,
`get("10.2.0.1/32")` finds the `/8` route; after `delete("10.1.0.0/16")`
the `/8` node has been spliced into a corrupt edge and the same query
returns the empty list. -/
theorem claim4_radix_delete_loses_sibling_route :
    (do
      let u1 ← IPRadixTree.init.add net10s8 []
      let u2 ← u1.add net10s16 []
      u2.get net10s32 []) = Except.ok [⟨net10s8, []⟩]
    ∧ (do
      let u1 ← IPRadixTree.init.add net10s8 []
      let u2 ← u1.add net10s16 []
      let u3 ← u2.delete net10s16 []
      u3.get net10s32 []) = Except.ok [] := ⟨rfl, rfl⟩

/-- C5: `show` with an absent prefix does NOT return an empty list on the
radix tree (code bug in the `show` walk): with `::/0` and `::/3` stored,
`::/1` has no bucket (`bucketAt` of the abstract entries is `none`), yet
`show("::/1")` returns the `::/0` bucket. -/
theorem claim5_show_absent_not_empty :
    (do
      let u1 ← IPRadixTree.init.add net60 []
      let u2 ← u1.add net63 []
      u2.show (some net61) false []) = Except.ok [⟨net60, []⟩]
    ∧ (do
      let u1 ← IPRadixTree.init.add net60 []
      let u2 ← u1.add net63 []
      pure (bucketAt (entriesOf [] u2.root) (bits_in_pfx net61)))
      = Except.ok none := ⟨rfl, rfl⟩

/-- C6: radix `show(prefix)` does NOT perform an exact-match check (code
bug): with `128.0.0.0/1` and `192.0.0.0/3` stored, `192.0.0.0/2` is not a
stored node (`bucketAt` is `none`), yet the radix `show` returns the
bucket of `128.0.0.0/1`; the binary tree correctly returns the empty
list. -/
theorem claim6_radix_show_not_exact :
    (do
      let u1 ← IPRadixTree.init.add netH1 []
      let u2 ← u1.add netH3 []
      u2.show (some netH2) false []) = Except.ok [⟨netH1, []⟩]
    ∧ (do
      let u1 ← IPRadixTree.init.add netH1 []
      let u2 ← u1.add netH3 []
      pure (bucketAt (entriesOf [] u2.root) (bits_in_pfx netH2)))
      = Except.ok none
    ∧ (do
      let t1 ← IPPrefixTree.init.add netH1 []
      let t2 ← t1.add netH3 []
      t2.show (some netH2) false []) = Except.ok [] := ⟨rfl, rfl, rfl⟩

/-- C9: attribute-only `flush` does NOT leave every non-matching route
retrievable (code bug, via the radix delete merge step): with
`0.0.0.0/1 via=A` and `0.0.0.0/2 via=B` stored, `flush(via="B")` removes
the `/2` route and decrements the counter to 1, but the pruning of the
emptied bucket corrupts the tree and the surviving `/1` route is no longer
returned by `get`. -/
theorem claim9_radix_flush_attrs_loses_route :
    (do
      let u1 ← IPRadixTree.init.add net41 [("via", "A")]
      let u2 ← u1.add net42 [("via", "B")]
      let u3 ← u2.flush none [("via", "B")]
      u3.get net41 []) = Except.ok []
    ∧ (do
      let u1 ← IPRadixTree.init.add net41 [("via", "A")]
      let u2 ← u1.add net42 [("via", "B")]
      let u3 ← u2.flush none [("via", "B")]
      pure u3.counter) = Except.ok 1 := ⟨rfl, rfl⟩

set_option maxRecDepth 100000 in
/-- C10: on either trie holding exactly the route `::/128` (integer
boundaries `[0, 0]`), `wcmatch("0.0.0.0", "0.0.3.255")` — integer forms 0
and 1023 — returns that IPv6 route, because the interval-containment test
is applied to every stored route regardless of address family. -/
theorem claim10_wcmatch_cross_family :
    (do let t ← IPPrefixTree.init.add net6h []; t.wcmatch 0 1023 [])
      = Except.ok [⟨net6h, []⟩]
    ∧ (do let u ← IPRadixTree.init.add net6h []; u.wcmatch 0 1023 [])
      = Except.ok [⟨net6h, []⟩] := ⟨rfl, rfl⟩

set_option maxRecDepth 100000 in
/-- C8 (counterexample): with `0.0.0.0/32` and `::/128` stored — one route
of each address family — `show()` raises `TypeError` on both trees instead
of returning a list sorted by the cross-family order claimed, because
comparing an IPv4 network with an IPv6 network raises. -/
theorem claim8_mixed_family_sort_raises :
    (do
      let t1 ← IPPrefixTree.init.add net4h []
      let t2 ← t1.add net6h []
      t2.show none false []) = Except.error PyErr.typeError
    ∧ (do
      let u1 ← IPRadixTree.init.add net4h []
      let u2 ← u1.add net6h []
      u2.show none false []) = Except.error PyErr.typeError := ⟨rfl, rfl⟩

/-! ## Dict update lemmas -/

theorem Entries.hasKey_nil (k : Key) : Entries.nil.hasKey k = false := rfl

theorem Entries.hasKey_cons (k' : Key) (v : PyObj) (rest : Entries) (k : Key) :
    (Entries.cons k' v rest).hasKey k =
      (if k' = k then true else rest.hasKey k) := by
  by_cases h : k' = k <;> simp [Entries.hasKey, Entries.find?, h]

theorem keys_set_existing : (d : Entries) → (k : Key) → (v : PyObj) →
    d.hasKey k = true → (d.set k v).keys = d.keys
  | .nil, k, v, h => by simp [Entries.hasKey, Entries.find?] at h
  | .cons k' v' rest, k, v, h => by
      by_cases he : k' = k
      · simp [Entries.set, he, Entries.keys]
      · rw [Entries.hasKey_cons, if_neg he] at h
        simp [Entries.set, he, Entries.keys, keys_set_existing rest k v h]

theorem keys_set_new : (d : Entries) → (k : Key) → (v : PyObj) →
    d.hasKey k = false → (d.set k v).keys = d.keys ++ [k]
  | .nil, k, v, _ => by simp [Entries.set, Entries.keys]
  | .cons k' v' rest, k, v, h => by
      rw [Entries.hasKey_cons] at h
      by_cases he : k' = k
      · rw [if_pos he] at h
        exact Bool.noConfusion h
      · rw [if_neg he] at h
        simp [Entries.set, he, Entries.keys, keys_set_new rest k v h]

theorem hasKey_set_ne : (d : Entries) → (k k' : Key) → (v : PyObj) → k' ≠ k →
    (d.set k v).hasKey k' = d.hasKey k'
  | d, k, k', v, h => by
      simp [Entries.hasKey, Entries.find?_set_ne d k k' v h]

theorem mem_keys_find? : (d : Entries) → (k : Key) → k ∈ d.keys →
    ∃ v, d.find? k = some v
  | .nil, k, h => by simp [Entries.keys] at h
  | .cons k' v' rest, k, h => by
      by_cases he : k' = k
      · exact ⟨v', by simp [Entries.find?, he]⟩
      · rcases List.mem_cons.1 (by simpa [Entries.keys] using h) with he2 | he2
        · exact absurd he2.symm he
        · obtain ⟨v, hv⟩ := mem_keys_find? rest k he2
          exact ⟨v, by simp [Entries.find?, he, hv]⟩

theorem keys_erase_mem : (d : Entries) → (k k' : Key) →
    k' ∈ (d.erase k).keys → k' ∈ d.keys
  | .nil, k, k', h => by simpa [Entries.erase] using h
  | .cons k'' v rest, k, k', h => by
      by_cases he : k'' = k
      · simp only [Entries.erase, if_pos he] at h
        simp [Entries.keys, h]
      · simp only [Entries.erase, if_neg he, Entries.keys] at h
        rcases List.mem_cons.1 h with he2 | he2
        · simp [Entries.keys, he2]
        · simp [Entries.keys, keys_erase_mem rest k k' he2]

theorem hasKey_erase_le : (d : Entries) → (k k' : Key) →
    (d.erase k).hasKey k' = true → d.hasKey k' = true := by
  intro d k k' h
  have h1 := (hasKey_mem_keys (d.erase k) k').1 h
  exact (hasKey_mem_keys d k').2 (keys_erase_mem d k k' h1)

/-- `sibOK` only inspects the keys. -/
theorem sibOK_of_keys (k : Key) (d d' : Entries) (h : d'.keys = d.keys)
    (hs : sibOK k d = true) : sibOK k d' = true := by
  simp only [sibOK] at hs ⊢
  rw [h]
  exact hs

theorem sibOK_sub (k : Key) (d d' : Entries)
    (h : ∀ k' ∈ d'.keys, k' ∈ d.keys) (hs : sibOK k d = true) :
    sibOK k d' = true := by
  simp only [sibOK, Bool.or_eq_true, beq_iff_eq] at hs ⊢
  rcases hs with hs | hs
  · exact Or.inl hs
  · right
    rw [List.all_eq_true] at hs ⊢
    exact fun k' hk' => hs k' (h k' hk')

theorem sibOK_append_one (k knew : Key) (d : Entries)
    (h : sibOK k d = true)
    (hnew : knew = starK ∨ k = starK ∨ knew.head? ≠ k.head?) :
    ∀ d' : Entries, d'.keys = d.keys ++ [knew] → sibOK k d' = true := by
  intro d' hk
  by_cases hks : k = starK
  · simp [sibOK, hks]
  · simp only [sibOK, Bool.or_eq_true, beq_iff_eq] at h ⊢
    right
    rw [List.all_eq_true]
    intro k' hk'
    rw [hk, List.mem_append] at hk'
    rcases hk' with hk' | hk'
    · rcases h with h | h
      · exact absurd h hks
      · exact (List.all_eq_true.1 h) k' hk'
    · rw [List.mem_singleton] at hk'
      subst hk'
      simp only [Bool.or_eq_true, beq_iff_eq, decide_eq_true_eq]
      rcases hnew with h2 | h2 | h2
      · exact Or.inl h2
      · exact absurd h2 hks
      · exact Or.inr h2

/-! ## Well-formedness preservation under dict updates -/

theorem wfRT_set_existing : (d : Entries) → (k : Key) → (v v0 : PyObj) →
    wfRT d = true → d.find? k = some v0 → wfRTEntry k v = true →
    wfRT (d.set k v) = true
  | .nil, k, v, v0, _, hf, _ => by simp [Entries.find?] at hf
  | .cons k' v' rest, k, v, v0, hwf, hf, hv => by
      simp only [wfRT, Bool.and_eq_true] at hwf
      by_cases he : k' = k
      · subst he
        simp only [Entries.set, if_pos rfl, wfRT, Bool.and_eq_true]
        exact ⟨⟨⟨hv, hwf.1.1.2⟩, hwf.1.2⟩, hwf.2⟩
      · simp only [Entries.find?, if_neg he] at hf
        have hk : rest.hasKey k = true := hasKey_some rest k v0 hf
        simp only [Entries.set, if_neg he, wfRT, Bool.and_eq_true]
        refine ⟨⟨⟨hwf.1.1.1, ?_⟩, ?_⟩, wfRT_set_existing rest k v v0 hwf.2 hf hv⟩
        · have hne : k' ≠ k := he
          rw [hasKey_set_ne rest k k' v hne]
          exact hwf.1.1.2
        · exact sibOK_of_keys k' rest _ (keys_set_existing rest k v hk) hwf.1.2

theorem wfRT_set_new : (d : Entries) → (k : Key) → (v : PyObj) →
    wfRT d = true → d.hasKey k = false → wfRTEntry k v = true →
    sibOK k d = true → wfRT (d.set k v) = true
  | .nil, k, v, _, _, hv, _ => by
      simp [Entries.set, wfRT, hv, Entries.hasKey, Entries.find?, sibOK,
        Entries.keys]
  | .cons k' v' rest, k, v, hwf, hk, hv, hsib => by
      simp only [wfRT, Bool.and_eq_true] at hwf
      rw [Entries.hasKey_cons] at hk
      by_cases he : k' = k
      · rw [if_pos he] at hk
        exact Bool.noConfusion hk
      · rw [if_neg he] at hk
        have hsibrest : sibOK k rest = true := by
          refine sibOK_sub k _ rest (fun k'' hk'' => ?_) hsib
          simp [Entries.keys, hk'']
        have hk'head : k = starK ∨ k' = starK ∨ k.head? ≠ k'.head? := by
          by_cases hks : k = starK
          · exact Or.inl hks
          · simp only [sibOK, Bool.or_eq_true, beq_iff_eq] at hsib
            rcases hsib with h | h
            · exact absurd h hks
            · have h2 := List.all_eq_true.1 h k' (by simp [Entries.keys])
              simp only [Bool.or_eq_true, beq_iff_eq, decide_eq_true_eq] at h2
              rcases h2 with h2 | h2
              · exact Or.inr (Or.inl h2)
              · exact Or.inr (Or.inr (Ne.symm h2))
        simp only [Entries.set, if_neg he, wfRT, Bool.and_eq_true]
        refine ⟨⟨⟨hwf.1.1.1, ?_⟩, ?_⟩, wfRT_set_new rest k v hwf.2 hk hv hsibrest⟩
        · rw [hasKey_set_ne rest k k' v he]
          exact hwf.1.1.2
        · exact sibOK_append_one k' k rest hwf.1.2 hk'head _
            (keys_set_new rest k v hk)

theorem wfRT_erase : (d : Entries) → (k : Key) → wfRT d = true →
    wfRT (d.erase k) = true
  | .nil, k, _ => rfl
  | .cons k' v' rest, k, hwf => by
      simp only [wfRT, Bool.and_eq_true] at hwf
      by_cases he : k' = k
      · simp only [Entries.erase, if_pos he]
        exact hwf.2
      · simp only [Entries.erase, if_neg he, wfRT, Bool.and_eq_true]
        refine ⟨⟨⟨hwf.1.1.1, ?_⟩, ?_⟩, wfRT_erase rest k hwf.2⟩
        · by_contra hcon
          rw [Bool.not_eq_true] at hcon
          have : rest.hasKey k' = true := by
            rcases hb : (rest.erase k).hasKey k' with _ | _
            · rw [hb] at hcon
              exact Bool.noConfusion hcon
            · exact hasKey_erase_le rest k k' hb
          rw [this] at hwf
          simpa using hwf.1.1.2
        · exact sibOK_sub k' rest _ (keys_erase_mem rest k) hwf.1.2

theorem wfPT_set_existing : (d : Entries) → (k : Key) → (v v0 : PyObj) →
    wfPT d = true → d.find? k = some v0 → wfPTEntry k v = true →
    wfPT (d.set k v) = true
  | .nil, k, v, v0, _, hf, _ => by simp [Entries.find?] at hf
  | .cons k' v' rest, k, v, v0, hwf, hf, hv => by
      simp only [wfPT, Bool.and_eq_true] at hwf
      by_cases he : k' = k
      · subst he
        simp only [Entries.set, if_pos rfl, wfPT, Bool.and_eq_true]
        exact ⟨⟨hv, hwf.1.2⟩, hwf.2⟩
      · simp only [Entries.find?, if_neg he] at hf
        simp only [Entries.set, if_neg he, wfPT, Bool.and_eq_true]
        refine ⟨⟨hwf.1.1, ?_⟩, wfPT_set_existing rest k v v0 hwf.2 hf hv⟩
        rw [hasKey_set_ne rest k k' v he]
        exact hwf.1.2

theorem wfPT_set_new : (d : Entries) → (k : Key) → (v : PyObj) →
    wfPT d = true → d.hasKey k = false → wfPTEntry k v = true →
    wfPT (d.set k v) = true
  | .nil, k, v, _, _, hv => by
      simp [Entries.set, wfPT, hv, Entries.hasKey, Entries.find?]
  | .cons k' v' rest, k, v, hwf, hk, hv => by
      simp only [wfPT, Bool.and_eq_true] at hwf
      rw [Entries.hasKey_cons] at hk
      by_cases he : k' = k
      · rw [if_pos he] at hk
        exact Bool.noConfusion hk
      · rw [if_neg he] at hk
        simp only [Entries.set, if_neg he, wfPT, Bool.and_eq_true]
        refine ⟨⟨hwf.1.1, ?_⟩, wfPT_set_new rest k v hwf.2 hk hv⟩
        rw [hasKey_set_ne rest k k' v he]
        exact hwf.1.2

/-! ## More bit-string lemmas -/

theorem bic_isPre_left : ∀ (a b : List Ch), isPre (bits_in_common a b) a = true
  | [], _ => rfl
  | _ :: _, [] => rfl
  | x :: xs, y :: ys => by
      by_cases h : x = y
      · simp [bits_in_common, h, isPre, bic_isPre_left xs ys]
      · simp [bits_in_common, h, isPre]

theorem bic_isPre_right : ∀ (a b : List Ch), isPre (bits_in_common a b) b = true
  | [], _ => rfl
  | _ :: _, [] => rfl
  | x :: xs, y :: ys => by
      by_cases h : x = y
      · subst h
        simp [bits_in_common, isPre, bic_isPre_right xs ys]
      · simp [bits_in_common, h, isPre]

theorem bic_stop : ∀ (a b : List Ch),
    (a.drop (bits_in_common a b).length = [] ∧
     b.drop (bits_in_common a b).length = []) ∨
    (a.drop (bits_in_common a b).length).head? ≠
      (b.drop (bits_in_common a b).length).head?
  | [], [] => Or.inl ⟨rfl, rfl⟩
  | [], _ :: _ => Or.inr (by simp [bits_in_common])
  | _ :: _, [] => Or.inr (by simp [bits_in_common])
  | x :: xs, y :: ys => by
      by_cases h : x = y
      · subst h
        simpa [bits_in_common] using bic_stop xs ys
      · exact Or.inr (by simp [bits_in_common, h])

theorem isPre_all : ∀ (c k : List Ch) (p : Ch → Bool), isPre c k = true →
    k.all p = true → c.all p = true
  | [], _, _, _, _ => rfl
  | _ :: _, [], p, h, _ => by simp [isPre] at h
  | x :: xs, y :: ys, p, h, hall => by
      simp only [isPre, Bool.and_eq_true, decide_eq_true_eq] at h
      obtain ⟨h1, h2⟩ := h
      subst h1
      simp only [List.all_cons, Bool.and_eq_true] at hall ⊢
      exact ⟨hall.1, isPre_all xs ys p h2 hall.2⟩

theorem head?_append_ne_nil (k s : List Ch) (h : k ≠ []) :
    (k ++ s).head? = k.head? := by
  cases k with
  | nil => exact absurd rfl h
  | cons c cs => simp

theorem isPre_trans_append (k s bits : List Ch) (h1 : isPre k bits = true)
    (h2 : isPre s (bits.drop k.length) = true) : isPre (k ++ s) bits = true := by
  rw [isPre_append_drop k s bits h1]
  exact h2

theorem isPre_eq_take : ∀ (k bits : List Ch), isPre k bits = true →
    k = bits.take k.length
  | [], _, _ => rfl
  | _ :: _, [], h => by simp [isPre] at h
  | c :: cs, b :: bs, h => by
      simp only [isPre, Bool.and_eq_true, decide_eq_true_eq] at h
      obtain ⟨h1, h2⟩ := h
      subst h1
      simpa using isPre_eq_take cs bs h2

theorem append_eq_drop (k s bits : List Ch) (h : isPre k bits = true) :
    (k ++ s = bits) ↔ s = bits.drop k.length := by
  constructor
  · intro he
    subst he
    simp
  · intro he
    subst he
    have hts := List.take_append_drop k.length bits
    rw [← isPre_eq_take k bits h] at hts
    exact hts

theorem wfRT_star_routes (d : Entries) (hwf : wfRT d = true) (v : PyObj)
    (h : d.find? starK = some v) : ∃ rs, v = .routes rs := by
  cases v with
  | routes rs => exact ⟨rs, rfl⟩
  | dict cs =>
      have := wfRT_find? d hwf starK _ h
      simp [wfRTEntry, edgeKey, starK] at this

theorem bic_nil_heads (a b : List Ch) (h : bits_in_common a b = [])
    (ha : a ≠ []) (hb : b ≠ []) : a.head? ≠ b.head? := by
  cases a with
  | nil => exact absurd rfl ha
  | cons x xs =>
      cases b with
      | nil => exact absurd rfl hb
      | cons y ys =>
          by_cases hxy : x = y
          · subst hxy
            simp [bits_in_common] at h
          · simpa using hxy

theorem bic_ne_nil_heads (a b : List Ch) (h : bits_in_common a b ≠ []) :
    a.head? = b.head? := by
  cases a with
  | nil => exact absurd rfl h
  | cons x xs =>
      cases b with
      | nil => exact absurd rfl h
      | cons y ys =>
          by_cases hxy : x = y
          · simp [hxy]
          · simp [bits_in_common, hxy] at h

theorem isPre_append_self : ∀ (k s : List Ch), isPre k (k ++ s) = true
  | [], _ => rfl
  | x :: xs, s => by simp [isPre, isPre_append_self xs s]

theorem starfree_all_bits (l : List Ch) (h : Ch.star ∉ l) :
    l.all (fun c => c == Ch.zero || c == Ch.one) = true := by
  rw [List.all_eq_true]
  intro c hc
  cases c with
  | zero => simp
  | one => simp
  | star => exact absurd hc h

theorem edgeKey_of (l : List Ch) (hne : l ≠ []) (h : Ch.star ∉ l) :
    edgeKey l = true := by
  simp only [edgeKey, Bool.and_eq_true, Bool.not_eq_true']
  exact ⟨by simpa [List.isEmpty_iff] using hne, starfree_all_bits l h⟩

theorem ne_starK_of_starfree (l : List Ch) (h : Ch.star ∉ l) : l ≠ starK := by
  intro he
  subst he
  exact h (by simp [starK])

theorem edgeKey_drop (k : Key) (n : Nat) (hek : edgeKey k = true)
    (hne : k.drop n ≠ []) : edgeKey (k.drop n) = true := by
  simp only [edgeKey, Bool.and_eq_true, Bool.not_eq_true'] at hek ⊢
  refine ⟨by simpa [List.isEmpty_iff] using hne, ?_⟩
  rw [List.all_eq_true] at hek ⊢
  exact fun c hc => hek.2 c (List.drop_subset n k hc)

theorem find?_erase_ne : (d : Entries) → (k k' : Key) → k' ≠ k →
    (d.erase k).find? k' = d.find? k'
  | .nil, _, _, _ => rfl
  | .cons k'' v rest, k, k', h => by
      by_cases he : k'' = k
      · subst he
        have : k'' ≠ k' := fun h2 => h (h2.symm)
        simp [Entries.erase, Entries.find?, this]
      · by_cases he2 : k'' = k'
        · subst he2
          simp [Entries.erase, he, Entries.find?, Ne.symm h]
        · simp [Entries.erase, he, Entries.find?, he2,
            find?_erase_ne rest k k' h]

theorem not_mem_keys_erase_self : (d : Entries) → wfRT d = true → (k : Key) →
    k ∉ (d.erase k).keys
  | .nil, _, k => by simp [Entries.erase, Entries.keys]
  | .cons k' v rest, hwf, k => by
      simp only [wfRT, Bool.and_eq_true] at hwf
      by_cases he : k' = k
      · subst he
        simp only [Entries.erase, if_pos rfl]
        intro hmem
        have := (hasKey_mem_keys rest k').2 hmem
        rw [this] at hwf
        simpa using hwf.1.1.2
      · simp only [Entries.erase, if_neg he, Entries.keys]
        intro hmem
        rcases List.mem_cons.1 hmem with h2 | h2
        · exact he h2.symm
        · exact not_mem_keys_erase_self rest hwf.2 k h2

/-- A key equal to the node's own path can only be the bucket marker's. -/
theorem bucketAt_self (pre : List Ch) (d : Entries) (hwf : wfRT d = true) :
    bucketAt (entriesOf pre d) pre = starBucket d := by
  cases hst : d.find? starK with
  | none =>
      have hnone : (entriesOf pre d).find? (fun e => e.1 == pre) = none := by
        rw [List.find?_eq_none]
        intro e he hp
        have he1 : e.1 = pre := by simpa using hp
        have hmem : (pre, e.2) ∈ entriesOf pre d := by
          have : e = (pre, e.2) := by
            cases e
            simp_all
          exact this ▸ he
        have := entriesOf_self_star pre d hwf e.2 hmem
        rw [hst] at this
        exact Option.noConfusion this
      simp [bucketAt, hnone, starBucket, hst]
  | some v =>
      obtain ⟨rs, hv⟩ := wfRT_star_routes d hwf v hst
      subst hv
      have hmem := star_mem_entriesOf pre d rs hst
      have hsome : ((entriesOf pre d).find? (fun e => e.1 == pre)).isSome := by
        rw [List.find?_isSome]
        exact ⟨(pre, rs), hmem, by simp⟩
      obtain ⟨e, hfe⟩ := Option.isSome_iff_exists.1 hsome
      have he1 : e.1 = pre := by simpa using List.find?_some hfe
      have hem := List.mem_of_find?_eq_some hfe
      have hmem2 : (pre, e.2) ∈ entriesOf pre d := by
        have : e = (pre, e.2) := by
          cases e
          simp_all
        exact this ▸ hem
      have h2 := entriesOf_self_star pre d hwf e.2 hmem2
      rw [hst] at h2
      have h3 : e.2 = rs := by
        injection h2 with h4
        injection h4 with h5
        exact h5.symm
      simp [bucketAt, hfe, h3, starBucket, hst]

/-- If no edge of the node leads toward `bits`, no stored path equals
`bits`. -/
theorem bucketAt_none (d : Entries) (hwf : wfRT d = true) (bits : List Ch)
    (hne : bits ≠ [])
    (h : ∀ k v, d.find? k = some v → k ≠ starK → isPre k bits = false) :
    bucketAt (entriesOf [] d) bits = none := by
  have hnone : (entriesOf [] d).find? (fun e => e.1 == bits) = none := by
    rw [List.find?_eq_none]
    intro e he hp
    have he1 : e.1 = bits := by simpa using hp
    rcases entriesOf_decomp [] d hwf e he with ⟨h1, _⟩ | ⟨k, cs, h1, h2, h3⟩
    · exact hne (he1 ▸ h1 ▸ rfl)
    · obtain ⟨s, hs⟩ := entriesOf_keys ([] ++ k) cs e h3
      rw [List.nil_append] at hs
      have : isPre k bits = true := by
        rw [← he1, hs]
        exact isPre_append_self k s
      rw [h k _ h1 h2] at this
      exact Bool.noConfusion this
  simp [bucketAt, hnone]

/-- Descending through a fully matched edge preserves the exact-match
bucket lookup. -/
theorem bucketAt_child : (d : Entries) → wfRT d = true → (k : Key) →
    (cs : Entries) → d.find? k = some (.dict cs) → k ≠ starK →
    (bits : List Ch) → bits ≠ [] → isPre k bits = true →
    bucketAt (entriesOf [] d) bits =
      bucketAt (entriesOf [] cs) (bits.drop k.length)
  | .nil, _, k, cs, hf, _, _, _, _ => by simp [Entries.find?] at hf
  | .cons k' v rest, hwf, k, cs, hf, hks, bits, hbne, hpre => by
      have hwf' := hwf
      simp only [wfRT, Bool.and_eq_true] at hwf
      have hkedge : edgeKey k = true := by
        have h0 := wfRT_find? _ hwf' k _ hf
        exact (by simpa [wfRTEntry] using h0 :
          edgeKey k = true ∧ wfRT cs = true).1
      have hkne : k ≠ [] := edgeKey_ne_nil k hkedge
      have hbits_head : bits.head? = k.head? := isPre_head k bits hpre hkne
      by_cases he : k' = k
      · subst he
        have hv : v = .dict cs := by simpa [Entries.find?] using hf
        subst hv
        have hshift : entriesOf k' cs =
            (entriesOf [] cs).map (fun e => (k' ++ e.1, e.2)) := by
          have h2 := entriesOf_shift k' [] cs
          rwa [List.append_nil] at h2
        have hmain : entriesOf [] (Entries.cons k' (PyObj.dict cs) rest) =
            (entriesOf [] cs).map (fun e => (k' ++ e.1, e.2)) ++
              entriesOf [] rest := by
          simp only [entriesOf, entryOf, if_neg hks, List.nil_append]
          rw [hshift]
        have hY : (entriesOf [] rest).find? (fun e => e.1 == bits) = none := by
          rw [List.find?_eq_none]
          intro e he2 hp
          have he1 : e.1 = bits := by simpa using hp
          rcases entriesOf_decomp [] rest hwf.2 e he2 with
            ⟨h1, _⟩ | ⟨k0, cs0, h1, h2, h3⟩
          · exact hbne (he1 ▸ h1 ▸ rfl)
          · obtain ⟨s, hs⟩ := entriesOf_keys ([] ++ k0) cs0 e h3
            rw [List.nil_append] at hs
            have hk0edge : edgeKey k0 = true := by
              have h4 := wfRT_find? rest hwf.2 k0 _ h1
              cases hv0 : (PyObj.dict cs0) with
              | _ => exact (by simpa [wfRTEntry] using h4 :
                  edgeKey k0 = true ∧ wfRT cs0 = true).1
            have hk0ne : k0 ≠ [] := edgeKey_ne_nil k0 hk0edge
            have hhead : e.1.head? = k0.head? := hs ▸ head?_append_ne_nil k0 s hk0ne
            have := sibOK_keys k' rest hwf.1.2 hks k0
              (find?_mem_keys rest k0 _ h1) h2
            rw [← hhead, he1, hbits_head] at this
            exact this rfl
        have hfind : List.find? (fun e => e.1 == bits)
            ((entriesOf [] cs).map (fun e => (k' ++ e.1, e.2))) =
            Option.map (fun e => (k' ++ e.1, e.2))
              (List.find? (fun e => e.1 == bits.drop k'.length)
                (entriesOf [] cs)) := by
          have hpeq : ((fun e => e.1 == bits) ∘
              fun (e : List Ch × List Route) => (k' ++ e.1, e.2)) =
              (fun e => e.1 == bits.drop k'.length) := by
            funext e
            show ((k' ++ e.1 == bits) : Bool) = (e.1 == bits.drop k'.length)
            rw [Bool.eq_iff_iff]
            simp only [beq_iff_eq]
            exact append_eq_drop k' e.1 bits hpre
          rw [List.find?_map, hpeq]
        unfold bucketAt
        rw [hmain, List.find?_append, hY, hfind]
        cases hX : List.find? (fun e => e.1 == bits.drop k'.length)
            (entriesOf [] cs) with
        | none => simp
        | some e => simp
      · have hfr : rest.find? k = some (.dict cs) := by
          simpa [Entries.find?, if_neg he] using hf
        have hmain : entriesOf [] (Entries.cons k' v rest) =
            entryOf [] k' v ++ entriesOf [] rest := by
          simp [entriesOf]
        have hblock : (entryOf [] k' v).find? (fun e => e.1 == bits) = none := by
          rw [List.find?_eq_none]
          intro e he2 hp
          have he1 : e.1 = bits := by simpa using hp
          cases v with
          | routes rs =>
              have hk's : k' = starK := by
                simpa [wfRTEntry] using hwf.1.1.1
              subst hk's
              simp [entryOf] at he2
              rw [he2] at he1
              exact hbne he1.symm
          | dict cs' =>
              have hk'e : edgeKey k' = true ∧ wfRT cs' = true := by
                simpa [wfRTEntry] using hwf.1.1.1
              have hk's : k' ≠ starK := edgeKey_ne_star k' hk'e.1
              have hk'ne : k' ≠ [] := edgeKey_ne_nil k' hk'e.1
              rw [entryOf, if_neg hk's] at he2
              obtain ⟨s, hs⟩ := entriesOf_keys ([] ++ k') cs' e he2
              rw [List.nil_append] at hs
              have hhead : e.1.head? = k'.head? :=
                hs ▸ head?_append_ne_nil k' s hk'ne
              have hfk' : (Entries.cons k' (PyObj.dict cs') rest).find? k' =
                  some (.dict cs') := by
                simp [Entries.find?]
              have hfk : (Entries.cons k' (PyObj.dict cs') rest).find? k =
                  some (.dict cs) := by
                simpa [Entries.find?, if_neg he] using hfr
              have hne2 := wfRT_heads _ hwf' k' k _ _ hfk' hfk he hk's hks
              rw [← hhead, he1, hbits_head] at hne2
              exact hne2 rfl
        have hrec := bucketAt_child rest hwf.2 k cs hfr hks bits hbne hpre
        unfold bucketAt at hrec ⊢
        rw [hmain, List.find?_append, hblock, Option.none_or]
        exact hrec

theorem sibOK_of_heads (k : Key) (d : Entries)
    (h : ∀ k' ∈ d.keys, k' = starK ∨ k'.head? ≠ k.head?) : sibOK k d = true := by
  simp only [sibOK, Bool.or_eq_true, beq_iff_eq]
  right
  rw [List.all_eq_true]
  intro k' hk'
  simp only [Bool.or_eq_true, beq_iff_eq, decide_eq_true_eq]
  exact h k' hk'

theorem wfRT_leaf (rs : List Route) :
    wfRT (.cons starK (.routes rs) .nil) = true := by
  simp [wfRT, wfRTEntry, sibOK, Entries.hasKey, Entries.find?]

theorem starBucket_leaf (rs : List Route) :
    starBucket (.cons starK (.routes rs) .nil) = some rs := by
  simp [starBucket, Entries.find?]

theorem isPre_length_eq : ∀ (a b : List Ch), isPre a b = true →
    b.length ≤ a.length → a = b
  | a, b, h, hlen => by
      have h1 := isPre_eq_take a b h
      have h2 : b.length ≤ a.length := hlen
      rw [h1]
      exact List.take_of_length_le (by
        have := isPre_le_length a b h
        omega)

/-- Terminal step of radix `add` with an exhausted input: the node's own
bucket receives the route (pure membership/append semantics). -/
theorem rtAddFinish_spec_nil (route : Route) (d : Entries)
    (hwf : wfRT d = true) :
    ∃ d' added, rtAddFinish route d [] = .ok (d', added) ∧ wfRT d' = true ∧
      (route ∈ oldB d [] → d' = d ∧ added = false) ∧
      (route ∉ oldB d [] → added = true ∧
        bucketAt (entriesOf [] d') [] = some (oldB d [] ++ [route])) := by
  have hsb : bucketAt (entriesOf [] d) [] = starBucket d := bucketAt_self [] d hwf
  cases hst : d.find? starK with
  | none =>
      have hold : oldB d [] = [] := by
        simp [oldB, hsb, starBucket, hst]
      have hnew : d.hasKey starK = false := by
        simp [Entries.hasKey, hst]
      have hwf' : wfRT (d.set starK (.routes [route])) = true := by
        refine wfRT_set_new d starK _ hwf hnew (by simp [wfRTEntry]) ?_
        simp [sibOK]
      refine ⟨d.set starK (.routes [route]), true,
        by simp [rtAddFinish, hst], hwf', ?_, ?_⟩
      · intro hmem
        rw [hold] at hmem
        exact absurd hmem (List.not_mem_nil route)
      · intro _
        refine ⟨rfl, ?_⟩
        rw [bucketAt_self [] _ hwf', hold]
        simp [starBucket, Entries.find?_set_self]
  | some v =>
      obtain ⟨rs, hv⟩ := wfRT_star_routes d hwf v hst
      subst hv
      have hold : oldB d [] = rs := by
        simp [oldB, hsb, starBucket, hst]
      by_cases hmem : route ∈ rs
      · refine ⟨d, false, by simp [rtAddFinish, hst, hmem], hwf,
          fun _ => ⟨rfl, rfl⟩, fun hn => absurd (hold ▸ hmem) hn⟩
      · have hwf' : wfRT (d.set starK (.routes (rs ++ [route]))) = true :=
          wfRT_set_existing d starK _ _ hwf hst (by simp [wfRTEntry])
        refine ⟨d.set starK (.routes (rs ++ [route])), true,
          by simp [rtAddFinish, hst, hmem], hwf', ?_, ?_⟩
        · intro hmem2
          rw [hold] at hmem2
          exact absurd hmem2 hmem
        · intro _
          refine ⟨rfl, ?_⟩
          rw [bucketAt_self [] _ hwf', hold]
          simp [starBucket, Entries.find?_set_self]

/-- Terminal step of radix `add` with a non-empty remainder that shares no
bits with any edge: a fresh edge holding a one-route bucket is appended. -/
theorem rtAddFinish_spec_ne (route : Route) (d : Entries) (bits : List Ch)
    (hwf : wfRT d = true) (hbne : bits ≠ []) (hstar : Ch.star ∉ bits)
    (hno : ∀ k v, d.find? k = some v → k ≠ starK →
      bits_in_common k bits = []) :
    ∃ d' added, rtAddFinish route d bits = .ok (d', added) ∧ wfRT d' = true ∧
      (route ∈ oldB d bits → d' = d ∧ added = false) ∧
      (route ∉ oldB d bits → added = true ∧
        bucketAt (entriesOf [] d') bits = some (oldB d bits ++ [route])) := by
  have hbstar : bits ≠ starK := ne_starK_of_starfree bits hstar
  have hold : oldB d bits = [] := by
    have hnone : bucketAt (entriesOf [] d) bits = none := by
      refine bucketAt_none d hwf bits hbne ?_
      intro k v hf hks
      by_contra hp
      rw [Bool.not_eq_false] at hp
      have hkedge : edgeKey k = true := by
        have h0 := wfRT_find? d hwf k v hf
        cases v with
        | routes rs => exact absurd (by simpa [wfRTEntry] using h0) hks
        | dict cs => exact (by simpa [wfRTEntry] using h0 :
            edgeKey k = true ∧ wfRT cs = true).1
      have hc := (bic_eq_iff k bits).2 hp
      rw [hno k v hf hks] at hc
      exact edgeKey_ne_nil k hkedge hc.symm
    simp [oldB, hnone]
  have hnew : d.hasKey bits = false := by
    cases hb : d.find? bits with
    | none => simp [Entries.hasKey, hb]
    | some w =>
        have hc := hno bits w hb hbstar
        rw [(bic_eq_iff bits bits).2 (isPre_refl bits)] at hc
        exact absurd hc hbne
  have hwfleaf := wfRT_leaf [route]
  have hsib : sibOK bits d = true := by
    refine sibOK_of_heads bits d ?_
    intro k' hk'
    by_cases hk's : k' = starK
    · exact Or.inl hk's
    · right
      obtain ⟨v', hv'⟩ := mem_keys_find? d k' hk'
      have hkedge : edgeKey k' = true := by
        have h0 := wfRT_find? d hwf k' v' hv'
        cases v' with
        | routes rs => exact absurd (by simpa [wfRTEntry] using h0) hk's
        | dict cs => exact (by simpa [wfRTEntry] using h0 :
            edgeKey k' = true ∧ wfRT cs = true).1
      exact bic_nil_heads k' bits (hno k' v' hv' hk's)
        (edgeKey_ne_nil k' hkedge) hbne
  have hwf' : wfRT (d.set bits
      (.dict (.cons starK (.routes [route]) .nil))) = true := by
    refine wfRT_set_new d bits _ hwf hnew ?_ hsib
    simp only [wfRTEntry, Bool.and_eq_true]
    exact ⟨edgeKey_of bits hbne hstar, hwfleaf⟩
  refine ⟨_, true, ?_, hwf', ?_, ?_⟩
  · simp [rtAddFinish, hbne]
  · intro hmem
    rw [hold] at hmem
    exact absurd hmem (List.not_mem_nil route)
  · intro _
    refine ⟨rfl, ?_⟩
    rw [hold]
    have hchild := bucketAt_child _ hwf' bits _
      (Entries.find?_set_self d bits _) hbstar bits hbne (isPre_refl bits)
    rw [hchild, List.drop_length, bucketAt_self [] _ hwfleaf,
      starBucket_leaf]
    simp

/-- The edge-splitting step of radix `add`: a partially matched edge
`k → cs` is replaced by `common → (k-remainder → cs, remainder-of-input…)`,
the route landing in a fresh bucket at exactly the queried path; the query
path had no bucket before the split. -/
theorem rtAddSplit_spec (route : Route) (d : Entries) (k : Key) (cs : Entries)
    (bits : List Ch)
    (hwf : wfRT d = true)
    (hfk : d.find? k = some (.dict cs))
    (hks : k ≠ starK)
    (hstar : Ch.star ∉ bits)
    (hbne : bits ≠ [])
    (hc1 : bits_in_common k bits ≠ [])
    (hc2 : bits_in_common k bits ≠ k) :
    ∃ mid' added,
      rtAddFinish route
        (.cons (k.drop (bits_in_common k bits).length) (.dict cs) .nil)
        (bits.drop (bits_in_common k bits).length) = .ok (mid', added) ∧
      added = true ∧
      wfRT ((d.erase k).set (bits_in_common k bits) (.dict mid')) = true ∧
      oldB d bits = [] ∧
      bucketAt
        (entriesOf [] ((d.erase k).set (bits_in_common k bits) (.dict mid')))
        bits = some [route] := by
  have hek : edgeKey k = true ∧ wfRT cs = true := by
    have h0 := wfRT_find? d hwf k _ hfk
    simpa [wfRTEntry] using h0
  have hkne : k ≠ [] := edgeKey_ne_nil k hek.1
  have hpc_k : isPre (bits_in_common k bits) k = true := bic_isPre_left k bits
  have hpc_b : isPre (bits_in_common k bits) bits = true := bic_isPre_right k bits
  have hcedge : edgeKey (bits_in_common k bits) = true := by
    simp only [edgeKey, Bool.and_eq_true, Bool.not_eq_true'] at hek ⊢
    refine ⟨by simpa [List.isEmpty_iff] using hc1, ?_⟩
    exact isPre_all _ k _ hpc_k hek.1.2
  have hcs : bits_in_common k bits ≠ starK := edgeKey_ne_star _ hcedge
  have hkd_ne : k.drop (bits_in_common k bits).length ≠ [] := by
    intro h0
    have hlen : k.length ≤ (bits_in_common k bits).length :=
      List.drop_eq_nil_iff.1 h0
    exact hc2 (isPre_length_eq _ k hpc_k hlen)
  have hek_kd : edgeKey (k.drop (bits_in_common k bits).length) = true :=
    edgeKey_drop k _ hek.1 hkd_ne
  have hkd_star : k.drop (bits_in_common k bits).length ≠ starK :=
    edgeKey_ne_star _ hek_kd
  have hwfmid : wfRT (.cons (k.drop (bits_in_common k bits).length)
      (.dict cs) .nil) = true := by
    simp [wfRT, wfRTEntry, hek_kd, hek.2, sibOK, Entries.hasKey,
      Entries.find?, Entries.keys]
  have hshead : (k.drop (bits_in_common k bits).length).head? ≠
      (bits.drop (bits_in_common k bits).length).head? := by
    rcases bic_stop k bits with ⟨h1, _⟩ | h1
    · exact absurd h1 hkd_ne
    · exact h1
  have hkhead : k.head? = (bits_in_common k bits).head? :=
    isPre_head _ k hpc_k hc1
  have hwferase : wfRT (d.erase k) = true := wfRT_erase d k hwf
  have hcom_no : (d.erase k).hasKey (bits_in_common k bits) = false := by
    cases hb : (d.erase k).find? (bits_in_common k bits) with
    | none => simp [Entries.hasKey, hb]
    | some w =>
        rw [find?_erase_ne d k _ hc2] at hb
        have hne : k ≠ bits_in_common k bits := fun h0 => hc2 h0.symm
        have := wfRT_heads d hwf k _ _ w hfk hb hne hks hcs
        exact absurd hkhead this
  have hsib_com : sibOK (bits_in_common k bits) (d.erase k) = true := by
    refine sibOK_of_heads _ _ ?_
    intro k' hk'
    by_cases hk's : k' = starK
    · exact Or.inl hk's
    · right
      have hk'k : k' ≠ k := by
        intro h0
        exact not_mem_keys_erase_self d hwf k (h0 ▸ hk')
      obtain ⟨v', hv'⟩ := mem_keys_find? d k' (keys_erase_mem d k k' hk')
      have := wfRT_heads d hwf k' k v' _ hv' hfk hk'k hk's hks
      rw [hkhead] at this
      exact this
  have hold : oldB d bits = [] := by
    have hnone : bucketAt (entriesOf [] d) bits = none := by
      refine bucketAt_none d hwf bits hbne ?_
      intro k0 v0 hf0 hk0s
      by_contra hp
      rw [Bool.not_eq_false] at hp
      by_cases hk0k : k0 = k
      · subst hk0k
        exact hc2 ((bic_eq_iff k0 bits).2 hp)
      · have hk0edge : edgeKey k0 = true := by
          have h0 := wfRT_find? d hwf k0 v0 hf0
          cases v0 with
          | routes rs => exact absurd (by simpa [wfRTEntry] using h0) hk0s
          | dict cs0 => exact (by simpa [wfRTEntry] using h0 :
              edgeKey k0 = true ∧ wfRT cs0 = true).1
        have h1 : bits.head? = k0.head? :=
          isPre_head k0 bits hp (edgeKey_ne_nil k0 hk0edge)
        have h2 : k.head? = bits.head? := bic_ne_nil_heads k bits hc1
        have := wfRT_heads d hwf k0 k v0 _ hf0 hfk hk0k hk0s hks
        rw [← h1, ← h2] at this
        exact this rfl
    simp [oldB, hnone]
  by_cases hbne' : bits.drop (bits_in_common k bits).length = []
  · -- input exhausted at the fresh intermediate node
    have hmidfind : (Entries.cons (k.drop (bits_in_common k bits).length)
        (PyObj.dict cs) Entries.nil).find? starK = none := by
      simp [Entries.find?, hkd_star]
    have hwfmid' : wfRT ((Entries.cons
        (k.drop (bits_in_common k bits).length) (PyObj.dict cs)
        Entries.nil).set starK (.routes [route])) = true := by
      refine wfRT_set_new _ starK _ hwfmid (by simp [Entries.hasKey, hmidfind])
        (by simp [wfRTEntry]) (by simp [sibOK])
    refine ⟨(Entries.cons (k.drop (bits_in_common k bits).length)
        (PyObj.dict cs) Entries.nil).set starK (.routes [route]),
        true, ?_, rfl, ?_, hold, ?_⟩
    · rw [hbne']
      simp [rtAddFinish, hmidfind]
    · refine wfRT_set_new _ _ _ hwferase hcom_no ?_ hsib_com
      simp only [wfRTEntry, Bool.and_eq_true]
      exact ⟨hcedge, hwfmid'⟩
    · have hwfd' : wfRT ((d.erase k).set (bits_in_common k bits)
          (.dict ((Entries.cons (k.drop (bits_in_common k bits).length)
            (PyObj.dict cs) Entries.nil).set starK (.routes [route])))) =
          true := by
        refine wfRT_set_new _ _ _ hwferase hcom_no ?_ hsib_com
        simp only [wfRTEntry, Bool.and_eq_true]
        exact ⟨hcedge, hwfmid'⟩
      rw [bucketAt_child _ hwfd' (bits_in_common k bits) _
        (Entries.find?_set_self _ _ _) hcs bits hbne hpc_b, hbne',
        bucketAt_self [] _ hwfmid']
      simp [starBucket, Entries.find?_set_self]
  · -- non-empty remainder attached under the fresh intermediate node
    have hstar' : Ch.star ∉ bits.drop (bits_in_common k bits).length :=
      fun h0 => hstar (List.drop_subset _ _ h0)
    have hbstar' : bits.drop (bits_in_common k bits).length ≠ starK :=
      ne_starK_of_starfree _ hstar'
    have hkdne' : k.drop (bits_in_common k bits).length ≠
        bits.drop (bits_in_common k bits).length := by
      intro h0
      exact hshead (h0 ▸ rfl)
    have hmidhas : (Entries.cons (k.drop (bits_in_common k bits).length)
        (PyObj.dict cs) Entries.nil).hasKey
        (bits.drop (bits_in_common k bits).length) = false := by
      simp [Entries.hasKey, Entries.find?, hkdne']
    have hmidsib : sibOK (bits.drop (bits_in_common k bits).length)
        (Entries.cons (k.drop (bits_in_common k bits).length)
          (PyObj.dict cs) Entries.nil) = true := by
      refine sibOK_of_heads _ _ ?_
      intro k' hk'
      have hk'eq : k' = k.drop (bits_in_common k bits).length := by
        simpa [Entries.keys] using hk'
      subst hk'eq
      exact Or.inr hshead
    have hwfmid' : wfRT ((Entries.cons
        (k.drop (bits_in_common k bits).length) (PyObj.dict cs)
        Entries.nil).set (bits.drop (bits_in_common k bits).length)
        (.dict (.cons starK (.routes [route]) .nil))) = true := by
      refine wfRT_set_new _ _ _ hwfmid hmidhas ?_ hmidsib
      simp only [wfRTEntry, Bool.and_eq_true]
      exact ⟨edgeKey_of _ hbne' hstar', wfRT_leaf [route]⟩
    have hwfd' : wfRT ((d.erase k).set (bits_in_common k bits)
        (.dict ((Entries.cons (k.drop (bits_in_common k bits).length)
          (PyObj.dict cs) Entries.nil).set
          (bits.drop (bits_in_common k bits).length)
          (.dict (.cons starK (.routes [route]) .nil))))) = true := by
      refine wfRT_set_new _ _ _ hwferase hcom_no ?_ hsib_com
      simp only [wfRTEntry, Bool.and_eq_true]
      exact ⟨hcedge, hwfmid'⟩
    refine ⟨(Entries.cons (k.drop (bits_in_common k bits).length)
        (PyObj.dict cs) Entries.nil).set
          (bits.drop (bits_in_common k bits).length)
          (.dict (.cons starK (.routes [route]) .nil)),
        true, ?_, rfl, hwfd', hold, ?_⟩
    · simp [rtAddFinish, hbne']
    · rw [bucketAt_child _ hwfd' (bits_in_common k bits) _
        (Entries.find?_set_self _ _ _) hcs bits hbne hpc_b]
      rw [bucketAt_child _ hwfmid' (bits.drop (bits_in_common k bits).length)
        _ (Entries.find?_set_self _ _ _) hbstar' _ hbne' (isPre_refl _),
        List.drop_length, bucketAt_self [] _ (wfRT_leaf [route]),
        starBucket_leaf]

/-- The radix `add` walk: under the structural invariant and with the
working set faithfully representing the current node's star-less items, the
walk succeeds, preserves the invariant, is a no-op when the route is
already in the bucket at the queried path, and otherwise appends the route
to (a possibly freshly created bucket at) exactly that path. -/
theorem rtAddGo_spec (route : Route) :
    ∀ fuel (ws : List (Key × PyObj)) (d : Entries) (bits : List Ch),
      wfRT d = true →
      stackSz ws + bits.length < fuel →
      Ch.star ∉ bits →
      (∀ e ∈ ws, d.find? e.1 = some e.2 ∧ e.1 ≠ starK) →
      (∀ k v, d.find? k = some v → k ≠ starK →
        bits_in_common k bits ≠ [] → (k, v) ∈ ws) →
      ∃ d' added, rtAddGo route fuel d ws bits = .ok (d', added) ∧
        wfRT d' = true ∧
        (route ∈ oldB d bits → d' = d ∧ added = false) ∧
        (route ∉ oldB d bits → added = true ∧
          bucketAt (entriesOf [] d') bits = some (oldB d bits ++ [route])) := by
  intro fuel
  induction fuel with
  | zero => intro ws d bits _ h; omega
  | succ fuel ih =>
      intro ws d bits hwf hsz hstar hws hall
      match ws, bits with
      | [], bits =>
          by_cases hbne : bits = []
          · subst hbne
            obtain ⟨d', added, heq, hrest⟩ := rtAddFinish_spec_nil route d hwf
            exact ⟨d', added, by simpa [rtAddGo] using heq, hrest⟩
          · have hno : ∀ k v, d.find? k = some v → k ≠ starK →
                bits_in_common k bits = [] := by
              intro k v hf hks
              by_contra hc
              exact absurd (hall k v hf hks hc) (List.not_mem_nil _)
            obtain ⟨d', added, heq, hrest⟩ :=
              rtAddFinish_spec_ne route d bits hwf hbne hstar hno
            exact ⟨d', added, by simpa [rtAddGo] using heq, hrest⟩
      | (k, v) :: ws', [] =>
          obtain ⟨d', added, heq, hrest⟩ := rtAddFinish_spec_nil route d hwf
          exact ⟨d', added, by simpa [rtAddGo] using heq, hrest⟩
      | (k, v) :: ws', b :: brest =>
          obtain ⟨hfk, hks⟩ := hws (k, v) (List.mem_cons_self _ _)
          by_cases hc1 : bits_in_common k (b :: brest) = []
          · -- skip: the edge shares no leading bits with the input
            have hws' : ∀ e ∈ ws', d.find? e.1 = some e.2 ∧ e.1 ≠ starK :=
              fun e he => hws e (List.mem_cons_of_mem _ he)
            have hall' : ∀ k0 v0, d.find? k0 = some v0 → k0 ≠ starK →
                bits_in_common k0 (b :: brest) ≠ [] → (k0, v0) ∈ ws' := by
              intro k0 v0 hf0 hk0s hc0
              rcases List.mem_cons.1 (hall k0 v0 hf0 hk0s hc0) with he | he
              · obtain ⟨h1, _⟩ := Prod.mk.injEq .. ▸ he
                subst h1
                exact absurd hc1 hc0
              · exact he
            have hsz' : stackSz ws' + (b :: brest).length < fuel := by
              have hv := PyObj.sz_pos v
              have : stackSz ((k, v) :: ws') = v.sz + 1 + stackSz ws' := by
                simp [stackSz]
              omega
            obtain ⟨d', added, heq, hrest⟩ :=
              ih ws' d (b :: brest) hwf hsz' hstar hws' hall'
            refine ⟨d', added, ?_, hrest⟩
            have hstep : rtAddGo route (fuel + 1) d ((k, v) :: ws') (b :: brest) =
                rtAddGo route fuel d ws' (b :: brest) := by
              simp only [rtAddGo]
              rw [if_neg (fun h => h hc1)]
            rw [hstep, heq]
          · have hwfe := wfRT_find? d hwf k v hfk
            cases v with
            | routes rs => exact absurd (by simpa [wfRTEntry] using hwfe) hks
            | dict cs =>
              have hek : edgeKey k = true ∧ wfRT cs = true := by
                simpa [wfRTEntry] using hwfe
              by_cases hc2 : bits_in_common k (b :: brest) = k
              · -- descend through a fully matched edge
                have hpre : isPre k (b :: brest) = true := (bic_eq_iff k _).1 hc2
                have hkne : k ≠ [] := edgeKey_ne_nil k hek.1
                have hstar' : Ch.star ∉ (b :: brest).drop k.length :=
                  fun h => hstar (List.drop_subset _ _ h)
                have hsz' : stackSz (new_dict_without_key starK cs).reverse +
                    ((b :: brest).drop k.length).length < fuel := by
                  rw [stackSz_reverse]
                  have h1 := stackSz_ndwk starK cs
                  have h2 : (PyObj.dict cs).sz = cs.sz + 1 := by simp [PyObj.sz]
                  have h3 : ((b :: brest).drop k.length).length ≤
                      (b :: brest).length := by
                    rw [List.length_drop]
                    omega
                  have hc : stackSz ((k, PyObj.dict cs) :: ws') =
                      (PyObj.dict cs).sz + 1 + stackSz ws' := by
                    simp [stackSz]
                  omega
                have hall' : ∀ k0 v0, cs.find? k0 = some v0 → k0 ≠ starK →
                    bits_in_common k0 ((b :: brest).drop k.length) ≠ [] →
                    (k0, v0) ∈ (new_dict_without_key starK cs).reverse :=
                  fun k0 v0 hf0 hk0s _ => ndwk_rev_complete cs k0 v0 hf0 hk0s
                obtain ⟨cs', added, heqc, hwfcs', hin, hout⟩ :=
                  ih (new_dict_without_key starK cs).reverse cs
                    ((b :: brest).drop k.length) hek.2 hsz' hstar'
                    (ndwk_rev_entries cs hek.2) hall'
                have holdeq : oldB d (b :: brest) =
                    oldB cs ((b :: brest).drop k.length) := by
                  unfold oldB
                  rw [bucketAt_child d hwf k cs hfk hks (b :: brest)
                    (by simp) hpre]
                have hwfd' : wfRT (d.set k (.dict cs')) = true :=
                  wfRT_set_existing d k _ _ hwf hfk
                    (by simp only [wfRTEntry, Bool.and_eq_true]
                        exact ⟨hek.1, hwfcs'⟩)
                refine ⟨d.set k (.dict cs'), added, ?_, hwfd', ?_, ?_⟩
                · simp only [rtAddGo]
                  rw [if_pos hc1, if_pos hc2, hc2, heqc]
                · intro hmem
                  rw [holdeq] at hmem
                  obtain ⟨hcseq, haddf⟩ := hin hmem
                  subst hcseq
                  exact ⟨Entries.set_self d k _ hfk, haddf⟩
                · intro hmem
                  rw [holdeq] at hmem
                  obtain ⟨haddt, hbk⟩ := hout hmem
                  refine ⟨haddt, ?_⟩
                  rw [bucketAt_child _ hwfd' k cs'
                    (Entries.find?_set_self d k _) hks (b :: brest)
                    (by simp) hpre, hbk, holdeq]
              · -- split a partially matched edge
                obtain ⟨mid', added, heqm, haddt, hwfd', hold, hbk⟩ :=
                  rtAddSplit_spec route d k cs (b :: brest) hwf hfk hks hstar
                    (by simp) hc1 hc2
                refine ⟨(d.erase k).set (bits_in_common k (b :: brest))
                    (.dict mid'), added, ?_, hwfd', ?_, ?_⟩
                · simp only [rtAddGo]
                  rw [if_pos hc1, if_neg hc2, heqm]
                · intro hmem
                  rw [hold] at hmem
                  exact absurd hmem (List.not_mem_nil route)
                · intro _
                  rw [hold, hbk]
                  exact ⟨haddt, by simp⟩

/-- The binary-trie `add` walk (`setdefault` bit by bit): succeeds under the
shape invariant, preserves it, no-ops when the route is already present at
the queried path, and otherwise appends it to the bucket there. -/
theorem ptAddGo_spec (route : Route) :
    (bits : List Ch) → (d : Entries) → wfPT d = true → Ch.star ∉ bits →
    ∃ d' added, ptAddGo route bits d = .ok (d', added) ∧
      wfPT d' = true ∧
      (route ∈ oldB d bits → d' = d ∧ added = false) ∧
      (route ∉ oldB d bits → added = true ∧
        bucketAt (entriesOf [] d') bits = some (oldB d bits ++ [route]))
  | [], d, hwf, _ => by
      have hwfr := wfPT_wfRT d hwf
      have hsb : bucketAt (entriesOf [] d) [] = starBucket d :=
        bucketAt_self [] d hwfr
      cases hst : d.find? starK with
      | none =>
          have hold : oldB d [] = [] := by
            simp [oldB, hsb, starBucket, hst]
          have hwf' : wfPT (d.set starK (.routes [route])) = true :=
            wfPT_set_new d starK _ hwf (by simp [Entries.hasKey, hst])
              (by simp [wfPTEntry])
          refine ⟨d.set starK (.routes [route]), true,
            by simp [ptAddGo, hst], hwf', ?_, ?_⟩
          · intro hmem
            rw [hold] at hmem
            exact absurd hmem (List.not_mem_nil route)
          · intro _
            refine ⟨rfl, ?_⟩
            rw [bucketAt_self [] _ (wfPT_wfRT _ hwf'), hold]
            simp [starBucket, Entries.find?_set_self]
      | some v =>
          obtain ⟨rs, hv⟩ := wfRT_star_routes d hwfr v hst
          subst hv
          have hold : oldB d [] = rs := by
            simp [oldB, hsb, starBucket, hst]
          by_cases hmem : route ∈ rs
          · refine ⟨d, false, by simp [ptAddGo, hst, hmem], hwf,
              fun _ => ⟨rfl, rfl⟩, fun hn => absurd (hold ▸ hmem) hn⟩
          · have hwf' : wfPT (d.set starK (.routes (rs ++ [route]))) = true :=
              wfPT_set_existing d starK _ _ hwf hst (by simp [wfPTEntry])
            refine ⟨d.set starK (.routes (rs ++ [route])), true,
              by simp [ptAddGo, hst, hmem], hwf', ?_, ?_⟩
            · intro hmem2
              rw [hold] at hmem2
              exact absurd hmem2 hmem
            · intro _
              refine ⟨rfl, ?_⟩
              rw [bucketAt_self [] _ (wfPT_wfRT _ hwf'), hold]
              simp [starBucket, Entries.find?_set_self]
  | b :: rest, d, hwf, hstar => by
      have hwfr := wfPT_wfRT d hwf
      have hbs : b ≠ Ch.star := fun h => hstar (h ▸ List.mem_cons_self b rest)
      have hstar' : Ch.star ∉ rest := fun h => hstar (List.mem_cons_of_mem b h)
      have hbK : ([b] : Key) ≠ starK := by
        simp only [starK, ne_eq, List.cons.injEq, and_true]
        exact fun h => absurd h hbs
      have hb01 : b = Ch.zero ∨ b = Ch.one := by
        cases b with
        | zero => exact Or.inl rfl
        | one => exact Or.inr rfl
        | star => exact absurd rfl hbs
      have hpre : isPre [b] (b :: rest) = true := by simp [isPre]
      have hdrop : (b :: rest).drop ([b] : Key).length = rest := by simp
      cases hf : d.find? [b] with
      | some v =>
          have hwfe := wfPT_find? d hwf [b] v hf
          cases v with
          | routes rs =>
              exact absurd (by simpa [wfPTEntry] using hwfe) hbK
          | dict sub =>
              have hwfsub : wfPT sub = true :=
                (by simpa [wfPTEntry] using hwfe :
                  ([b] = [Ch.zero] ∨ [b] = [Ch.one]) ∧ wfPT sub = true).2
              obtain ⟨sub', added, heq, hwfsub', hin, hout⟩ :=
                ptAddGo_spec route rest sub hwfsub hstar'
              have holdeq : oldB d (b :: rest) = oldB sub rest := by
                unfold oldB
                rw [bucketAt_child d hwfr [b] sub hf hbK (b :: rest)
                  (by simp) hpre, hdrop]
              have hwfd' : wfPT (d.set [b] (.dict sub')) = true := by
                refine wfPT_set_existing d [b] _ _ hwf hf ?_
                simp only [wfPTEntry, Bool.and_eq_true]
                refine ⟨?_, hwfsub'⟩
                rcases hb01 with h | h <;> simp [h]
              refine ⟨d.set [b] (.dict sub'), added,
                by simp [ptAddGo, hf, heq], hwfd', ?_, ?_⟩
              · intro hmem
                rw [holdeq] at hmem
                obtain ⟨hseq, haddf⟩ := hin hmem
                subst hseq
                exact ⟨Entries.set_self d [b] _ hf, haddf⟩
              · intro hmem
                rw [holdeq] at hmem
                obtain ⟨haddt, hbk⟩ := hout hmem
                refine ⟨haddt, ?_⟩
                rw [bucketAt_child _ (wfPT_wfRT _ hwfd') [b] sub'
                  (Entries.find?_set_self d [b] _) hbK (b :: rest)
                  (by simp) hpre, hdrop, hbk, holdeq]
      | none =>
          obtain ⟨sub', added, heq, hwfsub', _, hout⟩ :=
            ptAddGo_spec route rest .nil rfl hstar'
          have holdnil : oldB Entries.nil rest = [] := by
            simp [oldB, bucketAt, entriesOf]
          have hold : oldB d (b :: rest) = [] := by
            have hnone : bucketAt (entriesOf [] d) (b :: rest) = none := by
              refine bucketAt_none d hwfr (b :: rest) (by simp) ?_
              intro k v hfk hks
              have hwfe := wfPT_find? d hwf k v hfk
              have hk1 : k = [Ch.zero] ∨ k = [Ch.one] := by
                cases v with
                | routes rs => exact absurd (by simpa [wfPTEntry] using hwfe) hks
                | dict es =>
                    exact (by simpa [wfPTEntry] using hwfe :
                      (k = [Ch.zero] ∨ k = [Ch.one]) ∧ wfPT es = true).1
              by_contra hp
              rw [Bool.not_eq_false] at hp
              have hkb : k = [b] := by
                rcases hk1 with rfl | rfl <;>
                  · simp only [isPre, Bool.and_eq_true, decide_eq_true_eq] at hp
                    rw [hp.1]
              rw [hkb, hf] at hfk
              exact Option.noConfusion hfk
            simp [oldB, hnone]
          obtain ⟨haddt, hbk⟩ := hout (holdnil ▸ List.not_mem_nil route)
          have hwfd' : wfPT (d.set [b] (.dict sub')) = true := by
            refine wfPT_set_new d [b] _ hwf (by simp [Entries.hasKey, hf]) ?_
            simp only [wfPTEntry, Bool.and_eq_true]
            refine ⟨?_, hwfsub'⟩
            rcases hb01 with h | h <;> simp [h]
          refine ⟨d.set [b] (.dict sub'), added,
            by simp [ptAddGo, hf, heq], hwfd', ?_, ?_⟩
          · intro hmem
            rw [hold] at hmem
            exact absurd hmem (List.not_mem_nil route)
          · intro _
            refine ⟨haddt, ?_⟩
            rw [bucketAt_child _ (wfPT_wfRT _ hwfd') [b] sub'
              (Entries.find?_set_self d [b] _) hbK (b :: rest)
              (by simp) hpre, hdrop, hbk, hold, holdnil]

/-- C7: `add` is idempotent on both tries: under the structural invariants,
`add(p, a)` succeeds, a second identical `add` returns the very same state,
adding a route identical to a stored one is a no-op, and otherwise the
route is appended to the bucket at exactly the queried path and the counter
is incremented by one. -/
theorem claim7_add_idempotent (t : IPPrefixTree) (u : IPRadixTree)
    (p : IPPfx) (attrs : Attrs)
    (hwt : wfPT t.root = true) (hwu : wfRT u.root = true) :
    (∃ t', t.add p attrs = .ok t' ∧ t'.add p attrs = .ok t' ∧
      ((⟨ip_network p, attrs⟩ : Route) ∈ oldB t.root (bits_in_pfx p) →
        t' = t) ∧
      ((⟨ip_network p, attrs⟩ : Route) ∉ oldB t.root (bits_in_pfx p) →
        t'.counter = t.counter + 1 ∧
        bucketAt (entriesOf [] t'.root) (bits_in_pfx p) =
          some (oldB t.root (bits_in_pfx p) ++ [⟨ip_network p, attrs⟩]))) ∧
    (∃ u', u.add p attrs = .ok u' ∧ u'.add p attrs = .ok u' ∧
      ((⟨ip_network p, attrs⟩ : Route) ∈ oldB u.root (bits_in_pfx p) →
        u' = u) ∧
      ((⟨ip_network p, attrs⟩ : Route) ∉ oldB u.root (bits_in_pfx p) →
        u'.counter = u.counter + 1 ∧
        bucketAt (entriesOf [] u'.root) (bits_in_pfx p) =
          some (oldB u.root (bits_in_pfx p) ++ [⟨ip_network p, attrs⟩]))) := by
  have hstar := star_not_mem_bits p
  constructor
  · obtain ⟨d', added, heq, hwfd', hin, hout⟩ :=
      ptAddGo_spec ⟨ip_network p, attrs⟩ (bits_in_pfx p) t.root hwt hstar
    refine ⟨⟨d', t.counter + (if added then 1 else 0)⟩,
      by simp [IPPrefixTree.add, heq], ?_, ?_, ?_⟩
    · have hmem' : (⟨ip_network p, attrs⟩ : Route) ∈
          oldB d' (bits_in_pfx p) := by
        by_cases hmem : (⟨ip_network p, attrs⟩ : Route) ∈
            oldB t.root (bits_in_pfx p)
        · obtain ⟨hd, _⟩ := hin hmem
          rw [hd]
          exact hmem
        · obtain ⟨_, hbk⟩ := hout hmem
          simp [oldB, hbk]
      obtain ⟨d'', added2, heq2, _, hin2, _⟩ :=
        ptAddGo_spec ⟨ip_network p, attrs⟩ (bits_in_pfx p) d' hwfd' hstar
      obtain ⟨hd2, ha2⟩ := hin2 hmem'
      subst hd2
      rw [ha2] at heq2
      simp [IPPrefixTree.add, heq2]
    · intro hmem
      obtain ⟨hd, ha⟩ := hin hmem
      rw [hd, ha]
      simp
    · intro hmem
      obtain ⟨ha, hbk⟩ := hout hmem
      rw [ha]
      exact ⟨by simp, hbk⟩
  · have hsz : stackSz (new_dict_without_key starK u.root).reverse +
        (bits_in_pfx p).length <
        fuelFor (new_dict_without_key starK u.root).reverse (bits_in_pfx p) := by
      simp [fuelFor]
    obtain ⟨d', added, heq, hwfd', hin, hout⟩ :=
      rtAddGo_spec ⟨ip_network p, attrs⟩
        (fuelFor (new_dict_without_key starK u.root).reverse (bits_in_pfx p))
        (new_dict_without_key starK u.root).reverse u.root (bits_in_pfx p)
        hwu hsz hstar (ndwk_rev_entries u.root hwu)
        (fun k v hf hks _ => ndwk_rev_complete u.root k v hf hks)
    refine ⟨⟨d', u.counter + (if added then 1 else 0)⟩,
      by simp [IPRadixTree.add, heq], ?_, ?_, ?_⟩
    · have hmem' : (⟨ip_network p, attrs⟩ : Route) ∈
          oldB d' (bits_in_pfx p) := by
        by_cases hmem : (⟨ip_network p, attrs⟩ : Route) ∈
            oldB u.root (bits_in_pfx p)
        · obtain ⟨hd, _⟩ := hin hmem
          rw [hd]
          exact hmem
        · obtain ⟨_, hbk⟩ := hout hmem
          simp [oldB, hbk]
      have hsz2 : stackSz (new_dict_without_key starK d').reverse +
          (bits_in_pfx p).length <
          fuelFor (new_dict_without_key starK d').reverse (bits_in_pfx p) := by
        simp [fuelFor]
      obtain ⟨d'', added2, heq2, _, hin2, _⟩ :=
        rtAddGo_spec ⟨ip_network p, attrs⟩
          (fuelFor (new_dict_without_key starK d').reverse (bits_in_pfx p))
          (new_dict_without_key starK d').reverse d' (bits_in_pfx p)
          hwfd' hsz2 hstar (ndwk_rev_entries d' hwfd')
          (fun k v hf hks _ => ndwk_rev_complete d' k v hf hks)
      obtain ⟨hd2, ha2⟩ := hin2 hmem'
      subst hd2
      rw [ha2] at heq2
      simp [IPRadixTree.add, heq2]
    · intro hmem
      obtain ⟨hd, ha⟩ := hin hmem
      rw [hd, ha]
      simp
    · intro hmem
      obtain ⟨ha, hbk⟩ := hout hmem
      rw [ha]
      exact ⟨by simp, hbk⟩

theorem claim7_witness :
    (wfPT wPT.root = true ∧ wfRT wRT.root = true) ∧
    ((∃ t', wPT.add wQry [] = .ok t' ∧ t'.add wQry [] = .ok t' ∧
      ((⟨ip_network wQry, []⟩ : Route) ∈ oldB wPT.root (bits_in_pfx wQry) →
        t' = wPT) ∧
      ((⟨ip_network wQry, []⟩ : Route) ∉ oldB wPT.root (bits_in_pfx wQry) →
        t'.counter = wPT.counter + 1 ∧
        bucketAt (entriesOf [] t'.root) (bits_in_pfx wQry) =
          some (oldB wPT.root (bits_in_pfx wQry) ++ [⟨ip_network wQry, []⟩]))) ∧
    (∃ u', wRT.add wQry [] = .ok u' ∧ u'.add wQry [] = .ok u' ∧
      ((⟨ip_network wQry, []⟩ : Route) ∈ oldB wRT.root (bits_in_pfx wQry) →
        u' = wRT) ∧
      ((⟨ip_network wQry, []⟩ : Route) ∉ oldB wRT.root (bits_in_pfx wQry) →
        u'.counter = wRT.counter + 1 ∧
        bucketAt (entriesOf [] u'.root) (bits_in_pfx wQry) =
          some (oldB wRT.root (bits_in_pfx wQry) ++ [⟨ip_network wQry, []⟩]))))
    :=
  ⟨⟨by decide, by decide⟩,
    claim7_add_idempotent wPT wRT wQry [] (by decide) (by decide)⟩

theorem sortRoutes_ok (rs l : List Route) (h : sortRoutes rs = .ok l) :
    l = List.insertionSort netLE rs := by
  unfold sortRoutes at h
  by_cases hm : rs.any (fun a => rs.any (fun b => a.pfx.version ≠ b.pfx.version))
  · rw [if_pos hm] at h
    exact Except.noConfusion h
  · rw [if_neg hm] at h
    injection h with h
    exact h.symm

theorem sortRoutes_sorted (rs l : List Route) (h : sortRoutes rs = .ok l) :
    List.Sorted netLE l := by
  rw [sortRoutes_ok rs l h]
  exact List.sorted_insertionSort netLE rs

theorem filter_orderedInsert_of_pos (p : Route → Bool)
    (hties : ∀ x y, p x = true → p y = true → netLE x y)
    (a : Route) (hpa : p a = true) :
    ∀ L, (List.orderedInsert netLE a L).filter p = a :: L.filter p
  | [] => by simp [List.orderedInsert, hpa]
  | b :: L => by
      by_cases hr : netLE a b
      · rw [List.orderedInsert, if_pos hr]
        simp [hpa]
      · have hpb : p b = false := by
          cases hpbv : p b with
          | false => rfl
          | true => exact absurd (hties a b hpa hpbv) hr
        rw [List.orderedInsert, if_neg hr]
        simp [hpb, filter_orderedInsert_of_pos p hties a hpa L]

theorem filter_orderedInsert_of_neg (p : Route → Bool)
    (a : Route) (hpa : p a = false) :
    ∀ L, (List.orderedInsert netLE a L).filter p = L.filter p
  | [] => by simp [List.orderedInsert, hpa]
  | b :: L => by
      by_cases hr : netLE a b
      · rw [List.orderedInsert, if_pos hr]
        simp [hpa]
      · rw [List.orderedInsert, if_neg hr]
        cases hpb : p b with
        | false => simp [hpb, filter_orderedInsert_of_neg p a hpa L]
        | true => simp [hpb, filter_orderedInsert_of_neg p a hpa L]

theorem filter_insertionSort (p : Route → Bool)
    (hties : ∀ x y, p x = true → p y = true → netLE x y) :
    ∀ rs, (List.insertionSort netLE rs).filter p = rs.filter p
  | [] => rfl
  | a :: rs => by
      rw [List.insertionSort]
      cases hpa : p a with
      | true =>
          rw [filter_orderedInsert_of_pos p hties a hpa]
          simp [hpa, filter_insertionSort p hties rs]
      | false =>
          rw [filter_orderedInsert_of_neg p a hpa]
          simp [hpa, filter_insertionSort p hties rs]

theorem sortRoutes_stable (rs l : List Route) (h : sortRoutes rs = .ok l)
    (q : IPPfx) :
    l.filter (fun r => r.pfx == q) = rs.filter (fun r => r.pfx == q) := by
  rw [sortRoutes_ok rs l h]
  refine filter_insertionSort _ ?_ rs
  intro x y hx hy
  have hx' : x.pfx = q := by simpa using hx
  have hy' : y.pfx = q := by simpa using hy
  exact Or.inr ⟨by rw [hx', hy'], by rw [hx', hy']⟩

theorem bits_in_pfx_good (a : IPPfx) (ha : goodPfx a = true) :
    bits_in_pfx a = (bits_of_nat (addrWidth a.version) a.netid).take a.plen := by
  have hna : ip_network a = a := by
    simp only [goodPfx, Bool.and_eq_true, beq_iff_eq] at ha
    exact ha.2
  unfold bits_in_pfx
  rw [hna]

theorem pfx_eq_of_bits (a b : IPPfx) (ha : goodPfx a = true)
    (hb : goodPfx b = true) (hv : a.version = b.version)
    (hbits : bits_in_pfx a = bits_in_pfx b) : a = b := by
  have hva : validIn a = true := by
    simp only [goodPfx, Bool.and_eq_true] at ha
    exact ha.1
  have hvb : validIn b = true := by
    simp only [goodPfx, Bool.and_eq_true] at hb
    exact hb.1
  simp only [validIn, Bool.and_eq_true, Bool.or_eq_true, beq_iff_eq,
    decide_eq_true_eq] at hva hvb
  have hna : ip_network a = a := by
    simp only [goodPfx, Bool.and_eq_true, beq_iff_eq] at ha
    exact ha.2
  have hnb : ip_network b = b := by
    simp only [goodPfx, Bool.and_eq_true, beq_iff_eq] at hb
    exact hb.2
  rw [bits_in_pfx_good a ha, bits_in_pfx_good b hb] at hbits
  rw [← hv] at hvb hbits
  have hwlen : (bits_of_nat (addrWidth a.version) a.netid).length =
      addrWidth a.version := by
    simp [bits_of_nat]
  have hwlenb : (bits_of_nat (addrWidth a.version) b.netid).length =
      addrWidth a.version := by
    simp [bits_of_nat]
  have hplen : a.plen = b.plen := by
    have hl := congrArg List.length hbits
    rw [List.length_take, List.length_take, hwlen, hwlenb] at hl
    have h1 := hva.1.2
    have h2 := hvb.1.2
    omega
  have hmaska : (a.netid >>> (addrWidth a.version - a.plen)) <<<
      (addrWidth a.version - a.plen) = a.netid := congrArg IPPfx.netid hna
  have hmaskb : (b.netid >>> (addrWidth a.version - b.plen)) <<<
      (addrWidth a.version - b.plen) = b.netid := by
    have h0 : (b.netid >>> (addrWidth b.version - b.plen)) <<<
        (addrWidth b.version - b.plen) = b.netid := congrArg IPPfx.netid hnb
    rwa [← hv] at h0
  have hnetid : a.netid = b.netid := by
    refine Nat.eq_of_testBit_eq ?_
    intro i
    by_cases hiw : i < addrWidth a.version
    · by_cases himask : i < addrWidth a.version - a.plen
      · rw [← hmaska, ← hmaskb, Nat.testBit_shiftLeft, Nat.testBit_shiftLeft]
        rw [← hplen]
        have : ¬ (i ≥ addrWidth a.version - a.plen) := by omega
        simp [this]
      · have hj : addrWidth a.version - 1 - i < a.plen := by omega
        have hjw : addrWidth a.version - 1 - i < addrWidth a.version := by omega
        have hq := congrArg (fun l => l[addrWidth a.version - 1 - i]?) hbits
        simp only [List.getElem?_take, if_pos hj, if_pos (hplen ▸ hj),
          bits_of_nat, List.getElem?_map, List.getElem?_range hjw,
          Option.map_some'] at hq
        have hji : addrWidth a.version - 1 - (addrWidth a.version - 1 - i) =
            i := by omega
        rw [hji] at hq
        injection hq with hq
        cases hta : a.netid.testBit i <;> cases htb : b.netid.testBit i <;>
          simp [hta, htb] at hq <;> rfl
    · have h2a : a.netid < 2 ^ i := by
        calc a.netid < 2 ^ addrWidth a.version := hva.2
        _ ≤ 2 ^ i := Nat.pow_le_pow_right (by norm_num) (by omega)
      have h2b : b.netid < 2 ^ i := by
        calc b.netid < 2 ^ addrWidth a.version := hvb.2
        _ ≤ 2 ^ i := Nat.pow_le_pow_right (by norm_num) (by omega)
      rw [Nat.testBit_lt_two_pow h2a, Nat.testBit_lt_two_pow h2b]
  cases a with
  | mk av an ap =>
      cases b with
      | mk bv bn bp =>
          simp only at hv hnetid hplen
          rw [hv, hnetid, hplen]

theorem sorted_of_ties : ∀ (l : List Route),
    (∀ a ∈ l, ∀ b ∈ l, netLE a b) → List.Sorted netLE l
  | [], _ => List.sorted_nil
  | x :: xs, h => by
      refine List.Pairwise.cons ?_ (sorted_of_ties xs ?_)
      · intro b hb
        exact h x (List.mem_cons_self _ _) b (List.mem_cons_of_mem _ hb)
      · intro a ha b hb
        exact h a (List.mem_cons_of_mem _ ha) b (List.mem_cons_of_mem _ hb)

/-- All routes of one bucket of an invariant-respecting, single-family table
carry the same prefix, hence compare `netLE` both ways. -/
theorem bucket_ties (pre : List Ch) (rs : List Route) (v : Nat)
    (hp : rs.all (fun r => goodPfx r.pfx && bits_in_pfx r.pfx == pre) = true)
    (hv : rs.all (fun r => r.pfx.version == v) = true) :
    ∀ a ∈ rs, ∀ b ∈ rs, netLE a b := by
  intro a hma b hmb
  have hpa := List.all_eq_true.1 hp a hma
  have hpb := List.all_eq_true.1 hp b hmb
  have hva := List.all_eq_true.1 hv a hma
  have hvb := List.all_eq_true.1 hv b hmb
  simp only [Bool.and_eq_true, beq_iff_eq] at hpa hpb hva hvb
  have hab : a.pfx = b.pfx :=
    pfx_eq_of_bits a.pfx b.pfx hpa.1 hpb.1 (hva.trans hvb.symm)
      (hpa.2.trans hpb.2.symm)
  exact Or.inr ⟨by rw [hab], by rw [hab]⟩

theorem pathsOk_find? : (pre : List Ch) → (d : Entries) →
    pathsOk pre d = true → (k : Key) → (v : PyObj) →
    d.find? k = some v → pathsOkEntry pre k v = true
  | pre, .nil, _, k, v, h => by simp [Entries.find?] at h
  | pre, .cons k' v' rest, hp, k, v, h => by
      simp only [pathsOk, Bool.and_eq_true] at hp
      by_cases he : k' = k
      · subst he
        have h' : v' = v := by simpa [Entries.find?] using h
        exact h' ▸ hp.1
      · simp only [Entries.find?, if_neg he] at h
        exact pathsOk_find? pre rest hp.2 k v h

theorem allVer_find? : (v : Nat) → (d : Entries) →
    allVer v d = true → (k : Key) → (w : PyObj) →
    d.find? k = some w → allVerEntry v w = true
  | v, .nil, _, k, w, h => by simp [Entries.find?] at h
  | v, .cons k' w' rest, hp, k, w, h => by
      simp only [allVer, Bool.and_eq_true] at hp
      by_cases he : k' = k
      · subst he
        have h' : w' = w := by simpa [Entries.find?] using h
        exact h' ▸ hp.1
      · simp only [Entries.find?, if_neg he] at h
        exact allVer_find? v rest hp.2 k w h

theorem pathsOk_toList : (pre : List Ch) → (d : Entries) →
    pathsOk pre d = true → ∀ e ∈ d.toList, pathsOkEntry pre e.1 e.2 = true
  | pre, .nil, _, e, he => by simp [Entries.toList] at he
  | pre, .cons k v rest, hp, e, he => by
      simp only [pathsOk, Bool.and_eq_true] at hp
      rcases List.mem_cons.1 (by simpa [Entries.toList] using he) with he2 | he2
      · subst he2
        exact hp.1
      · exact pathsOk_toList pre rest hp.2 e he2

theorem allVer_toList : (v : Nat) → (d : Entries) →
    allVer v d = true → ∀ e ∈ d.toList, allVerEntry v e.2 = true
  | v, .nil, _, e, he => by simp [Entries.toList] at he
  | v, .cons k w rest, hp, e, he => by
      simp only [allVer, Bool.and_eq_true] at hp
      rcases List.mem_cons.1 (by simpa [Entries.toList] using he) with he2 | he2
      · subst he2
        exact hp.1
      · exact allVer_toList v rest hp.2 e he2

/-- A node holding a `"*"` bucket in a table satisfying the data-model
invariants yields an attrs-filtered result that is sorted. -/
theorem bucket_result_sorted (pre : List Ch) (d : Entries) (v : Nat)
    (hp : pathsOk pre d = true) (hv : allVer v d = true)
    (rs : List Route) (hst : d.find? starK = some (.routes rs))
    (attrs : Attrs) : List.Sorted netLE (objs_with_all_attrs rs attrs) := by
  have h1 := pathsOk_find? pre d hp starK _ hst
  have h2 := allVer_find? v d hv starK _ hst
  simp only [pathsOkEntry] at h1
  simp only [allVerEntry] at h2
  refine List.Sorted.filter _ (sorted_of_ties rs ?_)
  exact bucket_ties pre rs v h1 h2

/-- The binary-trie `show` descent lands on nodes of the tree, which
therefore satisfy the data-model invariants at their own path. -/
theorem ptShowDescend_dict (v : Nat) : (bits : List Ch) → (d : Entries) →
    (pre : List Ch) → pathsOk pre d = true → allVer v d = true →
    (d' : Entries) → ptShowDescend bits (.dict d) = some (.dict d') →
    ∃ pre', pathsOk pre' d' = true ∧ allVer v d' = true
  | [], d, pre, hp, hv, d', heq => by
      have h0 : PyObj.dict d = PyObj.dict d' := by
        simpa [ptShowDescend] using heq
      injection h0 with h0
      exact ⟨pre, h0 ▸ hp, h0 ▸ hv⟩
  | b :: rest, d, pre, hp, hv, d', heq => by
      simp only [ptShowDescend] at heq
      cases hf : d.find? [b] with
      | none =>
          rw [hf] at heq
          exact Option.noConfusion heq
      | some o =>
          rw [hf] at heq
          cases o with
          | dict cs =>
              have hpc := pathsOk_find? pre d hp [b] _ hf
              have hvc := allVer_find? v d hv [b] _ hf
              simp only [pathsOkEntry] at hpc
              simp only [allVerEntry] at hvc
              exact ptShowDescend_dict v rest cs (pre ++ [b]) hpc hvc d' heq
          | routes rs =>
              cases rest with
              | nil => simp [ptShowDescend] at heq
              | cons c cr => simp [ptShowDescend] at heq

/-- The radix `show` walk only ever moves its pointer to a child node of
the current node, so the node it answers satisfies the invariants at some
path. -/
theorem rtShowGo_inv (v : Nat) :
    ∀ fuel (ws : List (Key × PyObj)) (bits : List Ch) (d : Entries)
      (pre : List Ch),
      pathsOk pre d = true → allVer v d = true →
      (∀ e ∈ ws, pathsOkEntry pre e.1 e.2 = true ∧
        allVerEntry v e.2 = true) →
      ∀ d' rem, rtShowGo fuel ws bits d = .ok (d', rem) →
      ∃ pre', pathsOk pre' d' = true ∧ allVer v d' = true := by
  intro fuel
  induction fuel with
  | zero =>
      intro ws bits d pre _ _ _ d' rem h
      exact absurd h (by simp [rtShowGo])
  | succ fuel ih =>
      intro ws bits d pre hp hv hws d' rem heq
      match ws, bits with
      | [], bits =>
          have h0 : d = d' := by
            have := heq
            simp only [rtShowGo, Except.ok.injEq, Prod.mk.injEq] at this
            exact this.1
          exact ⟨pre, h0 ▸ hp, h0 ▸ hv⟩
      | (k, ch) :: rest, [] =>
          have h0 : d = d' := by
            have := heq
            simp only [rtShowGo, Except.ok.injEq, Prod.mk.injEq] at this
            exact this.1
          exact ⟨pre, h0 ▸ hp, h0 ▸ hv⟩
      | (k, ch) :: rest, b :: brest =>
          have hwsrest : ∀ e ∈ rest, pathsOkEntry pre e.1 e.2 = true ∧
              allVerEntry v e.2 = true :=
            fun e he => hws e (List.mem_cons_of_mem _ he)
          by_cases hc1 : bits_in_common k (b :: brest) = []
          · have hstep : rtShowGo (fuel + 1) ((k, ch) :: rest) (b :: brest) d =
                rtShowGo fuel rest (b :: brest) d := by
              simp only [rtShowGo]
              rw [if_neg (fun h => h hc1)]
            rw [hstep] at heq
            exact ih rest (b :: brest) d pre hp hv hwsrest d' rem heq
          · by_cases hc2 : bits_in_common k (b :: brest) = k
            · cases ch with
              | routes rs =>
                  have hstep : rtShowGo (fuel + 1) ((k, .routes rs) :: rest)
                      (b :: brest) d = .error .attrError := by
                    simp only [rtShowGo]
                    rw [if_pos hc1, if_pos hc2]
                  rw [hstep] at heq
                  exact Except.noConfusion heq
              | dict cs =>
                  obtain ⟨hpe, hve⟩ := hws (k, .dict cs) (List.mem_cons_self _ _)
                  simp only [pathsOkEntry] at hpe
                  simp only [allVerEntry] at hve
                  have hws' : ∀ e ∈ (new_dict_without_key starK cs).reverse,
                      pathsOkEntry (pre ++ k) e.1 e.2 = true ∧
                      allVerEntry v e.2 = true := by
                    intro e he
                    rw [List.mem_reverse] at he
                    have hmem : e ∈ cs.toList := by
                      have := (by simpa [new_dict_without_key] using he :
                        e ∈ cs.toList ∧ ¬ e.1 = starK)
                      exact this.1
                    exact ⟨pathsOk_toList (pre ++ k) cs hpe e hmem,
                      allVer_toList v cs hve e hmem⟩
                  have hstep : rtShowGo (fuel + 1) ((k, .dict cs) :: rest)
                      (b :: brest) d =
                      rtShowGo fuel (new_dict_without_key starK cs).reverse
                        ((b :: brest).drop (bits_in_common k (b :: brest)).length)
                        cs := by
                    simp only [rtShowGo]
                    rw [if_pos hc1, if_pos hc2]
                  rw [hstep] at heq
                  exact ih _ _ cs (pre ++ k) hpe hve hws' d' rem heq
            · have hstep : rtShowGo (fuel + 1) ((k, ch) :: rest) (b :: brest) d =
                  rtShowGo fuel rest
                    ((b :: brest).drop (bits_in_common k (b :: brest)).length)
                    d := by
                simp only [rtShowGo]
                rw [if_pos hc1, if_neg hc2]
              rw [hstep] at heq
              exact ih rest _ d pre hp hv hwsrest d' rem heq

theorem ptWcmatch_sorted (t : IPPrefixTree) (address wildcard : Nat)
    (attrs : Attrs) : sortedOut (t.wcmatch address wildcard attrs) := by
  intro l heq
  unfold IPPrefixTree.wcmatch at heq
  cases htr : traverseD t.root attrs with
  | error e =>
      rw [htr] at heq
      exact Except.noConfusion heq
  | ok rs =>
      rw [htr] at heq
      exact sortRoutes_sorted _ l heq

theorem rtWcmatch_sorted (u : IPRadixTree) (address wildcard : Nat)
    (attrs : Attrs) : sortedOut (u.wcmatch address wildcard attrs) := by
  intro l heq
  unfold IPRadixTree.wcmatch at heq
  cases htr : traverseD u.root attrs with
  | error e =>
      rw [htr] at heq
      exact Except.noConfusion heq
  | ok rs =>
      rw [htr] at heq
      exact sortRoutes_sorted _ l heq

theorem ptChildren_sorted (t : IPPrefixTree) (p : IPPfx) (attrs : Attrs) :
    sortedOut (t.children p attrs) := by
  intro l heq
  unfold IPPrefixTree.children at heq
  cases hg : ptChildrenGo (bits_in_pfx p) (.dict t.root) with
  | error e =>
      rw [hg] at heq
      exact Except.noConfusion heq
  | ok ptr =>
      rw [hg] at heq
      cases ptr with
      | routes rs => exact Except.noConfusion heq
      | dict d =>
          dsimp only at heq
          by_cases hk : d.hasKey starK
          · rw [if_pos hk] at heq
            cases htr : traverseF attrs
                (fuelFor (new_dict_without_key starK d).reverse [])
                (new_dict_without_key starK d).reverse with
            | error e =>
                rw [htr] at heq
                exact Except.noConfusion heq
            | ok rs =>
                rw [htr] at heq
                exact sortRoutes_sorted _ l heq
          · rw [if_neg hk] at heq
            exact Except.noConfusion heq

theorem rtChildren_sorted (u : IPRadixTree) (p : IPPfx) (attrs : Attrs) :
    sortedOut (u.children p attrs) := by
  intro l heq
  unfold IPRadixTree.children at heq
  dsimp only at heq
  cases hg : rtExactGo
      (fuelFor (new_dict_without_key starK u.root).reverse (bits_in_pfx p))
      (new_dict_without_key starK u.root).reverse (bits_in_pfx p) [] with
  | error e =>
      rw [hg] at heq
      exact Except.noConfusion heq
  | ok kr =>
      obtain ⟨ks, rem⟩ := kr
      rw [hg] at heq
      dsimp only at heq
      cases hn : nodeAt u.root ks with
      | none =>
          rw [hn] at heq
          exact Except.noConfusion heq
      | some d =>
          rw [hn] at heq
          dsimp only at heq
          by_cases hc : rem ≠ [] || !d.hasKey starK
          · rw [if_pos hc] at heq
            exact Except.noConfusion heq
          · rw [if_neg hc] at heq
            cases htr : traverseF attrs
                (fuelFor (new_dict_without_key starK d).reverse [])
                (new_dict_without_key starK d).reverse with
            | error e =>
                rw [htr] at heq
                exact Except.noConfusion heq
            | ok rs =>
                rw [htr] at heq
                exact sortRoutes_sorted _ l heq

theorem ptMatchp_sorted (t : IPPrefixTree) (p : IPPfx) (attrs : Attrs) :
    sortedOut (t.matchp p attrs) := by
  intro l heq
  unfold IPPrefixTree.matchp at heq
  cases hroot : t.root.find? starK with
  | none =>
      rw [hroot] at heq
      dsimp only at heq
      cases hm : ptMatchGo (bits_in_pfx p) t.root [] with
      | error e =>
          rw [hm] at heq
          exact Except.noConfusion heq
      | ok ms =>
          rw [hm] at heq
          exact sortRoutes_sorted _ l heq
  | some w =>
      rw [hroot] at heq
      cases w with
      | dict x => exact Except.noConfusion heq
      | routes rs =>
          dsimp only at heq
          cases hm : ptMatchGo (bits_in_pfx p) t.root rs with
          | error e =>
              rw [hm] at heq
              exact Except.noConfusion heq
          | ok ms =>
              rw [hm] at heq
              exact sortRoutes_sorted _ l heq

theorem rtMatchp_sorted (u : IPRadixTree) (p : IPPfx) (attrs : Attrs) :
    sortedOut (u.matchp p attrs) := by
  intro l heq
  unfold IPRadixTree.matchp at heq
  dsimp only at heq
  cases hroot : u.root.find? starK with
  | none =>
      rw [hroot] at heq
      dsimp only at heq
      cases hm : rtMatchGo
          (fuelFor (new_dict_without_key starK u.root).reverse (bits_in_pfx p))
          (new_dict_without_key starK u.root).reverse (bits_in_pfx p) [] with
      | error e =>
          rw [hm] at heq
          exact Except.noConfusion heq
      | ok ms =>
          rw [hm] at heq
          exact sortRoutes_sorted _ l heq
  | some w =>
      rw [hroot] at heq
      cases w with
      | dict x => exact Except.noConfusion heq
      | routes rs =>
          dsimp only at heq
          cases hm : rtMatchGo
              (fuelFor (new_dict_without_key starK u.root).reverse
                (bits_in_pfx p))
              (new_dict_without_key starK u.root).reverse (bits_in_pfx p)
              rs with
          | error e =>
              rw [hm] at heq
              exact Except.noConfusion heq
          | ok ms =>
              rw [hm] at heq
              exact sortRoutes_sorted _ l heq

theorem ptShow_sorted (t : IPPrefixTree) (v : Nat)
    (hp : pathsOk [] t.root = true) (hv : allVer v t.root = true)
    (p? : Option IPPfx) (as_root : Bool) (attrs : Attrs) :
    sortedOut (t.show p? as_root attrs) := by
  intro l heq
  unfold IPPrefixTree.show at heq
  by_cases hg : as_root && p?.isNone
  · rw [if_pos hg] at heq
    exact Except.noConfusion heq
  · rw [if_neg hg] at heq
    cases p? with
    | none =>
        dsimp only at heq
        cases htr : traverseD t.root attrs with
        | error e =>
            rw [htr] at heq
            exact Except.noConfusion heq
        | ok rs =>
            rw [htr] at heq
            exact sortRoutes_sorted _ l heq
    | some p =>
        dsimp only at heq
        cases hdesc : ptShowDescend (bits_in_pfx p) (.dict t.root) with
        | none =>
            rw [hdesc] at heq
            injection heq with h
            rw [← h]
            exact List.sorted_nil
        | some ptr =>
            rw [hdesc] at heq
            dsimp only at heq
            by_cases har : (!as_root) = true
            · rw [if_pos har] at heq
              cases ptr with
              | routes rs => exact Except.noConfusion heq
              | dict d =>
                  dsimp only at heq
                  cases hst : d.find? starK with
                  | none =>
                      rw [hst] at heq
                      injection heq with h
                      rw [← h]
                      exact List.sorted_nil
                  | some w =>
                      rw [hst] at heq
                      cases w with
                      | dict x => exact Except.noConfusion heq
                      | routes rs =>
                          injection heq with h
                          rw [← h]
                          obtain ⟨pre', hp', hv'⟩ := ptShowDescend_dict v
                            (bits_in_pfx p) t.root [] hp hv d hdesc
                          exact bucket_result_sorted pre' d v hp' hv' rs hst attrs
            · rw [if_neg har] at heq
              cases ptr with
              | routes rs => exact Except.noConfusion heq
              | dict d =>
                  dsimp only at heq
                  cases htr : traverseD d attrs with
                  | error e =>
                      rw [htr] at heq
                      exact Except.noConfusion heq
                  | ok rs =>
                      rw [htr] at heq
                      exact sortRoutes_sorted _ l heq

theorem rtShow_sorted (u : IPRadixTree) (v : Nat)
    (hp : pathsOk [] u.root = true) (hv : allVer v u.root = true)
    (p? : Option IPPfx) (as_root : Bool) (attrs : Attrs) :
    sortedOut (u.show p? as_root attrs) := by
  intro l heq
  unfold IPRadixTree.show at heq
  by_cases hg : as_root && p?.isNone
  · rw [if_pos hg] at heq
    exact Except.noConfusion heq
  · rw [if_neg hg] at heq
    cases p? with
    | none =>
        dsimp only at heq
        cases htr : traverseD u.root attrs with
        | error e =>
            rw [htr] at heq
            exact Except.noConfusion heq
        | ok rs =>
            rw [htr] at heq
            exact sortRoutes_sorted _ l heq
    | some p =>
        dsimp only at heq
        cases hwalk : rtShowGo
            (fuelFor (new_dict_without_key starK u.root).reverse
              (bits_in_pfx p))
            (new_dict_without_key starK u.root).reverse (bits_in_pfx p)
            u.root with
        | error e =>
            rw [hwalk] at heq
            exact Except.noConfusion heq
        | ok pr =>
            obtain ⟨ptr, rem⟩ := pr
            rw [hwalk] at heq
            dsimp only at heq
            have hws : ∀ e ∈ (new_dict_without_key starK u.root).reverse,
                pathsOkEntry [] e.1 e.2 = true ∧ allVerEntry v e.2 = true := by
              intro e he
              rw [List.mem_reverse] at he
              have hmem : e ∈ u.root.toList := by
                have h0 := (by simpa [new_dict_without_key] using he :
                  e ∈ u.root.toList ∧ ¬ e.1 = starK)
                exact h0.1
              exact ⟨pathsOk_toList [] u.root hp e hmem,
                allVer_toList v u.root hv e hmem⟩
            by_cases hrem : rem ≠ []
            · rw [if_pos hrem] at heq
              injection heq with h
              rw [← h]
              exact List.sorted_nil
            · rw [if_neg hrem] at heq
              by_cases har : (!as_root) = true
              · rw [if_pos har] at heq
                cases hst : ptr.find? starK with
                | none =>
                    rw [hst] at heq
                    injection heq with h
                    rw [← h]
                    exact List.sorted_nil
                | some w =>
                    rw [hst] at heq
                    cases w with
                    | dict x => exact Except.noConfusion heq
                    | routes rs =>
                        injection heq with h
                        rw [← h]
                        obtain ⟨pre', hp', hv'⟩ := rtShowGo_inv v _
                          (new_dict_without_key starK u.root).reverse
                          (bits_in_pfx p) u.root [] hp hv hws ptr rem hwalk
                        exact bucket_result_sorted pre' ptr v hp' hv' rs hst attrs
              · rw [if_neg har] at heq
                cases htr : traverseD ptr attrs with
                | error e =>
                    rw [htr] at heq
                    exact Except.noConfusion heq
                | ok rs =>
                    rw [htr] at heq
                    exact sortRoutes_sorted _ l heq

/-- C8 (amended): on a single-family table satisfying the data-model
invariants, every list returned by `show` (all argument modes), `children`,
`match` and `wcmatch`, on either trie, is sorted ascending by
(network id, prefix length); and the sorting step is stable, so routes with
identical prefixes retain their pre-sort relative order.  (The original
claim's mixed-family clause is refuted separately: there the sort raises
`TypeError`.) -/
theorem claim8_results_sorted_stable (t : IPPrefixTree) (u : IPRadixTree)
    (v : Nat)
    (hpt : pathsOk [] t.root = true) (hat : allVer v t.root = true)
    (hpu : pathsOk [] u.root = true) (hau : allVer v u.root = true) :
    (∀ p? as_root attrs, sortedOut (t.show p? as_root attrs)) ∧
    (∀ p attrs, sortedOut (t.children p attrs)) ∧
    (∀ p attrs, sortedOut (t.matchp p attrs)) ∧
    (∀ a w attrs, sortedOut (t.wcmatch a w attrs)) ∧
    (∀ p? as_root attrs, sortedOut (u.show p? as_root attrs)) ∧
    (∀ p attrs, sortedOut (u.children p attrs)) ∧
    (∀ p attrs, sortedOut (u.matchp p attrs)) ∧
    (∀ a w attrs, sortedOut (u.wcmatch a w attrs)) ∧
    (∀ rs l, sortRoutes rs = .ok l → ∀ q : IPPfx,
      l.filter (fun r => r.pfx == q) = rs.filter (fun r => r.pfx == q)) :=
  ⟨fun p? ar attrs => ptShow_sorted t v hpt hat p? ar attrs,
   fun p attrs => ptChildren_sorted t p attrs,
   fun p attrs => ptMatchp_sorted t p attrs,
   fun a w attrs => ptWcmatch_sorted t a w attrs,
   fun p? ar attrs => rtShow_sorted u v hpu hau p? ar attrs,
   fun p attrs => rtChildren_sorted u p attrs,
   fun p attrs => rtMatchp_sorted u p attrs,
   fun a w attrs => rtWcmatch_sorted u a w attrs,
   fun rs l h q => sortRoutes_stable rs l h q⟩

theorem claim8_witness :
    (pathsOk [] wPT.root = true ∧ allVer 4 wPT.root = true ∧
     pathsOk [] wRT.root = true ∧ allVer 4 wRT.root = true) ∧
    ((∀ p? as_root attrs, sortedOut (wPT.show p? as_root attrs)) ∧
     (∀ p attrs, sortedOut (wPT.children p attrs)) ∧
     (∀ p attrs, sortedOut (wPT.matchp p attrs)) ∧
     (∀ a w attrs, sortedOut (wPT.wcmatch a w attrs)) ∧
     (∀ p? as_root attrs, sortedOut (wRT.show p? as_root attrs)) ∧
     (∀ p attrs, sortedOut (wRT.children p attrs)) ∧
     (∀ p attrs, sortedOut (wRT.matchp p attrs)) ∧
     (∀ a w attrs, sortedOut (wRT.wcmatch a w attrs)) ∧
     (∀ rs l, sortRoutes rs = .ok l → ∀ q : IPPfx,
       l.filter (fun r => r.pfx == q) = rs.filter (fun r => r.pfx == q))) :=
  ⟨⟨by decide, by decide, by decide, by decide⟩,
   claim8_results_sorted_stable wPT wRT 4 (by decide) (by decide) (by decide)
     (by decide)⟩
